import Mathlib

set_option linter.unusedVariables false

namespace Bench

/-
Shallow embedding of the three instrumented sorts (`quick_sort.c`, `merge_sort.c`,
`heap_sort.c`) and of the dataset file format (`sample_generator.c`, `read_data_from_dat`).

* An array `long long *arr` of length `n` is a `List Int`; every read and write goes through
  the bounds-checked `rd` and `wr`, so an out-of-bounds access is the result
  `Except.error Fault.outOfBounds` and never a value.
* Indices and counters are `long long` in the source and `Int` here. The sorts only compare and
  move array elements, and every index they compute lies between `-1` and `2 * n + 2`, which
  for an array that fits in memory is far from `2 ^ 63`; no arithmetic wraps.
* Recursion and loops take a `fuel : Nat`, spent only when a loop body or a recursive call is
  entered; running out is the result `Except.error Fault.outOfFuel`.
* The field `execution_time_sec` of `Metrics` and the two clock readings are left out: they do
  not influence the array or the counters.
* The run loop of `main`, the same in the three programs, is `run_loop`; the line it prints
  to the CSV file is a `Row` appended to a list.
* `generate_sample_sizes` computes on `int`: the constants of `config.h` are parameters there,
  and every `int` operation is reduced by `wrap32`.
-/

/-- Ways in which a run of the embedded C code can fail to produce a result. -/
inductive Fault where
  | outOfBounds
  | outOfFuel
  | uninitialised
  | allocFailed
deriving DecidableEq

/-- The counters of the struct `Metrics`. -/
structure Metrics where
  comparisons : Int
  exchanges : Int
deriving DecidableEq

/-- Checked array read `arr[i]`. -/
def rd {α : Type} (arr : List α) (i : Int) : Except Fault α :=
  if i < 0 then .error .outOfBounds
  else match arr[i.toNat]? with
    | some v => .ok v
    | none => .error .outOfBounds

/-- Checked array write `arr[i] = v`. -/
def wr {α : Type} (arr : List α) (i : Int) (v : α) : Except Fault (List α) :=
  if 0 ≤ i ∧ i < arr.length then .ok (arr.set i.toNat v) else .error .outOfBounds

/-- C integer division (truncation toward zero). -/
def cdiv (a b : Int) : Int := Int.tdiv a b

/-- The `for (j = low; j <= high - 1; j++)` loop of `partition`. -/
def partition_loop (pivot high : Int) :
    Nat → List Int → Int → Int → Metrics → Except Fault (List Int × Int × Metrics)
  | fuel, arr, i, j, m =>
    if j ≤ high - 1 then
      match fuel with
      | 0 => .error .outOfFuel
      | fuel + 1 => do
        let m := { m with comparisons := m.comparisons + 1 }
        let aj ← rd arr j
        if aj ≤ pivot then
          let i := i + 1
          let temp ← rd arr i
          let aj ← rd arr j
          let arr ← wr arr i aj
          let arr ← wr arr j temp
          let m := { m with exchanges := m.exchanges + 1 }
          partition_loop pivot high fuel arr i (j + 1) m
        else
          partition_loop pivot high fuel arr i (j + 1) m
    else .ok (arr, i, m)

/-- The function `partition(arr, low, high, metrics)`. -/
def partition (fuel : Nat) (arr : List Int) (low high : Int) (m : Metrics) :
    Except Fault (List Int × Int × Metrics) := do
  let pivot ← rd arr high
  let i := low - 1
  let (arr, i, m) ← partition_loop pivot high fuel arr i low m
  let temp ← rd arr (i + 1)
  let ah ← rd arr high
  let arr ← wr arr (i + 1) ah
  let arr ← wr arr high temp
  let m := { m with exchanges := m.exchanges + 1 }
  pure (arr, i + 1, m)

/-- The function `quick_sort_recursive(arr, low, high, metrics)`. -/
def quick_sort_recursive :
    Nat → List Int → Int → Int → Metrics → Except Fault (List Int × Metrics)
  | fuel, arr, low, high, m =>
    if low < high then
      match fuel with
      | 0 => .error .outOfFuel
      | fuel + 1 => do
        let (arr, pi, m) ← partition fuel arr low high m
        let (arr, m) ← quick_sort_recursive fuel arr low (pi - 1) m
        quick_sort_recursive fuel arr (pi + 1) high m
    else .ok (arr, m)

/-- The function `quick_sort(arr, n, metrics)`, without the clock readings. -/
def quick_sort (fuel : Nat) (arr : List Int) (n : Int) (m : Metrics) :
    Except Fault (List Int × Metrics) :=
  let m := { m with comparisons := 0, exchanges := 0 }
  quick_sort_recursive fuel arr 0 (n - 1) m



/-- The two `malloc` + `memcpy(dst, arr + off, cnt * sizeof(long long))` lines of `merge`:
a fresh buffer holding the `cnt` elements of `arr` that start at index `off`. -/
def copy_range {α : Type} (arr : List α) (off cnt : Int) : Except Fault (List α) :=
  if cnt < 0 ∨ off < 0 ∨ (arr.length : Int) < off + cnt then .error .outOfBounds
  else .ok ((arr.drop off.toNat).take cnt.toNat)

/-- First loop of `merge`: `while (i < n1 && j < n2)`. The element type and the key under which
elements are compared are parameters; the C program is the instance `α = Int`, `key = id`. -/
def merge_loop1 {α : Type} (key : α → Int) (L R : List α) (n1 n2 : Int) :
    Nat → List α → Int → Int → Int → Metrics →
      Except Fault (List α × Int × Int × Int × Metrics)
  | fuel, arr, i, j, k, m =>
    if i < n1 ∧ j < n2 then
      match fuel with
      | 0 => .error .outOfFuel
      | fuel + 1 => do
        let m := { m with comparisons := m.comparisons + 1 }
        let li ← rd L i
        let rj ← rd R j
        if key li ≤ key rj then
          let v ← rd L i
          let arr ← wr arr k v
          let m := { m with exchanges := m.exchanges + 1 }
          merge_loop1 key L R n1 n2 fuel arr (i + 1) j (k + 1) m
        else
          let v ← rd R j
          let arr ← wr arr k v
          let m := { m with exchanges := m.exchanges + 1 }
          merge_loop1 key L R n1 n2 fuel arr i (j + 1) (k + 1) m
    else .ok (arr, i, j, k, m)

/-- Second loop of `merge`: `while (i < n1)`, copying the rest of `L`. -/
def merge_loop2 {α : Type} (L : List α) (n1 : Int) :
    Nat → List α → Int → Int → Metrics → Except Fault (List α × Int × Int × Metrics)
  | fuel, arr, i, k, m =>
    if i < n1 then
      match fuel with
      | 0 => .error .outOfFuel
      | fuel + 1 => do
        let v ← rd L i
        let arr ← wr arr k v
        let m := { m with exchanges := m.exchanges + 1 }
        merge_loop2 L n1 fuel arr (i + 1) (k + 1) m
    else .ok (arr, i, k, m)

/-- Third loop of `merge`: `while (j < n2)`, copying the rest of `R`. -/
def merge_loop3 {α : Type} (R : List α) (n2 : Int) :
    Nat → List α → Int → Int → Metrics → Except Fault (List α × Int × Int × Metrics)
  | fuel, arr, j, k, m =>
    if j < n2 then
      match fuel with
      | 0 => .error .outOfFuel
      | fuel + 1 => do
        let v ← rd R j
        let arr ← wr arr k v
        let m := { m with exchanges := m.exchanges + 1 }
        merge_loop3 R n2 fuel arr (j + 1) (k + 1) m
    else .ok (arr, j, k, m)

/-- The function `merge(arr, l, m, r, metrics)`; the middle index is called `mid` here. -/
def merge {α : Type} (key : α → Int) (fuel : Nat) (arr : List α) (l mid r : Int)
    (m : Metrics) : Except Fault (List α × Metrics) := do
  let n1 := mid - l + 1
  let n2 := r - mid
  let L ← copy_range arr l n1
  let R ← copy_range arr (mid + 1) n2
  let (arr, i, j, k, m) ← merge_loop1 key L R n1 n2 fuel arr 0 0 l m
  let (arr, _, k, m) ← merge_loop2 L n1 fuel arr i k m
  let (arr, _, _, m) ← merge_loop3 R n2 fuel arr j k m
  pure (arr, m)

/-- The function `merge_sort_recursive(arr, l, r, metrics)`. -/
def merge_sort_recursive {α : Type} (key : α → Int) :
    Nat → List α → Int → Int → Metrics → Except Fault (List α × Metrics)
  | fuel, arr, l, r, m =>
    if l < r then
      match fuel with
      | 0 => .error .outOfFuel
      | fuel + 1 => do
        let mid := l + cdiv (r - l) 2
        let (arr, m) ← merge_sort_recursive key fuel arr l mid m
        let (arr, m) ← merge_sort_recursive key fuel arr (mid + 1) r m
        merge key fuel arr l mid r m
    else .ok (arr, m)

/-- The function `merge_sort(arr, n, metrics)`, without the clock readings. -/
def merge_sort {α : Type} (key : α → Int) (fuel : Nat) (arr : List α) (n : Int)
    (m : Metrics) : Except Fault (List α × Metrics) :=
  let m := { m with comparisons := 0, exchanges := 0 }
  merge_sort_recursive key fuel arr 0 (n - 1) m

/-- The function `heapify(arr, n, i, metrics)`. -/
def heapify : Nat → List Int → Int → Int → Metrics → Except Fault (List Int × Metrics)
  | fuel, arr, n, i, m => do
    let largest := i
    let left := 2 * i + 1
    let right := 2 * i + 2
    let (largest, m) ←
      if left < n then do
        let m := { m with comparisons := m.comparisons + 1 }
        let al ← rd arr left
        let ag ← rd arr largest
        if al > ag then pure (left, m) else pure (largest, m)
      else pure (largest, m)
    let (largest, m) ←
      if right < n then do
        let m := { m with comparisons := m.comparisons + 1 }
        let ar ← rd arr right
        let ag ← rd arr largest
        if ar > ag then pure (right, m) else pure (largest, m)
      else pure (largest, m)
    if largest ≠ i then
      let temp ← rd arr i
      let ag ← rd arr largest
      let arr ← wr arr i ag
      let arr ← wr arr largest temp
      let m := { m with exchanges := m.exchanges + 1 }
      match fuel with
      | 0 => .error .outOfFuel
      | fuel + 1 => heapify fuel arr n largest m
    else pure (arr, m)

/-- First loop of `heap_sort`: `for (i = n / 2 - 1; i >= 0; i--) heapify(arr, n, i)`.
The argument `hfuel` is the fuel handed to each `heapify` call. -/
def heap_sort_build (hfuel : Nat) (n : Int) :
    Nat → List Int → Int → Metrics → Except Fault (List Int × Metrics)
  | fuel, arr, i, m =>
    if i ≥ 0 then
      match fuel with
      | 0 => .error .outOfFuel
      | fuel + 1 => do
        let (arr, m) ← heapify hfuel arr n i m
        heap_sort_build hfuel n fuel arr (i - 1) m
    else .ok (arr, m)

/-- Second loop of `heap_sort`: `for (i = n - 1; i >= 0; i--)`, swapping the root with
`arr[i]` and calling `heapify(arr, i, 0)`. -/
def heap_sort_extract (hfuel : Nat) :
    Nat → List Int → Int → Metrics → Except Fault (List Int × Metrics)
  | fuel, arr, i, m =>
    if i ≥ 0 then
      match fuel with
      | 0 => .error .outOfFuel
      | fuel + 1 => do
        let temp ← rd arr 0
        let ai ← rd arr i
        let arr ← wr arr 0 ai
        let arr ← wr arr i temp
        let m := { m with exchanges := m.exchanges + 1 }
        let (arr, m) ← heapify hfuel arr i 0 m
        heap_sort_extract hfuel fuel arr (i - 1) m
    else .ok (arr, m)

/-- The function `heap_sort(arr, n, metrics)`, without the clock readings. -/
def heap_sort (fuel : Nat) (arr : List Int) (n : Int) (m : Metrics) :
    Except Fault (List Int × Metrics) := do
  let m := { m with comparisons := 0, exchanges := 0 }
  let (arr, m) ← heap_sort_build fuel n fuel arr (cdiv n 2 - 1) m
  heap_sort_extract fuel fuel arr (n - 1) m

/-- The two `fwrite` calls of the generator's `main` for one dataset, on a file modelled as the
sequence of its 8-byte words: first the word `size`, then `size` words taken from `data`. -/
def write_dat (size : Int) (data : List Int) : List Int :=
  [size] ++ data.take size.toNat

/-- The function `read_data_from_dat` on a file modelled as its sequence of 8-byte words.
The first `fread` fills `size`; without a first word `size` would stay uninitialised. `malloc`
is taken to succeed for every non-negative size, and a negative size asks for more memory than
exists. The second `fread` fills the first words of the fresh buffer with the words present in
the file; words it cannot read keep the indeterminate content `garbage` of the buffer. -/
def read_data_from_dat (garbage : Nat → Int) (file : List Int) :
    Except Fault (Int × List Int) :=
  match file with
  | [] => .error .uninitialised
  | size :: rest =>
    if size < 0 then .error .allocFailed
    else .ok (size, (List.range size.toNat).map (fun k => (rest[k]?).getD (garbage k)))

/-- The constant `NUM_RUNS` of `config.h`. -/
def NUM_RUNS : Int := 10

/-- One line of the CSV report, without the distribution label and the execution time. -/
structure Row where
  size : Int
  run : Int
  comparisons : Int
  exchanges : Int
deriving DecidableEq

/-- The call `memcpy(dst, src, cnt * sizeof(long long))`: the first `cnt` elements of `dst`
are overwritten with the first `cnt` elements of `src`. -/
def memcpy_all (dst src : List Int) (cnt : Int) : Except Fault (List Int) :=
  if cnt < 0 ∨ (dst.length : Int) < cnt ∨ (src.length : Int) < cnt then .error .outOfBounds
  else .ok (src.take cnt.toNat ++ dst.drop cnt.toNat)

/-- The loop `for (run = 1; run <= NUM_RUNS; run++)` of `main`, for the sort `sort` the
driver calls: copy the original data into the working array `data`, sort it with a `Metrics`
variable whose initial content `junk run` is indeterminate, and append a row to the report. -/
def run_loop (sort : Nat → List Int → Int → Metrics → Except Fault (List Int × Metrics))
    (sfuel : Nat) (original_data : List Int) (data_size : Int) (junk : Int → Metrics) :
    Nat → Int → List Int → List Row → Except Fault (List Int × List Row)
  | fuel, run, data, csv =>
    if run ≤ NUM_RUNS then
      match fuel with
      | 0 => .error .outOfFuel
      | fuel + 1 => do
        let data ← memcpy_all data original_data data_size
        let (data, metrics) ← sort sfuel data data_size (junk run)
        let csv := csv ++ [⟨data_size, run, metrics.comparisons, metrics.exchanges⟩]
        run_loop sort sfuel original_data data_size junk fuel (run + 1) data csv
    else .ok (data, csv)

/-- The value of a C `int` (32 bits, two's complement) that an `int` operation with the
mathematical result `x` leaves: `x` itself when it fits, and otherwise `x` reduced modulo
`2 ^ 32` into the range of `int`, which is what the addition and subtraction instructions of
the machine produce when a signed operation overflows. -/
def wrap32 (x : Int) : Int := (x + 2147483648) % 4294967296 - 2147483648

/-- The macro `MAX_SIZES` of `config.h`, `((END_SIZE) - (START_SIZE)) / (STEP_SIZE) + 1` in
`int` arithmetic, for the constants `START_SIZE`, `END_SIZE`, `STEP_SIZE` taken as
parameters. -/
def MAX_SIZES (START_SIZE END_SIZE STEP_SIZE : Int) : Int :=
  wrap32 (wrap32 (cdiv (wrap32 (END_SIZE - START_SIZE)) STEP_SIZE) + 1)

/-- The loop `for (int size = START_SIZE; size <= END_SIZE; size += STEP_SIZE)` of
`generate_sample_sizes`, with body `sizes[count++] = size`. -/
def generate_sample_sizes_loop (END_SIZE STEP_SIZE : Int) :
    Nat → Int → Int → List Int → Except Fault (Int × List Int)
  | fuel, size, count, sizes =>
    if size ≤ END_SIZE then
      match fuel with
      | 0 => .error .outOfFuel
      | fuel + 1 => do
        let sizes ← wr sizes count size
        generate_sample_sizes_loop END_SIZE STEP_SIZE fuel (wrap32 (size + STEP_SIZE))
          (wrap32 (count + 1)) sizes
    else .ok (count, sizes)

/-- The function `generate_sample_sizes`, for the constants of `config.h` taken as parameters:
it returns the count and the buffer `sizes`. The buffer of `MAX_SIZES` ints that `malloc`
returns has the indeterminate content `garbage`; a negative `MAX_SIZES` asks for more memory
than exists. -/
def generate_sample_sizes (START_SIZE END_SIZE STEP_SIZE : Int) (garbage : Nat → Int)
    (fuel : Nat) : Except Fault (Int × List Int) :=
  if MAX_SIZES START_SIZE END_SIZE STEP_SIZE < 0 then .error .allocFailed
  else
    let sizes := (List.range (MAX_SIZES START_SIZE END_SIZE STEP_SIZE).toNat).map garbage
    generate_sample_sizes_loop END_SIZE STEP_SIZE fuel START_SIZE 0 sizes
/-- Element at a (signed) index, for stating properties of arrays. -/
def nth (arr : List Int) (i : Int) : Int := arr.getD i.toNat 0

/-- The array after exchanging the elements at indices `i` and `j`. -/
def swp (arr : List Int) (i j : Int) : List Int :=
  (arr.set i.toNat (nth arr j)).set j.toNat (nth arr i)

/-- The list `arr1` is `arr` with the block `X` written over the positions `k, k+1, ...`. -/
def wrote {α : Type} (arr : List α) (k : Nat) (X : List α) (arr1 : List α) : Prop :=
  k + X.length ≤ arr.length ∧ arr1 = arr.take k ++ X ++ arr.drop (k + X.length)

/-- The test `a <= b` of `merge`, on keys, as a boolean relation. -/
def kle {α : Type} (key : α → Int) (a b : α) : Bool := decide (key a ≤ key b)

/-- What the first loop of `merge` guarantees when started at `(i, j, k)`: it stops with one of
the two buffers exhausted, having written a block `X` from position `k` on, and `X` followed by
the unread rest of the buffers is the merge of what was unread at the start. -/
def loop1_post {α : Type} (key : α → Int) (L R : List α) (n1 n2 : Int) (arr : List α)
    (i j k : Int) (m : Metrics)
    (res : Except Fault (List α × Int × Int × Int × Metrics)) : Prop :=
  ∃ arr1 i1 j1 m1 X,
    res = .ok (arr1, i1, j1, k + (X.length : Int), m1) ∧
    wrote arr k.toNat X arr1 ∧ i ≤ i1 ∧ i1 ≤ n1 ∧ j ≤ j1 ∧ j1 ≤ n2 ∧
    (i1 = n1 ∨ j1 = n2) ∧ (i < n1 → j < n2 → i1 < n1 ∨ j1 < n2) ∧
    (¬ (i < n1 ∧ j < n2) → i1 = i ∧ j1 = j) ∧
    (X.length : Int) = (i1 - i) + (j1 - j) ∧
    X ++ (L.drop i1.toNat ++ R.drop j1.toNat)
      = List.merge (L.drop i.toNat) (R.drop j.toNat) (kle key) ∧
    m1.comparisons = m.comparisons + X.length ∧
    m1.exchanges = m.exchanges + X.length

/-- The pairs `(arr[i], i)`: every value of the array tagged with its original index. -/
def tagged (arr : List Int) : List (Int × Nat) := arr.zip (List.range arr.length)

/-- The order on pairs by value first and original index second. -/
def lexle (p q : Int × Nat) : Prop := p.1 < q.1 ∨ (p.1 = q.1 ∧ p.2 ≤ q.2)

instance lexle_decidable : DecidableRel lexle := fun p q => by
  unfold lexle
  infer_instance

instance lexle_total : IsTotal (Int × Nat) lexle := ⟨fun p q => by
  unfold lexle
  omega⟩

instance lexle_trans : IsTrans (Int × Nat) lexle := ⟨fun p q r => by
  unfold lexle
  omega⟩

instance lexle_antisymm : IsAntisymm (Int × Nat) lexle := ⟨fun p q => by
  unfold lexle
  intro h1 h2
  apply Prod.ext <;> omega⟩

/-- Node `j` of the heap `arr[0..n)` dominates its children. -/
def heap_at (arr : List Int) (n j : Int) : Prop :=
  (2 * j + 1 < n → nth arr (2 * j + 1) ≤ nth arr j) ∧
  (2 * j + 2 < n → nth arr (2 * j + 2) ≤ nth arr j)

/-- The value of the variable `largest` of `heapify` after its two tests. -/
def hlargest (arr : List Int) (n i : Int) : Int :=
  let l1 := if 2 * i + 1 < n ∧ nth arr (2 * i + 1) > nth arr i then 2 * i + 1 else i
  if 2 * i + 2 < n ∧ nth arr (2 * i + 2) > nth arr l1 then 2 * i + 2 else l1

/-- The number of comparisons one call of `heapify` counts before it recurses. -/
def hcmp (n i : Int) : Int :=
  (if 2 * i + 1 < n then 1 else 0) + (if 2 * i + 2 < n then 1 else 0)

/-- What a call `heapify(arr, n, i)` guarantees about its result `res`, for a heap that starts
at node `s`: only the first `n` elements are rearranged, and every node from `s` on dominates
its children afterwards. -/
def heapify_post (n s : Int) (arr : List Int) (m : Metrics)
    (res : Except Fault (List Int × Metrics)) : Prop :=
  ∃ arr1 m1, res = .ok (arr1, m1) ∧ arr1.length = arr.length ∧ arr1.Perm arr ∧
    (∀ k, 0 ≤ k → n ≤ k → nth arr1 k = nth arr k) ∧
    (∀ P : Int → Prop, (∀ k, 0 ≤ k → k < n → P (nth arr k)) →
      ∀ k, 0 ≤ k → k < n → P (nth arr1 k)) ∧
    (∀ j, s ≤ j → j < n → heap_at arr1 n j) ∧
    m.comparisons ≤ m1.comparisons ∧ m.exchanges ≤ m1.exchanges

/-- Equality of results of the embedding is decidable, so that runs on concrete inputs can be
evaluated. -/
instance except_decEq {ε α : Type} [DecidableEq ε] [DecidableEq α] : DecidableEq (Except ε α)
  | .ok x, .ok y => if h : x = y then isTrue (by rw [h]) else isFalse (fun e => h (by cases e; rfl))
  | .error x, .error y =>
    if h : x = y then isTrue (by rw [h]) else isFalse (fun e => h (by cases e; rfl))
  | .ok _, .error _ => isFalse (fun e => by cases e)
  | .error _, .ok _ => isFalse (fun e => by cases e)

/-- The elements `arr[low], ..., arr[high]` of an array, as a list. -/
def slice (arr : List Int) (low high : Int) : List Int :=
  (arr.drop low.toNat).take (high - low + 1).toNat

/-- The number of indices `k` among `j, j + 1, ..., j + len - 1` with `arr[k] <= pivot`. -/
def count_le (arr : List Int) (pivot : Int) : Nat → Int → Int
  | 0, _ => 0
  | len + 1, j => (if nth arr j ≤ pivot then 1 else 0) + count_le arr pivot len (j + 1)

/-- The triangular number `1 + 2 + ... + d`. -/
def tri : Nat → Int
  | 0 => 0
  | d + 1 => tri d + (d + 1)

/-- Index `k` lies in the subtree of the implicit binary heap that is rooted at index `c`:
`k` is reached from `c` by steps to the left child `2k+1` or to the right child `2k+2`. -/
inductive Desc (c : Int) : Int → Prop
  | root : Desc c c
  | left (k : Int) : Desc c k → Desc c (2 * k + 1)
  | right (k : Int) : Desc c k → Desc c (2 * k + 2)

/-- The number `E(n)` of exchanges `merge_sort` counts on an array of length `n`:
`E(0) = E(1) = 0` and `E(n) = E(ceil(n/2)) + E(floor(n/2)) + n` for `n >= 2`. -/
def merge_exchanges (n : Nat) : Nat :=
  if h : n ≤ 1 then 0
  else merge_exchanges ((n + 1) / 2) + merge_exchanges (n / 2) + n
termination_by n
decreasing_by
  all_goals omega


/-- The outcome `r1` of a run with less fuel agrees with the outcome `r2` of the same run with
more fuel: either the shorter run ran out of fuel, or both runs end in the same way. -/
def fuel_le {α : Type} (r1 r2 : Except Fault α) : Prop :=
  r1 = .error .outOfFuel ∨ r1 = r2
theorem cdiv_two (x : Int) (hx : 0 ≤ x) : cdiv x 2 = x / 2 :=
  Int.tdiv_eq_ediv hx (by decide)


theorem bind_ok {ε α β : Type} (v : α) (f : α → Except ε β) :
    (Except.ok v >>= f) = f v := rfl

theorem rd_eq (arr : List Int) (i : Int) (h0 : 0 ≤ i) (h1 : i < arr.length) :
    rd arr i = .ok (nth arr i) := by
  have hlt : i.toNat < arr.length := by omega
  simp [rd, nth, h0, List.getD, List.getElem?_eq_getElem hlt]

theorem wr_eq {α : Type} (arr : List α) (i : Int) (v : α) (h0 : 0 ≤ i) (h1 : i < arr.length) :
    wr arr i v = .ok (arr.set i.toNat v) := by
  simp [wr, h0, h1]

theorem nth_set (arr : List Int) (i k : Int) (v : Int) (h0 : 0 ≤ i) (h1 : i < arr.length)
    (hk : 0 ≤ k) :
    nth (arr.set i.toNat v) k = if k = i then v else nth arr k := by
  unfold nth
  by_cases hki : k = i
  · subst hki
    have : k.toNat < arr.length := by omega
    simp [List.getD, this]
  · have : i.toNat ≠ k.toNat := by omega
    simp [List.getD, List.getElem?_set_ne this, hki]

theorem set_cons_perm {α : Type} : ∀ (t : List α) (k : Nat) (x v : α), t[k]? = some v →
    (v :: t.set k x).Perm (x :: t)
  | [], k, x, v, h => by simp at h
  | y :: s, 0, x, v, h => by
    simp at h
    subst h
    simpa using List.Perm.swap x y s
  | y :: s, k + 1, x, v, h => by
    simp at h
    have ih := set_cons_perm s k x v h
    simp only [List.set_cons_succ]
    exact (List.Perm.swap y v _).trans ((ih.cons y).trans (List.Perm.swap x y s))

theorem swap_perm {α : Type} : ∀ (l : List α) (i j : Nat) (x y : α), l[i]? = some x → l[j]? = some y →
    ((l.set i y).set j x).Perm l
  | [], i, j, x, y, hi, hj => by simp at hi
  | a :: t, 0, 0, x, y, hi, hj => by
    simp at hi hj
    subst hi
    simp
  | a :: t, 0, j + 1, x, y, hi, hj => by
    simp at hi hj
    subst hi
    simpa using set_cons_perm t j a y hj
  | a :: t, i + 1, 0, x, y, hi, hj => by
    simp at hi hj
    subst hj
    simpa using set_cons_perm t i a x hi
  | a :: t, i + 1, j + 1, x, y, hi, hj => by
    simp at hi hj
    simpa using swap_perm t i j x y hi hj



theorem swp_length (arr : List Int) (i j : Int) : (swp arr i j).length = arr.length := by
  simp [swp]

theorem getElem?_nth (arr : List Int) (i : Int) (h0 : 0 ≤ i) (h1 : i < arr.length) :
    arr[i.toNat]? = some (nth arr i) := by
  have hlt : i.toNat < arr.length := by omega
  simp [nth, List.getD, List.getElem?_eq_getElem hlt]

theorem swp_perm (arr : List Int) (i j : Int) (hi0 : 0 ≤ i) (hi1 : i < arr.length)
    (hj0 : 0 ≤ j) (hj1 : j < arr.length) : (swp arr i j).Perm arr :=
  swap_perm arr i.toNat j.toNat _ _ (getElem?_nth arr i hi0 hi1) (getElem?_nth arr j hj0 hj1)

theorem nth_swp (arr : List Int) (i j k : Int) (hi0 : 0 ≤ i) (hi1 : i < arr.length)
    (hj0 : 0 ≤ j) (hj1 : j < arr.length) (hk : 0 ≤ k) :
    nth (swp arr i j) k = if k = j then nth arr i else if k = i then nth arr j else nth arr k := by
  unfold swp
  rw [nth_set _ j k _ hj0 (by simpa using hj1) hk, nth_set _ i k _ hi0 hi1 hk]

theorem nth_neg (arr : List Int) (k : Int) (hk : k < 0) : nth arr k = nth arr 0 := by
  unfold nth
  have : k.toNat = 0 := by omega
  rw [this]; rfl

theorem partition_loop_spec (pivot high low : Int) :
    ∀ (fuel : Nat) (arr : List Int) (i j : Int) (m : Metrics),
      0 ≤ low → high < arr.length → low ≤ j → j ≤ high → low - 1 ≤ i → i < j →
      high - j ≤ fuel →
      (∀ k, low ≤ k → k ≤ i → nth arr k ≤ pivot) →
      (∀ k, i < k → k < j → pivot < nth arr k) →
      ∃ arr1 i1 m1, partition_loop pivot high fuel arr i j m = .ok (arr1, i1, m1) ∧
        arr1.length = arr.length ∧ arr1.Perm arr ∧
        (∀ k, 0 ≤ k → (k < low ∨ high ≤ k) → nth arr1 k = nth arr k) ∧
        i ≤ i1 ∧ i1 < high ∧
        (∀ k, low ≤ k → k ≤ i1 → nth arr1 k ≤ pivot) ∧
        (∀ k, i1 < k → k < high → pivot < nth arr1 k) ∧
        (∀ P : Int → Prop, (∀ k, low ≤ k → k ≤ high → P (nth arr k)) →
          ∀ k, low ≤ k → k ≤ high → P (nth arr1 k)) ∧
        m1.comparisons = m.comparisons + (high - j) ∧
        m1.exchanges = m.exchanges + (i1 - i) ∧ i1 - i ≤ high - j := by
  intro fuel
  induction fuel with
  | zero =>
    intro arr i j m h0 hh hlj hjh hli hij hf hle hgt
    have hj : j = high := by omega
    subst hj
    refine ⟨arr, i, m, ?_, rfl, List.Perm.refl _, fun _ _ _ => rfl, le_refl _, hij, hle, hgt,
      fun P hP => hP, by omega, by omega, by omega⟩
    unfold partition_loop
    simp
  | succ fuel ih =>
    intro arr i j m h0 hh hlj hjh hli hij hf hle hgt
    by_cases hc : j ≤ high - 1
    · unfold partition_loop
      rw [if_pos hc]
      simp only []
      rw [rd_eq arr j (by omega) (by omega)]
      simp only [bind_ok]
      by_cases hp : nth arr j ≤ pivot
      · rw [if_pos hp]
        rw [rd_eq arr (i + 1) (by omega) (by omega)]
        simp only [bind_ok]
        rw [wr_eq arr (i + 1) _ (by omega) (by omega)]
        simp only [bind_ok]
        rw [wr_eq _ j _ (by omega) (by simp; omega)]
        simp only [bind_ok]
        change ∃ arr1 i1 m1, partition_loop pivot high fuel (swp arr (i + 1) j) (i + 1) (j + 1)
          { comparisons := m.comparisons + 1, exchanges := m.exchanges + 1 } = _ ∧ _
        have hnth : ∀ k, 0 ≤ k → nth (swp arr (i + 1) j) k =
            if k = j then nth arr (i + 1) else if k = i + 1 then nth arr j else nth arr k :=
          fun k hk => nth_swp arr (i + 1) j k (by omega) (by omega) (by omega) (by omega) hk
        obtain ⟨arr1, i1, m1, hrun, hlen, hperm, hout, hi1, hi1h, hle1, hgt1, hP1, hc1, he1, he2⟩ :=
          ih (swp arr (i + 1) j) (i + 1) (j + 1)
            { comparisons := m.comparisons + 1, exchanges := m.exchanges + 1 } h0
            (by rw [swp_length]; exact hh) (by omega) (by omega) (by omega) (by omega)
            (by push_cast at hf ⊢; omega)
            (by
              intro k hk1 hk2
              rw [hnth k (by omega)]
              split_ifs with h1 h2
              · by_cases hij1 : i + 1 = j
                · rw [hij1]; exact hp
                · exact absurd h1 (by omega)
              · exact hp
              · exact hle k hk1 (by omega))
            (by
              intro k hk1 hk2
              rw [hnth k (by omega)]
              split_ifs with h1 h2
              · exact hgt (i + 1) (by omega) (by omega)
              · exact absurd h2 (by omega)
              · exact hgt k (by omega) (by omega))
        dsimp only at hc1 he1 he2
        refine ⟨arr1, i1, m1, hrun, by rw [hlen, swp_length],
          hperm.trans (swp_perm arr (i + 1) j (by omega) (by omega) (by omega) (by omega)),
          ?_, by omega, hi1h, hle1, hgt1, ?_, by omega, by omega, by omega⟩
        · intro k hk0 hk
          rw [hout k hk0 hk, hnth k hk0]
          rw [if_neg (by omega), if_neg (by omega)]
        · intro P hP
          apply hP1 P
          intro k hk1 hk2
          rw [hnth k (by omega)]
          split_ifs with h1 h2
          · exact hP (i + 1) (by omega) (by omega)
          · exact hP j (by omega) (by omega)
          · exact hP k hk1 hk2
      · rw [if_neg hp]
        obtain ⟨arr1, i1, m1, hrun, hlen, hperm, hout, hi1, hi1h, hle1, hgt1, hP1, hc1, he1, he2⟩ :=
          ih arr i (j + 1) { comparisons := m.comparisons + 1, exchanges := m.exchanges } h0
            hh (by omega) (by omega) (by omega) (by omega)
            (by push_cast at hf ⊢; omega) hle
            (by
              intro k hk1 hk2
              by_cases hkj : k = j
              · rw [hkj]; omega
              · exact hgt k hk1 (by omega))
        dsimp only at hc1 he1 he2
        exact ⟨arr1, i1, m1, hrun, hlen, hperm, hout, hi1, hi1h, hle1, hgt1, hP1,
          by omega, by omega, by omega⟩
    · have hj : j = high := by omega
      subst hj
      refine ⟨arr, i, m, ?_, rfl, List.Perm.refl _, fun _ _ _ => rfl, le_refl _, hij, hle, hgt,
        fun P hP => hP, by omega, by omega, by omega⟩
      unfold partition_loop
      simp


theorem partition_spec (fuel : Nat) (arr : List Int) (low high : Int) (m : Metrics)
    (h0 : 0 ≤ low) (hlh : low ≤ high) (hh : high < arr.length) (hf : high - low ≤ fuel) :
    ∃ arr1 p m1, partition fuel arr low high m = .ok (arr1, p, m1) ∧
      arr1.length = arr.length ∧ arr1.Perm arr ∧
      (∀ k, 0 ≤ k → (k < low ∨ high < k) → nth arr1 k = nth arr k) ∧
      low ≤ p ∧ p ≤ high ∧ nth arr1 p = nth arr high ∧
      (∀ k, low ≤ k → k < p → nth arr1 k ≤ nth arr1 p) ∧
      (∀ k, p < k → k ≤ high → nth arr1 p < nth arr1 k) ∧
      (∀ P : Int → Prop, (∀ k, low ≤ k → k ≤ high → P (nth arr k)) →
        ∀ k, low ≤ k → k ≤ high → P (nth arr1 k)) ∧
      m1.comparisons = m.comparisons + (high - low) ∧
      m1.exchanges = m.exchanges + (p - low) + 1 := by
  obtain ⟨arr1, i1, m1, hrun, hlen, hperm, hout, hi1, hi1h, hle1, hgt1, hP1, hc1, he1, he2⟩ :=
    partition_loop_spec (nth arr high) high low fuel arr (low - 1) low m h0 hh (le_refl _) hlh
      (le_refl _) (by omega) hf (fun k h1 h2 => absurd h1 (by omega))
      (fun k h1 h2 => absurd h1 (by omega))
  have hnth : ∀ k, 0 ≤ k → nth (swp arr1 (i1 + 1) high) k =
      if k = high then nth arr1 (i1 + 1) else if k = i1 + 1 then nth arr1 high else nth arr1 k :=
    fun k hk => nth_swp arr1 (i1 + 1) high k (by omega) (by omega) (by omega) (by omega) hk
  have hpiv : nth arr1 high = nth arr high := hout high (by omega) (Or.inr (le_refl _))
  have hself : nth (swp arr1 (i1 + 1) high) (i1 + 1) = nth arr high := by
    rw [hnth _ (by omega)]
    by_cases h : i1 + 1 = high
    · rw [if_pos h, h, hpiv]
    · rw [if_neg h, if_pos rfl, hpiv]
  refine ⟨swp arr1 (i1 + 1) high, i1 + 1, { m1 with exchanges := m1.exchanges + 1 }, ?_,
    by rw [swp_length, hlen],
    (swp_perm arr1 (i1 + 1) high (by omega) (by omega) (by omega) (by omega)).trans hperm,
    ?_, by omega, by omega, hself, ?_, ?_, ?_, by dsimp only; omega, by dsimp only; omega⟩
  · unfold partition
    rw [rd_eq arr high (by omega) hh]
    simp only [bind_ok]
    rw [hrun]
    simp only [bind_ok]
    rw [rd_eq arr1 (i1 + 1) (by omega) (by omega), rd_eq arr1 high (by omega) (by omega)]
    simp only [bind_ok]
    rw [wr_eq arr1 (i1 + 1) _ (by omega) (by omega)]
    simp only [bind_ok]
    rw [wr_eq _ high _ (by omega) (by simp; omega)]
    rfl
  · intro k hk0 hk
    rw [hnth k hk0, if_neg (by omega), if_neg (by omega)]
    exact hout k hk0 (by omega)
  · intro k hk1 hk2
    rw [hself, hnth k (by omega), if_neg (by omega), if_neg (by omega)]
    exact hle1 k hk1 (by omega)
  · intro k hk1 hk2
    rw [hself, hnth k (by omega)]
    split_ifs with h1 h2
    · exact hgt1 (i1 + 1) (by omega) (by omega)
    · exact absurd h2 (by omega)
    · exact hgt1 k (by omega) (by omega)
  · intro P hP k hk1 hk2
    have hP2 := hP1 P hP
    rw [hnth k (by omega)]
    split_ifs with h1 h2
    · exact hP2 (i1 + 1) (by omega) (by omega)
    · exact hP2 high (by omega) (by omega)
    · exact hP2 k hk1 hk2

theorem quick_sort_recursive_spec :
    ∀ (fuel : Nat) (arr : List Int) (low high : Int) (m : Metrics),
      (low < high → 0 ≤ low ∧ high < arr.length) → high - low < fuel →
      ∃ arr1 m1, quick_sort_recursive fuel arr low high m = .ok (arr1, m1) ∧
        arr1.length = arr.length ∧ arr1.Perm arr ∧
        (∀ k, 0 ≤ k → (k < low ∨ high < k) → nth arr1 k = nth arr k) ∧
        (∀ P : Int → Prop, (∀ k, low ≤ k → k ≤ high → P (nth arr k)) →
          ∀ k, low ≤ k → k ≤ high → P (nth arr1 k)) ∧
        (∀ a b, low ≤ a → a ≤ b → b ≤ high → nth arr1 a ≤ nth arr1 b) := by
  intro fuel
  induction fuel with
  | zero =>
    intro arr low high m hb hf
    have hlh : ¬ low < high := by omega
    refine ⟨arr, m, ?_, rfl, List.Perm.refl _, fun _ _ _ => rfl, fun P hP => hP, ?_⟩
    · unfold quick_sort_recursive
      rw [if_neg hlh]
    · intro a b h1 h2 h3
      have : a = b := by omega
      rw [this]
  | succ fuel ih =>
    intro arr low high m hb hf
    by_cases hlh : low < high
    · obtain ⟨h0, hh⟩ := hb hlh
      obtain ⟨arr1, p, m1, hrun1, hlen1, hperm1, hout1, hp1, hp2, hpiv, hle, hgt, hP1, -, -⟩ :=
        partition_spec fuel arr low high m h0 (le_of_lt hlh) hh (by push_cast at hf; omega)
      obtain ⟨arr2, m2, hrun2, hlen2, hperm2, hout2, hP2, hs2⟩ :=
        ih arr1 low (p - 1) m1 (fun _ => ⟨h0, by omega⟩) (by push_cast at hf; omega)
      obtain ⟨arr3, m3, hrun3, hlen3, hperm3, hout3, hP3, hs3⟩ :=
        ih arr2 (p + 1) high m2 (fun _ => ⟨by omega, by omega⟩) (by push_cast at hf; omega)
      have e2p : nth arr2 p = nth arr1 p := hout2 p (by omega) (Or.inr (by omega))
      have e3p : nth arr3 p = nth arr1 p := by
        rw [hout3 p (by omega) (Or.inl (by omega)), e2p]
      have hlo : ∀ k, low ≤ k → k < p → nth arr3 k ≤ nth arr1 p := by
        intro k hk1 hk2
        rw [hout3 k (by omega) (Or.inl (by omega))]
        exact hP2 (fun x => x ≤ nth arr1 p) (fun k h1 h2 => hle k h1 (by omega)) k hk1 (by omega)
      have hhi : ∀ k, p < k → k ≤ high → nth arr1 p < nth arr3 k := by
        intro k hk1 hk2
        refine hP3 (fun x => nth arr1 p < x) ?_ k (by omega) hk2
        intro k h1 h2
        rw [hout2 k (by omega) (Or.inr (by omega))]
        exact hgt k (by omega) h2
      refine ⟨arr3, m3, ?_, by omega, (hperm3.trans hperm2).trans hperm1, ?_, ?_, ?_⟩
      · unfold quick_sort_recursive
        rw [if_pos hlh]
        simp only []
        rw [hrun1]
        simp only [bind_ok]
        rw [hrun2]
        simp only [bind_ok]
        exact hrun3
      · intro k hk0 hk
        rw [hout3 k hk0 (by omega), hout2 k hk0 (by omega), hout1 k hk0 hk]
      · intro P hP k hk1 hk2
        have h1 := hP1 P hP
        have h2 : ∀ k, low ≤ k → k ≤ high → P (nth arr2 k) := by
          intro k hk1 hk2
          by_cases hkp : k ≤ p - 1
          · exact hP2 P (fun k a b => h1 k a (by omega)) k hk1 hkp
          · rw [hout2 k (by omega) (Or.inr (by omega))]
            exact h1 k hk1 hk2
        by_cases hkp : p + 1 ≤ k
        · exact hP3 P (fun k a b => h2 k (by omega) b) k hkp hk2
        · rw [hout3 k (by omega) (Or.inl (by omega))]
          exact h2 k hk1 hk2
      · intro a b ha hab hb
        by_cases hap : a < p
        · by_cases hbp : b < p
          · rw [hout3 a (by omega) (Or.inl (by omega)), hout3 b (by omega) (Or.inl (by omega))]
            exact hs2 a b ha hab (by omega)
          · by_cases hbp2 : b = p
            · rw [hbp2, e3p]; exact hlo a ha hap
            · exact le_trans (hlo a ha hap) (le_of_lt (hhi b (by omega) hb))
        · by_cases hap2 : a = p
          · by_cases hbp2 : b = p
            · rw [hap2, hbp2]
            · rw [hap2, e3p]; exact le_of_lt (hhi b (by omega) hb)
          · exact hs3 a b (by omega) hab hb
    · refine ⟨arr, m, ?_, rfl, List.Perm.refl _, fun _ _ _ => rfl, fun P hP => hP, ?_⟩
      · unfold quick_sort_recursive
        rw [if_neg hlh]
      · intro a b h1 h2 h3
        have : a = b := by omega
        rw [this]

theorem nth_natCast (arr : List Int) (k : Nat) (hk : k < arr.length) :
    nth arr (k : Int) = arr[k] := by
  simp [nth, List.getD, List.getElem?_eq_getElem hk]

theorem sorted_of_nth (arr : List Int)
    (h : ∀ a b : Int, 0 ≤ a → a ≤ b → b ≤ (arr.length : Int) - 1 → nth arr a ≤ nth arr b) :
    List.Sorted (· ≤ ·) arr := by
  unfold List.Sorted
  rw [List.pairwise_iff_getElem]
  intro i j hi hj hij
  have := h i j (by omega) (by omega) (by omega)
  rwa [nth_natCast arr i hi, nth_natCast arr j hj] at this

theorem eq_insertionSort (out arr : List Int) (hs : List.Sorted (· ≤ ·) out)
    (hp : out.Perm arr) : out = arr.insertionSort (· ≤ ·) :=
  List.eq_of_perm_of_sorted (hp.trans (List.perm_insertionSort _ arr).symm) hs
    (List.sorted_insertionSort _ arr)

/-- C1: for every array of integers, `quick_sort` (given fuel at least the length) returns the
array in non-decreasing order with the same multiset of values as the input, that is, the
ascending-sorted arrangement of the input. -/
theorem quick_sort_sorts (fuel : Nat) (arr : List Int) (m : Metrics)
    (hf : arr.length ≤ fuel) :
    ∃ out m1, quick_sort fuel arr arr.length m = .ok (out, m1) ∧
      List.Sorted (· ≤ ·) out ∧ out.Perm arr ∧ out = arr.insertionSort (· ≤ ·) := by
  obtain ⟨out, m1, hrun, hlen, hperm, -, -, hs⟩ :=
    quick_sort_recursive_spec fuel arr 0 ((arr.length : Int) - 1)
      { m with comparisons := 0, exchanges := 0 } (fun _ => ⟨le_refl _, by omega⟩) (by omega)
  have hsorted : List.Sorted (· ≤ ·) out :=
    sorted_of_nth out (fun a b ha hab hb => hs a b ha hab (by omega))
  exact ⟨out, m1, hrun, hsorted, hperm, eq_insertionSort out arr hsorted hperm⟩

theorem quick_sort_sorts_witness :
    [3, 1, 2].length ≤ 3 ∧
      ∃ out m1, quick_sort 3 [3, 1, 2] ([3, 1, 2] : List Int).length ⟨0, 0⟩ = .ok (out, m1) ∧
        List.Sorted (· ≤ ·) out ∧ out.Perm [3, 1, 2] ∧
        out = List.insertionSort (· ≤ ·) [3, 1, 2] :=
  ⟨by decide, quick_sort_sorts 3 [3, 1, 2] ⟨0, 0⟩ (by decide)⟩

theorem rd_get {α : Type} (L : List α) (i : Int) (h0 : 0 ≤ i) (h : i.toNat < L.length) :
    rd L i = .ok L[i.toNat] := by
  simp [rd, h0, List.getElem?_eq_getElem h]

theorem wrote_nil {α : Type} (arr : List α) (k : Nat) (hk : k ≤ arr.length) :
    wrote arr k [] arr := by
  refine ⟨by simpa using hk, ?_⟩
  simp

theorem wrote_length {α : Type} {arr arr1 X : List α} {k : Nat} (h : wrote arr k X arr1) :
    arr1.length = arr.length := by
  obtain ⟨hk, rfl⟩ := h
  simp
  omega

theorem wrote_set {α : Type} (arr : List α) (k : Nat) (v : α) (hk : k < arr.length) :
    wrote arr k [v] (arr.set k v) := by
  refine ⟨by simpa using hk, ?_⟩
  rw [List.set_eq_take_append_cons_drop, if_pos hk]
  simp

theorem wrote_append {α : Type} {arr arr1 arr2 X Y : List α} {k : Nat}
    (h1 : wrote arr k X arr1) (h2 : wrote arr1 (k + X.length) Y arr2) :
    wrote arr k (X ++ Y) arr2 := by
  obtain ⟨hk1, rfl⟩ := h1
  obtain ⟨hk2, rfl⟩ := h2
  have hlen : (List.take k arr ++ X).length = k + X.length := by
    simp
    omega
  refine ⟨by simp at hk2 ⊢; omega, ?_⟩
  have e1 : List.take (k + X.length) (List.take k arr ++ X ++ List.drop (k + X.length) arr)
      = List.take k arr ++ X := List.take_left' hlen
  have e2 : List.drop (k + X.length + Y.length)
      (List.take k arr ++ X ++ List.drop (k + X.length) arr)
      = List.drop (k + (X ++ Y).length) arr := by
    rw [← hlen, List.drop_append, List.drop_drop, hlen]
    congr 1
    simp
    omega
  rw [e1, e2]
  simp

theorem wrote_cons {α : Type} {arr arr2 Y : List α} {k : Nat} (v : α) (hk : k < arr.length)
    (h2 : wrote (arr.set k v) (k + 1) Y arr2) : wrote arr k (v :: Y) arr2 :=
  wrote_append (wrote_set arr k v hk) h2

theorem merge_loop2_spec {α : Type} (L : List α) (n1 : Int) (hn1 : n1 = L.length) :
    ∀ (fuel : Nat) (arr : List α) (i k : Int) (m : Metrics),
      0 ≤ i → i ≤ n1 → 0 ≤ k → k + (n1 - i) ≤ arr.length → n1 - i ≤ fuel →
      ∃ arr1, merge_loop2 L n1 fuel arr i k m =
          .ok (arr1, n1, k + (n1 - i), { m with exchanges := m.exchanges + (n1 - i) }) ∧
        wrote arr k.toNat (L.drop i.toNat) arr1 := by
  intro fuel
  induction fuel with
  | zero =>
    intro arr i k m hi0 hi1 hk0 hk1 hf
    have hi : i = n1 := by omega
    subst hi
    refine ⟨arr, ?_, ?_⟩
    · unfold merge_loop2
      simp
    · have : L.drop i.toNat = [] := by
        apply List.drop_eq_nil_of_le
        omega
      rw [this]
      exact wrote_nil arr _ (by omega)
  | succ fuel ih =>
    intro arr i k m hi0 hi1 hk0 hk1 hf
    by_cases hc : i < n1
    · have hlt : i.toNat < L.length := by omega
      obtain ⟨arr1, hrun, hw⟩ := ih (arr.set k.toNat L[i.toNat]) (i + 1) (k + 1)
        { m with exchanges := m.exchanges + 1 } (by omega) (by omega) (by omega)
        (by simp; omega) (by push_cast at hf; omega)
      refine ⟨arr1, ?_, ?_⟩
      · unfold merge_loop2
        rw [if_pos hc]
        simp only []
        rw [rd_get L i hi0 hlt]
        simp only [bind_ok]
        rw [wr_eq arr k _ hk0 (by omega)]
        simp only [bind_ok]
        rw [hrun]
        have e1 : k + 1 + (n1 - (i + 1)) = k + (n1 - i) := by omega
        have e2 : m.exchanges + 1 + (n1 - (i + 1)) = m.exchanges + (n1 - i) := by omega
        dsimp only
        rw [e1, e2]
      · rw [List.drop_eq_getElem_cons hlt]
        apply wrote_cons _ (by omega)
        have e1 : (i + 1).toNat = i.toNat + 1 := by omega
        have e2 : (k + 1).toNat = k.toNat + 1 := by omega
        rwa [e1, e2] at hw
    · have hi : i = n1 := by omega
      subst hi
      refine ⟨arr, ?_, ?_⟩
      · unfold merge_loop2
        simp
      · have : L.drop i.toNat = [] := by
          apply List.drop_eq_nil_of_le
          omega
        rw [this]
        exact wrote_nil arr _ (by omega)

theorem merge_loop3_eq_loop2 {α : Type} (R : List α) (n2 : Int) :
    ∀ (fuel : Nat) (arr : List α) (j k : Int) (m : Metrics),
      merge_loop3 R n2 fuel arr j k m = merge_loop2 R n2 fuel arr j k m := by
  intro fuel
  induction fuel with
  | zero =>
    intro arr j k m
    unfold merge_loop3 merge_loop2
    rfl
  | succ fuel ih =>
    intro arr j k m
    unfold merge_loop3 merge_loop2
    simp only [ih]

theorem merge_loop1_exit {α : Type} (key : α → Int) (L R : List α) (n1 n2 : Int)
    (hn1 : n1 = L.length) (hn2 : n2 = R.length)
    (fuel : Nat) (arr : List α) (i j k : Int) (m : Metrics)
    (hi1 : i ≤ n1) (hj1 : j ≤ n2) (hk0 : 0 ≤ k)
    (hk1 : k + (n1 - i) + (n2 - j) ≤ arr.length) (hc : ¬ (i < n1 ∧ j < n2)) :
    loop1_post key L R n1 n2 arr i j k m (merge_loop1 key L R n1 n2 fuel arr i j k m) := by
  refine ⟨arr, i, j, m, [], ?_, wrote_nil arr _ (by omega), le_refl _, hi1, le_refl _, hj1,
    by omega, fun a b => absurd ⟨a, b⟩ hc, fun _ => ⟨rfl, rfl⟩, by simp, ?_, by simp, by simp⟩
  · unfold merge_loop1
    rw [if_neg hc]
    simp
  · by_cases hi : i = n1
    · have : L.drop i.toNat = [] := List.drop_eq_nil_of_le (by omega)
      rw [this]
      simp
    · have hj : j = n2 := by omega
      have : R.drop j.toNat = [] := List.drop_eq_nil_of_le (by omega)
      rw [this]
      simp

theorem merge_loop1_spec {α : Type} (key : α → Int) (L R : List α) (n1 n2 : Int)
    (hn1 : n1 = L.length) (hn2 : n2 = R.length) :
    ∀ (fuel : Nat) (arr : List α) (i j k : Int) (m : Metrics),
      0 ≤ i → i ≤ n1 → 0 ≤ j → j ≤ n2 → 0 ≤ k → k + (n1 - i) + (n2 - j) ≤ arr.length →
      (i < n1 → j < n2 → (n1 - i) + (n2 - j) - 1 ≤ fuel) →
      loop1_post key L R n1 n2 arr i j k m (merge_loop1 key L R n1 n2 fuel arr i j k m) := by
  intro fuel
  induction fuel with
  | zero =>
    intro arr i j k m hi0 hi1 hj0 hj1 hk0 hk1 hf
    apply merge_loop1_exit key L R n1 n2 hn1 hn2 0 arr i j k m hi1 hj1 hk0 hk1
    rintro ⟨a, b⟩
    have := hf a b
    omega
  | succ fuel ih =>
    intro arr i j k m hi0 hi1 hj0 hj1 hk0 hk1 hf
    by_cases hc : i < n1 ∧ j < n2
    · obtain ⟨hc1, hc2⟩ := hc
      have hilt : i.toNat < L.length := by omega
      have hjlt : j.toNat < R.length := by omega
      have hfuel := hf hc1 hc2
      have ei : (i + 1).toNat = i.toNat + 1 := by omega
      have ej : (j + 1).toNat = j.toNat + 1 := by omega
      have ek : (k + 1).toNat = k.toNat + 1 := by omega
      by_cases hle : key L[i.toNat] ≤ key R[j.toNat]
      · obtain ⟨arr1, i1, j1, m1, X, hrun, hw, h1, h2, h3, h4, h5, h6, hn, h7, h8, h9, h10⟩ :=
          ih (arr.set k.toNat L[i.toNat]) (i + 1) j (k + 1)
            { comparisons := m.comparisons + 1, exchanges := m.exchanges + 1 }
            (by omega) (by omega) hj0 hj1 (by omega) (by simp; omega)
            (by intro a b; push_cast at hfuel; omega)
        dsimp only at h9 h10
        refine ⟨arr1, i1, j1, m1, L[i.toNat] :: X, ?_, ?_, by omega, h2, h3, h4, h5,
          ?_, fun h => absurd ⟨hc1, hc2⟩ h, by simp; omega, ?_, by simp; omega, by simp; omega⟩
        · unfold merge_loop1
          rw [if_pos ⟨hc1, hc2⟩]
          simp only []
          rw [rd_get L i hi0 hilt, rd_get R j hj0 hjlt]
          simp only [bind_ok]
          rw [if_pos hle]
          rw [wr_eq arr k _ hk0 (by omega)]
          simp only [bind_ok]
          rw [hrun]
          have e1 : k + 1 + (X.length : Int) = k + ((L[i.toNat] :: X).length : Nat) := by
            simp; omega
          rw [e1]
        · apply wrote_cons _ (by omega)
          rwa [ek] at hw
        · intro _ _
          by_cases hi' : i + 1 < n1
          · exact h6 hi' hc2
          · right
            have := hn (fun h => hi' h.1)
            omega
        · rw [List.drop_eq_getElem_cons hilt, List.drop_eq_getElem_cons hjlt,
            List.cons_merge_cons_pos _ _ _ (by simpa [kle] using hle)]
          rw [ei, List.drop_eq_getElem_cons hjlt] at h8
          simp only [List.cons_append, h8]
      · obtain ⟨arr1, i1, j1, m1, X, hrun, hw, h1, h2, h3, h4, h5, h6, hn, h7, h8, h9, h10⟩ :=
          ih (arr.set k.toNat R[j.toNat]) i (j + 1) (k + 1)
            { comparisons := m.comparisons + 1, exchanges := m.exchanges + 1 }
            hi0 hi1 (by omega) (by omega) (by omega) (by simp; omega)
            (by intro a b; push_cast at hfuel; omega)
        dsimp only at h9 h10
        refine ⟨arr1, i1, j1, m1, R[j.toNat] :: X, ?_, ?_, h1, h2, by omega, h4, h5,
          ?_, fun h => absurd ⟨hc1, hc2⟩ h, by simp; omega, ?_, by simp; omega, by simp; omega⟩
        · unfold merge_loop1
          rw [if_pos ⟨hc1, hc2⟩]
          simp only []
          rw [rd_get L i hi0 hilt, rd_get R j hj0 hjlt]
          simp only [bind_ok]
          rw [if_neg hle]
          rw [wr_eq arr k _ hk0 (by omega)]
          simp only [bind_ok]
          rw [hrun]
          have e1 : k + 1 + (X.length : Int) = k + ((R[j.toNat] :: X).length : Nat) := by
            simp; omega
          rw [e1]
        · apply wrote_cons _ (by omega)
          rwa [ek] at hw
        · intro _ _
          by_cases hj' : j + 1 < n2
          · exact h6 hc1 hj'
          · left
            have := hn (fun h => hj' h.2)
            omega
        · rw [List.drop_eq_getElem_cons hilt, List.drop_eq_getElem_cons hjlt,
            List.cons_merge_cons_neg _ _ _ (by simpa [kle] using hle)]
          rw [ej, List.drop_eq_getElem_cons hilt] at h8
          simp only [List.cons_append, h8]
    · exact merge_loop1_exit key L R n1 n2 hn1 hn2 (fuel + 1) arr i j k m hi1 hj1 hk0 hk1 hc

theorem copy_range_eq {α : Type} (pre A post : List α) (off cnt : Int)
    (hoff : off = pre.length) (hcnt : cnt = A.length) :
    copy_range (pre ++ A ++ post) off cnt = .ok A := by
  unfold copy_range
  have hc : ¬ (cnt < 0 ∨ off < 0 ∨ ((pre ++ A ++ post).length : Int) < off + cnt) := by
    simp
    omega
  rw [if_neg hc]
  have e1 : off.toNat = pre.length := by omega
  have e2 : cnt.toNat = A.length := by omega
  rw [e1, e2, List.append_assoc, List.drop_left' rfl, List.take_left' rfl]

theorem merge_metric_arith (a b : Nat) (n1 n2 i1 j1 : Int) (x : Nat) (c0 c1 e0 e1 : Int)
    (hn1 : n1 = (a : Int)) (hn2 : n2 = (b : Int))
    (h1 : 0 ≤ i1) (h2 : i1 ≤ n1) (h3 : 0 ≤ j1) (h4 : j1 ≤ n2)
    (h5 : i1 = n1 ∨ j1 = n2) (h6 : i1 < n1 ∨ j1 < n2)
    (h7 : (x : Int) = i1 - 0 + (j1 - 0)) (h9 : c1 = c0 + x) (h10 : e1 = e0 + x) :
    e1 + (n1 - i1) + (n2 - j1) = e0 + ((a : Int) + b) ∧
      c0 + ((min a b : Nat) : Int) ≤ c1 ∧ c1 ≤ c0 + ((a : Int) + b - 1) := by
  omega

theorem merge_spec {α : Type} (key : α → Int) (fuel : Nat) (pre A B post : List α)
    (l mid r : Int) (m : Metrics) (hl : l = pre.length) (hmid : mid = l + A.length - 1)
    (hr : r = mid + B.length) (hA : 1 ≤ A.length) (hB : 1 ≤ B.length) (hf : r - l ≤ fuel) :
    ∃ m1, merge key fuel (pre ++ A ++ B ++ post) l mid r m
        = .ok (pre ++ List.merge A B (kle key) ++ post, m1) ∧
      m1.exchanges = m.exchanges + (A.length + B.length) ∧
      m.comparisons + min A.length B.length ≤ m1.comparisons ∧
      m1.comparisons ≤ m.comparisons + (A.length + B.length - 1) := by
  have hn1 : mid - l + 1 = (A.length : Int) := by omega
  have hn2 : r - mid = (B.length : Int) := by omega
  have hlen : ((pre ++ A ++ B ++ post).length : Int)
      = pre.length + A.length + B.length + post.length := by
    simp
    omega
  have hloop1 := merge_loop1_spec key A B (mid - l + 1) (r - mid) hn1 hn2 fuel
    (pre ++ A ++ B ++ post) 0 0 l m (le_refl _) (by omega) (le_refl _) (by omega) (by omega)
    (by omega) (by intro _ _; omega)
  obtain ⟨arr1, i1, j1, m1, X, hrun1, hw1, h1, h2, h3, h4, h5, h6, -, h7, h8, h9, h10⟩ := hloop1
  have hlen1 := wrote_length hw1
  have b1 : l + (X.length : Int) + (mid - l + 1 - i1) ≤ arr1.length := by rw [hlen1]; omega
  have b2 : mid - l + 1 - i1 ≤ (fuel : Int) := by omega
  have b3 : 0 ≤ l + (X.length : Int) := by omega
  obtain ⟨arr2, hrun2, hw2⟩ :=
    merge_loop2_spec A (mid - l + 1) hn1 fuel arr1 i1 (l + X.length) m1 h1 h2 b3 b1 b2
  have hlen2 := wrote_length hw2
  have b4 : l + (X.length : Int) + (mid - l + 1 - i1) + (r - mid - j1) ≤ arr2.length := by
    rw [hlen2, hlen1]; omega
  have b5 : r - mid - j1 ≤ (fuel : Int) := by omega
  have b6 : 0 ≤ l + (X.length : Int) + (mid - l + 1 - i1) := by omega
  obtain ⟨arr3, hrun3, hw3⟩ :=
    merge_loop2_spec B (r - mid) hn2 fuel arr2 j1 (l + X.length + (mid - l + 1 - i1))
      { m1 with exchanges := m1.exchanges + (mid - l + 1 - i1) } h3 h4 b6 b4 b5
  rw [← merge_loop3_eq_loop2] at hrun3
  have ek2 : (l + (X.length : Int)).toNat = l.toNat + X.length := by omega
  have ek3 : (l + (X.length : Int) + (mid - l + 1 - i1)).toNat
      = l.toNat + (X ++ A.drop i1.toNat).length := by
    simp
    omega
  rw [ek2] at hw2
  rw [ek3] at hw3
  simp only [Int.toNat_zero, List.drop_zero] at h8
  have hw : wrote (pre ++ A ++ B ++ post) l.toNat (List.merge A B (kle key)) arr3 := by
    rw [← h8, ← List.append_assoc]
    exact wrote_append (wrote_append hw1 hw2) hw3
  refine ⟨Metrics.mk m1.comparisons (m1.exchanges + (mid - l + 1 - i1) + (r - mid - j1)),
    ?_, ?_, ?_, ?_⟩
  · unfold merge
    simp only []
    rw [List.append_assoc (pre ++ A) B post, copy_range_eq pre A (B ++ post) l _ hl hn1,
      ← List.append_assoc (pre ++ A) B post]
    rw [copy_range_eq (pre ++ A) B post (mid + 1) _ (by simp; omega) hn2]
    simp only [bind_ok]
    rw [hrun1]
    simp only [bind_ok]
    rw [hrun2]
    simp only [bind_ok]
    rw [hrun3]
    simp only [bind_ok]
    obtain ⟨-, harr3⟩ := hw
    rw [harr3]
    have e1 : l.toNat = pre.length := by omega
    have e2 : l.toNat + (List.merge A B (kle key)).length = (pre ++ A ++ B).length := by
      simp [List.length_merge]
      omega
    rw [e2, List.drop_left' rfl, e1, List.append_assoc pre A B, List.append_assoc pre (A ++ B) post,
      List.take_left' rfl]
    rfl
  · exact (merge_metric_arith A.length B.length (mid - l + 1) (r - mid) i1 j1 X.length
      m.comparisons m1.comparisons m.exchanges m1.exchanges hn1 hn2 h1 h2 h3 h4 h5
      (h6 (by omega) (by omega)) h7 h9 h10).1
  · exact (merge_metric_arith A.length B.length (mid - l + 1) (r - mid) i1 j1 X.length
      m.comparisons m1.comparisons m.exchanges m1.exchanges hn1 hn2 h1 h2 h3 h4 h5
      (h6 (by omega) (by omega)) h7 h9 h10).2.1
  · exact (merge_metric_arith A.length B.length (mid - l + 1) (r - mid) i1 j1 X.length
      m.comparisons m1.comparisons m.exchanges m1.exchanges hn1 hn2 h1 h2 h3 h4 h5
      (h6 (by omega) (by omega)) h7 h9 h10).2.2


theorem kle_trans {α : Type} (key : α → Int) (a b c : α) :
    kle key a b = true → kle key b c = true → kle key a c = true := by
  simp only [kle, decide_eq_true_eq]
  exact le_trans

theorem kle_total {α : Type} (key : α → Int) (a b : α) :
    (kle key a b || kle key b a) = true := by
  simp only [kle, Bool.or_eq_true, decide_eq_true_eq]
  exact le_total _ _

theorem pairwise_kle {α : Type} (key : α → Int) (l : List α) :
    l.Pairwise (fun a b => kle key a b = true) ↔ l.Pairwise (fun a b => key a ≤ key b) := by
  simp only [kle, decide_eq_true_eq]

theorem merge_sorted {α : Type} (key : α → Int) (A B : List α)
    (hA : A.Pairwise (fun a b => key a ≤ key b)) (hB : B.Pairwise (fun a b => key a ≤ key b)) :
    (List.merge A B (kle key)).Pairwise (fun a b => key a ≤ key b) := by
  rw [← pairwise_kle] at hA hB ⊢
  exact List.sorted_merge (kle_trans key) (kle_total key) A B hA hB

theorem merge_filter {α : Type} (key : α → Int) (k : Int) :
    ∀ (A B : List α), A.Pairwise (fun a b => key a ≤ key b) →
      (List.merge A B (kle key)).filter (fun a => decide (key a = k))
        = A.filter (fun a => decide (key a = k)) ++ B.filter (fun a => decide (key a = k)) := by
  intro A
  induction A with
  | nil => intro B _; simp
  | cons x A ihA =>
    intro B
    induction B with
    | nil => intro _; simp
    | cons y B ihB =>
      intro hA
      by_cases hxy : key x ≤ key y
      · rw [List.cons_merge_cons_pos _ _ _ (by simpa [kle] using hxy)]
        rw [List.filter_cons, ihA (y :: B) hA.tail]
        by_cases hx : key x = k
        · simp [hx]
        · simp [hx]
      · rw [List.cons_merge_cons_neg _ _ _ (by simpa [kle] using hxy)]
        rw [List.filter_cons, ihB hA]
        by_cases hy : key y = k
        · have hnil : (x :: A).filter (fun a => decide (key a = k)) = [] := by
            rw [List.filter_eq_nil_iff]
            intro a ha
            have hxa : key x ≤ key a := by
              rcases List.mem_cons.1 ha with rfl | h
              · exact le_refl _
              · exact List.rel_of_pairwise_cons hA h
            simp
            omega
          rw [hnil]
          simp [hy]
        · simp [hy]

theorem merge_sort_recursive_spec {α : Type} (key : α → Int) :
    ∀ (fuel : Nat) (pre mid post : List α) (l r : Int) (m : Metrics),
      l = pre.length → r = l + mid.length - 1 → r - l < fuel →
      ∃ out m1, merge_sort_recursive key fuel (pre ++ mid ++ post) l r m
          = .ok (pre ++ out ++ post, m1) ∧
        out.Perm mid ∧ out.Pairwise (fun a b => key a ≤ key b) ∧
        ∀ k : Int, out.filter (fun a => decide (key a = k))
          = mid.filter (fun a => decide (key a = k)) := by
  have hbase : ∀ (fuel : Nat) (pre mid post : List α) (l r : Int) (m : Metrics),
      l = pre.length → r = l + mid.length - 1 → ¬ l < r →
      ∃ out m1, merge_sort_recursive key fuel (pre ++ mid ++ post) l r m
          = .ok (pre ++ out ++ post, m1) ∧
        out.Perm mid ∧ out.Pairwise (fun a b => key a ≤ key b) ∧
        ∀ k : Int, out.filter (fun a => decide (key a = k))
          = mid.filter (fun a => decide (key a = k)) := by
    intro fuel pre mid post l r m hl hr hlr
    have hlen : mid.length ≤ 1 := by omega
    refine ⟨mid, m, ?_, List.Perm.refl _, ?_, fun _ => rfl⟩
    · unfold merge_sort_recursive
      rw [if_neg hlr]
    · match mid, hlen with
      | [], _ => exact List.Pairwise.nil
      | [a], _ => exact List.pairwise_singleton _ a
  intro fuel
  induction fuel with
  | zero =>
    intro pre mid post l r m hl hr hf
    exact hbase 0 pre mid post l r m hl hr (by omega)
  | succ fuel ih =>
    intro pre mid post l r m hl hr hf
    by_cases hlr : l < r
    · have hx : 0 ≤ r - l := by omega
      have hmidx : l + cdiv (r - l) 2 = l + (r - l) / 2 := by rw [cdiv_two _ hx]
      obtain ⟨h, hh⟩ : ∃ h : Nat, (h : Int) = (r - l) / 2 + 1 := ⟨((r - l) / 2 + 1).toNat, by omega⟩
      have hhlen : h ≤ mid.length := by omega
      have hA0 : (mid.take h).length = h := List.length_take_of_le hhlen
      have hB0 : (mid.drop h).length = mid.length - h := List.length_drop h mid
      have hsplit : mid = mid.take h ++ mid.drop h := (List.take_append_drop h mid).symm
      obtain ⟨A, m1, hrun1, hpA, hsA, hfA⟩ :=
        ih pre (mid.take h) (mid.drop h ++ post) l (l + (r - l) / 2) m hl
          (by rw [hA0]; omega) (by push_cast at hf; omega)
      obtain ⟨B, m2, hrun2, hpB, hsB, hfB⟩ :=
        ih (pre ++ A) (mid.drop h) post (l + (r - l) / 2 + 1) r m1
          (by simp [hpA.length_eq, hA0]; omega) (by rw [hB0]; omega)
          (by push_cast at hf; omega)
      obtain ⟨m3, hrun3, -, -, -⟩ :=
        merge_spec key fuel pre A B post l (l + (r - l) / 2) r m2 hl
          (by rw [hpA.length_eq, hA0]; omega) (by rw [hpB.length_eq, hB0]; omega)
          (by rw [hpA.length_eq, hA0]; omega) (by rw [hpB.length_eq, hB0]; omega)
          (by push_cast at hf; omega)
      refine ⟨List.merge A B (kle key), m3, ?_, ?_, merge_sorted key A B hsA hsB, ?_⟩
      · unfold merge_sort_recursive
        rw [if_pos hlr]
        simp only []
        rw [hmidx]
        have e1 : pre ++ mid ++ post = pre ++ mid.take h ++ (mid.drop h ++ post) := by
          rw [List.append_assoc pre (mid.take h), ← List.append_assoc (mid.take h),
            List.take_append_drop, List.append_assoc]
        rw [e1, hrun1]
        simp only [bind_ok]
        rw [← List.append_assoc, hrun2]
        simp only [bind_ok]
        exact hrun3
      · calc List.merge A B (kle key)
            |>.Perm (A ++ B) := List.merge_perm_append (kle key)
          _ |>.Perm (mid.take h ++ mid.drop h) := hpA.append hpB
          _ = mid := hsplit.symm
      · intro k
        rw [merge_filter key k A B hsA, hfA k, hfB k, ← List.filter_append,
          List.take_append_drop]
    · exact hbase (fuel + 1) pre mid post l r m hl hr hlr

theorem merge_sort_spec {α : Type} (key : α → Int) (fuel : Nat) (arr : List α) (m : Metrics)
    (hf : arr.length ≤ fuel) :
    ∃ out m1, merge_sort key fuel arr arr.length m = .ok (out, m1) ∧
      out.Perm arr ∧ out.Pairwise (fun a b => key a ≤ key b) ∧
      ∀ k : Int, out.filter (fun a => decide (key a = k))
        = arr.filter (fun a => decide (key a = k)) := by
  obtain ⟨out, m1, hrun, hp, hs, hst⟩ :=
    merge_sort_recursive_spec key fuel [] arr [] 0 ((arr.length : Int) - 1)
      { m with comparisons := 0, exchanges := 0 } (by simp) (by omega) (by omega)
  refine ⟨out, m1, ?_, hp, hs, hst⟩
  simpa [merge_sort] using hrun

theorem stable_lex {α : Type} (key : α → Int) (S : α → α → Prop) :
    ∀ out : List α, out.Pairwise (fun a b => key a ≤ key b) →
      (∀ k : Int, (out.filter (fun a => decide (key a = k))).Pairwise S) →
      out.Pairwise (fun p q => key p < key q ∨ (key p = key q ∧ S p q)) := by
  intro out
  induction out with
  | nil => intro _ _; exact List.Pairwise.nil
  | cons p t ih =>
    intro hs hk
    rw [List.pairwise_cons] at hs ⊢
    refine ⟨?_, ih hs.2 ?_⟩
    · intro q hq
      have hle := hs.1 q hq
      by_cases heq : key p = key q
      · right
        refine ⟨heq, ?_⟩
        have h := hk (key p)
        rw [List.filter_cons_of_pos (by simp), List.pairwise_cons] at h
        exact h.1 q (List.mem_filter.2 ⟨hq, by simp [heq]⟩)
      · left
        omega
    · intro k
      have h := hk k
      rw [List.filter_cons] at h
      split_ifs at h
      · exact (List.pairwise_cons.1 h).2
      · exact h

theorem tagged_pairwise (arr : List Int) :
    (tagged arr).Pairwise (fun p q => p.2 ≤ q.2) := by
  have h : ((tagged arr).map Prod.snd).Pairwise (· < ·) := by
    unfold tagged
    rw [List.map_snd_zip _ _ (by simp)]
    exact List.pairwise_lt_range _
  rw [List.pairwise_map] at h
  exact h.imp (fun h => le_of_lt h)

/-- C2: for every array of integers, `merge_sort` (given fuel at least the length) returns the
array in non-decreasing order with the same multiset of values as the input, that is, the
ascending-sorted arrangement of the input. -/
theorem merge_sort_sorts (fuel : Nat) (arr : List Int) (m : Metrics)
    (hf : arr.length ≤ fuel) :
    ∃ out m1, merge_sort id fuel arr arr.length m = .ok (out, m1) ∧
      List.Sorted (· ≤ ·) out ∧ out.Perm arr ∧ out = arr.insertionSort (· ≤ ·) := by
  obtain ⟨out, m1, hrun, hp, hs, -⟩ := merge_sort_spec id fuel arr m hf
  have hsorted : List.Sorted (· ≤ ·) out := hs
  exact ⟨out, m1, hrun, hsorted, hp, eq_insertionSort out arr hsorted hp⟩

theorem merge_sort_sorts_witness :
    [3, 1, 2].length ≤ 3 ∧
      ∃ out m1, merge_sort id 3 [3, 1, 2] ([3, 1, 2] : List Int).length ⟨0, 0⟩ = .ok (out, m1) ∧
        List.Sorted (· ≤ ·) out ∧ out.Perm [3, 1, 2] ∧
        out = List.insertionSort (· ≤ ·) [3, 1, 2] :=
  ⟨by decide, merge_sort_sorts 3 [3, 1, 2] ⟨0, 0⟩ (by decide)⟩

/-- C8: `merge_sort` is stable. Run on records compared by key only, it returns the records
sorted by key, as a permutation of the input, and for every key the records with that key
appear in the output in the same order as in the input. Equivalently, on the pairs
`(arr[i], i)` compared by value alone it returns the pairs sorted by (value, original index). -/
theorem merge_sort_stable {α : Type} (key : α → Int) (fuel : Nat) (recs : List α)
    (arr : List Int) (m : Metrics) (hf : recs.length ≤ fuel) (hf2 : arr.length ≤ fuel) :
    (∃ out m1, merge_sort key fuel recs recs.length m = .ok (out, m1) ∧
      out.Perm recs ∧ out.Pairwise (fun a b => key a ≤ key b) ∧
      ∀ k : Int, out.filter (fun a => decide (key a = k))
        = recs.filter (fun a => decide (key a = k))) ∧
    (∃ m1, merge_sort Prod.fst fuel (tagged arr) (tagged arr).length m
      = .ok ((tagged arr).insertionSort lexle, m1)) := by
  refine ⟨merge_sort_spec key fuel recs m hf, ?_⟩
  obtain ⟨out, m1, hrun, hp, hs, hst⟩ :=
    merge_sort_spec Prod.fst fuel (tagged arr) m (by simpa [tagged] using hf2)
  have hlex : out.Pairwise lexle := by
    apply stable_lex Prod.fst (fun p q => p.2 ≤ q.2) out hs
    intro k
    rw [hst k]
    exact (tagged_pairwise arr).sublist (List.filter_sublist _)
  have heq : out = (tagged arr).insertionSort lexle :=
    List.eq_of_perm_of_sorted (hp.trans (List.perm_insertionSort _ _).symm) hlex
      (List.sorted_insertionSort _ _)
  exact ⟨m1, by rw [hrun, heq]⟩

theorem merge_sort_stable_witness :
    ([(2, 0), (1, 1), (2, 2)] : List (Int × Nat)).length ≤ 3 ∧ [2, 1, 2].length ≤ 3 ∧
    ((∃ out m1, merge_sort Prod.fst 3 ([(2, 0), (1, 1), (2, 2)] : List (Int × Nat))
        ([(2, 0), (1, 1), (2, 2)] : List (Int × Nat)).length ⟨0, 0⟩ = .ok (out, m1) ∧
      out.Perm [(2, 0), (1, 1), (2, 2)] ∧ out.Pairwise (fun a b => a.1 ≤ b.1) ∧
      ∀ k : Int, out.filter (fun a => decide (a.1 = k))
        = ([(2, 0), (1, 1), (2, 2)] : List (Int × Nat)).filter (fun a => decide (a.1 = k))) ∧
    (∃ m1, merge_sort Prod.fst 3 (tagged [2, 1, 2]) (tagged [2, 1, 2]).length ⟨0, 0⟩
      = .ok ((tagged [2, 1, 2]).insertionSort lexle, m1))) :=
  ⟨by decide, by decide,
    merge_sort_stable Prod.fst 3 [(2, 0), (1, 1), (2, 2)] [2, 1, 2] ⟨0, 0⟩ (by decide)
      (by decide)⟩

theorem pure_ok {ε α : Type} (v : α) : (pure v : Except ε α) = .ok v := rfl

theorem heapify_eq (fuel : Nat) (arr : List Int) (n i : Int) (m : Metrics)
    (hi : 0 ≤ i) (hn : n ≤ arr.length) :
    heapify fuel arr n i m =
      if hlargest arr n i ≠ i then
        match fuel with
        | 0 => .error .outOfFuel
        | f + 1 => heapify f (swp arr i (hlargest arr n i)) n (hlargest arr n i)
            ⟨m.comparisons + hcmp n i, m.exchanges + 1⟩
      else .ok (arr, ⟨m.comparisons + hcmp n i, m.exchanges⟩) := by
  conv_lhs => unfold heapify
  simp only []
  have c2 : m.comparisons + 1 + 1 = m.comparisons + 2 := by omega
  by_cases hl : 2 * i + 1 < n
  · have r1 := rd_eq arr (2 * i + 1) (by omega) (by omega)
    have r0 := rd_eq arr i hi (by omega)
    have w0 := fun v => wr_eq arr i v hi (by omega)
    have ne1 : 2 * i + 1 ≠ i := by omega
    have w1 := fun (a : List Int) (h : a.length = arr.length) v =>
      wr_eq a (2 * i + 1) v (by omega) (by omega)
    by_cases hr : 2 * i + 2 < n
    · have r2 := rd_eq arr (2 * i + 2) (by omega) (by omega)
      have ne2 : 2 * i + 2 ≠ i := by omega
      have w2 := fun (a : List Int) (h : a.length = arr.length) v =>
        wr_eq a (2 * i + 2) v (by omega) (by omega)
      by_cases g1 : nth arr (2 * i + 1) > nth arr i
      · by_cases g2 : nth arr (2 * i + 2) > nth arr (2 * i + 1)
        · have e : hlargest arr n i = 2 * i + 2 := by simp [hlargest, hl, hr, g1, g2]
          simp [e, hcmp, hl, hr, g1, g2, r0, r1, r2, w0, w2, bind_ok, pure_ok, ne2, swp, c2]
        · have e : hlargest arr n i = 2 * i + 1 := by simp [hlargest, hl, hr, g1, g2]
          simp [e, hcmp, hl, hr, g1, g2, r0, r1, r2, w0, w1, bind_ok, pure_ok, ne1, swp, c2]
      · by_cases g2 : nth arr (2 * i + 2) > nth arr i
        · have e : hlargest arr n i = 2 * i + 2 := by simp [hlargest, hl, hr, g1, g2]
          simp [e, hcmp, hl, hr, g1, g2, r0, r1, r2, w0, w2, bind_ok, pure_ok, ne2, swp, c2]
        · have e : hlargest arr n i = i := by simp [hlargest, hl, hr, g1, g2]
          simp [e, hcmp, hl, hr, g1, g2, r0, r1, r2, bind_ok, pure_ok, c2]
    · by_cases g1 : nth arr (2 * i + 1) > nth arr i
      · have e : hlargest arr n i = 2 * i + 1 := by simp [hlargest, hl, hr, g1]
        simp [e, hcmp, hl, hr, g1, r0, r1, w0, w1, bind_ok, pure_ok, ne1, swp]
      · have e : hlargest arr n i = i := by simp [hlargest, hl, hr, g1]
        simp [e, hcmp, hl, hr, g1, r0, r1, bind_ok, pure_ok]
  · have hr : ¬ 2 * i + 2 < n := by omega
    have e : hlargest arr n i = i := by simp [hlargest, hl, hr]
    simp [e, hcmp, hl, hr, bind_ok, pure_ok]

theorem hlargest_spec (arr : List Int) (n i : Int) :
    (hlargest arr n i = i ∨ (hlargest arr n i = 2 * i + 1 ∧ 2 * i + 1 < n) ∨
      (hlargest arr n i = 2 * i + 2 ∧ 2 * i + 2 < n)) ∧
    nth arr i ≤ nth arr (hlargest arr n i) ∧
    (2 * i + 1 < n → nth arr (2 * i + 1) ≤ nth arr (hlargest arr n i)) ∧
    (2 * i + 2 < n → nth arr (2 * i + 2) ≤ nth arr (hlargest arr n i)) ∧
    (hlargest arr n i ≠ i → nth arr i < nth arr (hlargest arr n i)) := by
  unfold hlargest
  simp only []
  by_cases c1 : 2 * i + 1 < n ∧ nth arr (2 * i + 1) > nth arr i
  · rw [if_pos c1]
    by_cases c2 : 2 * i + 2 < n ∧ nth arr (2 * i + 2) > nth arr (2 * i + 1)
    · rw [if_pos c2]
      refine ⟨Or.inr (Or.inr ⟨rfl, c2.1⟩), ?_, ?_, ?_, ?_⟩ <;> omega
    · rw [if_neg c2]
      refine ⟨Or.inr (Or.inl ⟨rfl, c1.1⟩), ?_, ?_, ?_, ?_⟩ <;> omega
  · rw [if_neg c1]
    by_cases c2 : 2 * i + 2 < n ∧ nth arr (2 * i + 2) > nth arr i
    · rw [if_pos c2]
      refine ⟨Or.inr (Or.inr ⟨rfl, c2.1⟩), ?_, ?_, ?_, ?_⟩ <;> omega
    · rw [if_neg c2]
      refine ⟨Or.inl rfl, ?_, ?_, ?_, ?_⟩ <;> omega

theorem hcmp_nonneg (n i : Int) : 0 ≤ hcmp n i := by
  unfold hcmp
  split_ifs <;> omega

theorem heapify_base (n s : Int) (fuel : Nat) (arr : List Int) (i : Int) (m : Metrics)
    (hs : 0 ≤ s) (hsi : s ≤ i) (hn : n ≤ arr.length)
    (ha : ∀ j, s ≤ j → j < n → j ≠ i → heap_at arr n j)
    (hc : hlargest arr n i = i) :
    heapify_post n s arr m (heapify fuel arr n i m) := by
  obtain ⟨-, -, h1, h2, -⟩ := hlargest_spec arr n i
  rw [hc] at h1 h2
  refine ⟨arr, ⟨m.comparisons + hcmp n i, m.exchanges⟩, ?_, rfl, List.Perm.refl _,
    fun _ _ _ => rfl, fun P hP => hP, ?_, ?_, le_refl _⟩
  · rw [heapify_eq fuel arr n i m (by omega) hn, if_neg (by simpa using hc)]
  · intro j hj1 hj2
    by_cases hji : j = i
    · rw [hji]
      exact ⟨h1, h2⟩
    · exact ha j hj1 hj2 hji
  · have := hcmp_nonneg n i
    dsimp only
    omega

theorem heapify_spec (n s : Int) :
    ∀ (fuel : Nat) (arr : List Int) (i : Int) (m : Metrics),
      0 ≤ s → s ≤ i → n ≤ arr.length → n - 1 - i ≤ fuel →
      (∀ j, s ≤ j → j < n → j ≠ i → heap_at arr n j) →
      (∀ p, s ≤ p → (2 * p + 1 = i ∨ 2 * p + 2 = i) →
        (2 * i + 1 < n → nth arr (2 * i + 1) ≤ nth arr p) ∧
        (2 * i + 2 < n → nth arr (2 * i + 2) ≤ nth arr p)) →
      heapify_post n s arr m (heapify fuel arr n i m) := by
  intro fuel
  induction fuel with
  | zero =>
    intro arr i m hs hsi hn hf ha hb
    apply heapify_base n s 0 arr i m hs hsi hn ha
    obtain ⟨h0, -⟩ := hlargest_spec arr n i
    omega
  | succ fuel ih =>
    intro arr i m hs hsi hn hf ha hb
    by_cases hc : hlargest arr n i = i
    · exact heapify_base n s (fuel + 1) arr i m hs hsi hn ha hc
    · obtain ⟨h0, h1, h2, h3, h4⟩ := hlargest_spec arr n i
      have heq := heapify_eq (fuel + 1) arr n i m (by omega) hn
      rw [if_pos hc] at heq
      simp only [] at heq
      rw [heq]
      have hcm := hcmp_nonneg n i
      generalize hlargest arr n i = c at hc h0 h1 h2 h3 h4 ⊢
      have hc2 : (c = 2 * i + 1 ∨ c = 2 * i + 2) ∧ c < n := by omega
      have hi0 : 0 ≤ i := by omega
      have hlt := h4 hc
      have hnth : ∀ k, 0 ≤ k → nth (swp arr i c) k =
          if k = c then nth arr i else if k = i then nth arr c else nth arr k :=
        fun k hk => nth_swp arr i c k hi0 (by omega) (by omega) (by omega) hk
      have hbc : ∀ p, s ≤ p → (2 * p + 1 = i ∨ 2 * p + 2 = i) → nth arr c ≤ nth arr p := by
        intro p hp hpi
        obtain ⟨b1, b2⟩ := hb p hp hpi
        rcases hc2.1 with h | h
        · rw [h]; exact b1 (by omega)
        · rw [h]; exact b2 (by omega)
      have hac : heap_at arr n c := ha c (by omega) hc2.2 hc
      have hch : ∀ x, (x = 2 * i + 1 ∨ x = 2 * i + 2) → x < n → nth arr x ≤ nth arr c := by
        intro x hx hxn
        rcases hx with h | h
        · rw [h]; exact h2 (by omega)
        · rw [h]; exact h3 (by omega)
      have ha1 : ∀ j, s ≤ j → j < n → j ≠ c → heap_at (swp arr i c) n j := by
        intro j hj1 hj2 hjc
        by_cases hji : j = i
        · subst hji
          constructor
          · intro h
            rw [hnth _ (by omega), hnth j (by omega), if_neg hjc, if_pos rfl]
            split_ifs with e1 e2
            · omega
            · omega
            · exact hch _ (Or.inl rfl) h
          · intro h
            rw [hnth _ (by omega), hnth j (by omega), if_neg hjc, if_pos rfl]
            split_ifs with e1 e2
            · omega
            · omega
            · exact hch _ (Or.inr rfl) h
        · obtain ⟨a1, a2⟩ := ha j hj1 hj2 hji
          constructor
          · intro h
            rw [hnth _ (by omega), hnth j (by omega), if_neg hjc, if_neg hji]
            split_ifs with e1 e2
            · omega
            · exact hbc j hj1 (Or.inl e2)
            · exact a1 h
          · intro h
            rw [hnth _ (by omega), hnth j (by omega), if_neg hjc, if_neg hji]
            split_ifs with e1 e2
            · omega
            · exact hbc j hj1 (Or.inr e2)
            · exact a2 h
      have hb1 : ∀ p, s ≤ p → (2 * p + 1 = c ∨ 2 * p + 2 = c) →
          (2 * c + 1 < n → nth (swp arr i c) (2 * c + 1) ≤ nth (swp arr i c) p) ∧
          (2 * c + 2 < n → nth (swp arr i c) (2 * c + 2) ≤ nth (swp arr i c) p) := by
        intro p hp hpc
        have hpi : p = i := by omega
        subst hpi
        constructor
        · intro h
          rw [hnth _ (by omega), hnth p (by omega), if_neg (by omega), if_neg (by omega),
            if_neg (by omega), if_pos rfl]
          exact hac.1 h
        · intro h
          rw [hnth _ (by omega), hnth p (by omega), if_neg (by omega), if_neg (by omega),
            if_neg (by omega), if_pos rfl]
          exact hac.2 h
      obtain ⟨arr1, m1, hrun, hlen, hperm, hout, hP, hheap, hm1, hm2⟩ :=
        ih (swp arr i c) c ⟨m.comparisons + hcmp n i, m.exchanges + 1⟩ hs (by omega)
          (by rw [swp_length]; exact hn) (by push_cast at hf; omega) ha1 hb1
      dsimp only at hm1 hm2
      refine ⟨arr1, m1, hrun, by rw [hlen, swp_length],
        hperm.trans (swp_perm arr i c hi0 (by omega) (by omega) (by omega)), ?_, ?_, hheap,
        by omega, by omega⟩
      · intro k hk0 hk
        rw [hout k hk0 hk, hnth k hk0, if_neg (by omega), if_neg (by omega)]
      · intro P hP0
        apply hP P
        intro k hk0 hk
        rw [hnth k hk0]
        split_ifs
        · exact hP0 i hi0 (by omega)
        · exact hP0 c (by omega) hc2.2
        · exact hP0 k hk0 hk

theorem heap_root_max (arr : List Int) (n : Int)
    (hheap : ∀ j, 0 ≤ j → j < n → heap_at arr n j) :
    ∀ (t : Nat) (k : Int), k.toNat ≤ t → 0 ≤ k → k < n → nth arr k ≤ nth arr 0 := by
  intro t
  induction t with
  | zero =>
    intro k hk hk0 hkn
    have : k = 0 := by omega
    rw [this]
  | succ t ih =>
    intro k hk hk0 hkn
    by_cases hz : k = 0
    · rw [hz]
    · have hp := ih ((k - 1) / 2) (by omega) (by omega) (by omega)
      obtain ⟨c1, c2⟩ := hheap ((k - 1) / 2) (by omega) (by omega)
      have hcase : 2 * ((k - 1) / 2) + 1 = k ∨ 2 * ((k - 1) / 2) + 2 = k := by omega
      rcases hcase with h | h
      · rw [h] at c1
        exact le_trans (c1 hkn) hp
      · rw [h] at c2
        exact le_trans (c2 hkn) hp

theorem heap_sort_build_spec (hfuel : Nat) (n : Int) :
    ∀ (fuel : Nat) (arr : List Int) (i : Int) (m : Metrics),
      -1 ≤ i → n ≤ arr.length → n - 1 ≤ hfuel → i + 1 ≤ fuel →
      (∀ j, i < j → j < n → heap_at arr n j) →
      ∃ arr1 m1, heap_sort_build hfuel n fuel arr i m = .ok (arr1, m1) ∧
        arr1.length = arr.length ∧ arr1.Perm arr ∧
        (∀ k, 0 ≤ k → n ≤ k → nth arr1 k = nth arr k) ∧
        (∀ j, 0 ≤ j → j < n → heap_at arr1 n j) ∧
        m.comparisons ≤ m1.comparisons ∧ m.exchanges ≤ m1.exchanges := by
  intro fuel
  induction fuel with
  | zero =>
    intro arr i m hi hn hhf hf hinv
    have hi' : ¬ i ≥ 0 := by omega
    refine ⟨arr, m, ?_, rfl, List.Perm.refl _, fun _ _ _ => rfl,
      fun j h1 h2 => hinv j (by omega) h2, le_refl _, le_refl _⟩
    unfold heap_sort_build
    rw [if_neg hi']
  | succ fuel ih =>
    intro arr i m hi hn hhf hf hinv
    by_cases hi' : i ≥ 0
    · obtain ⟨arr1, m1, hrun1, hlen1, hperm1, hout1, -, hheap1, hc1, he1⟩ :=
        heapify_spec n i hfuel arr i m hi' (le_refl _) hn (by omega)
          (fun j h1 h2 h3 => hinv j (by omega) h2) (fun p h1 h2 => absurd h2 (by omega))
      obtain ⟨arr2, m2, hrun2, hlen2, hperm2, hout2, hheap2, hc2, he2⟩ :=
        ih arr1 (i - 1) m1 (by omega) (by rw [hlen1]; exact hn) hhf (by push_cast at hf; omega)
          (fun j h1 h2 => hheap1 j (by omega) h2)
      refine ⟨arr2, m2, ?_, by rw [hlen2, hlen1], hperm2.trans hperm1, ?_, hheap2,
        by omega, by omega⟩
      · unfold heap_sort_build
        rw [if_pos hi']
        simp only []
        rw [hrun1]
        simp only [bind_ok]
        exact hrun2
      · intro k hk0 hk
        rw [hout2 k hk0 hk, hout1 k hk0 hk]
    · refine ⟨arr, m, ?_, rfl, List.Perm.refl _, fun _ _ _ => rfl,
        fun j h1 h2 => hinv j (by omega) h2, le_refl _, le_refl _⟩
      unfold heap_sort_build
      rw [if_neg hi']

theorem heap_sort_extract_spec (hfuel : Nat) :
    ∀ (fuel : Nat) (arr : List Int) (i : Int) (m : Metrics),
      -1 ≤ i → i < arr.length → i ≤ hfuel → i + 1 ≤ fuel →
      (∀ j, 0 ≤ j → j < i + 1 → heap_at arr (i + 1) j) →
      (∀ a b, i < a → a ≤ b → b < arr.length → nth arr a ≤ nth arr b) →
      (∀ a b, 0 ≤ a → a ≤ i → i < b → b < arr.length → nth arr a ≤ nth arr b) →
      ∃ arr1 m1, heap_sort_extract hfuel fuel arr i m = .ok (arr1, m1) ∧
        arr1.length = arr.length ∧ arr1.Perm arr ∧
        (∀ a b : Int, 0 ≤ a → a ≤ b → b < arr.length → nth arr1 a ≤ nth arr1 b) ∧
        m.comparisons ≤ m1.comparisons ∧ m.exchanges + (i + 1) ≤ m1.exchanges := by
  intro fuel
  induction fuel with
  | zero =>
    intro arr i m hi hil hhf hf h1 h2 h3
    have hi' : ¬ i ≥ 0 := by omega
    refine ⟨arr, m, ?_, rfl, List.Perm.refl _, fun a b ha hab hb => h2 a b (by omega) hab hb,
      le_refl _, by omega⟩
    unfold heap_sort_extract
    rw [if_neg hi']
  | succ fuel ih =>
    intro arr i m hi hil hhf hf h1 h2 h3
    by_cases hi' : i ≥ 0
    · have hlen0 : 0 < (arr.length : Int) := by omega
      have hnth : ∀ k, 0 ≤ k → nth (swp arr 0 i) k =
          if k = i then nth arr 0 else if k = 0 then nth arr i else nth arr k :=
        fun k hk => nth_swp arr 0 i k (le_refl _) hlen0 hi' hil hk
      have hmax := heap_root_max arr (i + 1) h1
      obtain ⟨arr1, m1, hrun1, hlen1, hperm1, hout1, hP1, hheap1, hc1, he1⟩ :=
        heapify_spec i 0 hfuel (swp arr 0 i) 0
          { m with exchanges := m.exchanges + 1 } (le_refl _) (le_refl _)
          (by rw [swp_length]; omega) (by omega)
          (by
            intro j hj0 hji hjne
            obtain ⟨a1, a2⟩ := h1 j hj0 (by omega)
            constructor
            · intro h
              rw [hnth _ (by omega), hnth j hj0, if_neg (by omega), if_neg (by omega),
                if_neg (by omega), if_neg hjne]
              exact a1 (by omega)
            · intro h
              rw [hnth _ (by omega), hnth j hj0, if_neg (by omega), if_neg (by omega),
                if_neg (by omega), if_neg hjne]
              exact a2 (by omega))
          (fun p h1 h2 => absurd h2 (by omega))
      dsimp only at hc1 he1
      have hlen1' : arr1.length = arr.length := by rw [hlen1, swp_length]
      obtain ⟨arr2, m2, hrun2, hlen2, hperm2, hs2, hc2, he2⟩ :=
        ih arr1 (i - 1) m1 (by omega) (by rw [hlen1']; omega) (by omega)
          (by push_cast at hf; omega)
          (by
            intro j hj0 hj1
            have := hheap1 j hj0 (by omega)
            rwa [show i - 1 + 1 = i by omega])
          (by
            intro a b ha hab hb
            rw [hlen1'] at hb
            rw [hout1 a (by omega) (by omega), hout1 b (by omega) (by omega),
              hnth a (by omega), hnth b (by omega)]
            by_cases hai : a = i
            · rw [if_pos hai]
              by_cases hbi : b = i
              · rw [if_pos hbi]
              · rw [if_neg hbi, if_neg (by omega)]
                exact h3 0 b (le_refl _) hi' (by omega) hb
            · rw [if_neg hai, if_neg (by omega), if_neg (by omega), if_neg (by omega)]
              exact h2 a b (by omega) hab hb)
          (by
            intro a b ha0 hai hib hb
            rw [hlen1'] at hb
            rw [hout1 b (by omega) (by omega)]
            refine hP1 (fun x => x ≤ nth (swp arr 0 i) b) ?_ a ha0 (by omega)
            intro k hk0 hki
            rw [hnth k hk0, hnth b (by omega), if_neg (by omega)]
            by_cases hbi : b = i
            · rw [if_pos hbi]
              split_ifs
              · exact hmax i.toNat i (le_refl _) hi' (by omega)
              · exact hmax k.toNat k (le_refl _) hk0 (by omega)
            · rw [if_neg hbi, if_neg (show ¬ b = 0 by omega)]
              split_ifs
              · exact h3 i b hi' (le_refl _) (by omega) hb
              · exact h3 k b hk0 (by omega) (by omega) hb)
      refine ⟨arr2, m2, ?_, by rw [hlen2, hlen1'],
        (hperm2.trans hperm1).trans (swp_perm arr 0 i (le_refl _) hlen0 hi' hil), ?_,
        by omega, by omega⟩
      · unfold heap_sort_extract
        rw [if_pos hi']
        simp only []
        rw [rd_eq arr 0 (le_refl _) hlen0, rd_eq arr i hi' hil]
        simp only [bind_ok]
        rw [wr_eq arr 0 _ (le_refl _) hlen0]
        simp only [bind_ok]
        rw [wr_eq _ i _ hi' (by simp; omega)]
        simp only [bind_ok]
        change (heapify hfuel (swp arr 0 i) i 0 _ >>= _) = _
        rw [hrun1]
        simp only [bind_ok]
        exact hrun2
      · intro a b ha hab hb
        exact hs2 a b ha hab (by rw [hlen1']; exact hb)
    · refine ⟨arr, m, ?_, rfl, List.Perm.refl _, fun a b ha hab hb => h2 a b (by omega) hab hb,
        le_refl _, by omega⟩
      unfold heap_sort_extract
      rw [if_neg hi']

/-- C3: for every array of integers, `heap_sort` (given fuel at least the length) returns the
array in non-decreasing order with the same multiset of values as the input, that is, the
ascending-sorted arrangement of the input. -/
theorem heap_sort_sorts (fuel : Nat) (arr : List Int) (m : Metrics)
    (hf : arr.length ≤ fuel) :
    ∃ out m1, heap_sort fuel arr arr.length m = .ok (out, m1) ∧
      List.Sorted (· ≤ ·) out ∧ out.Perm arr ∧ out = arr.insertionSort (· ≤ ·) := by
  have hn0 : (0 : Int) ≤ arr.length := by omega
  obtain ⟨arr1, m1, hrun1, hlen1, hperm1, -, hheap1, -, -⟩ :=
    heap_sort_build_spec fuel arr.length fuel arr ((arr.length : Int) / 2 - 1)
      { m with comparisons := 0, exchanges := 0 } (by omega) (le_refl _) (by omega) (by omega)
      (fun j h1 h2 => ⟨fun h => absurd h (by omega), fun h => absurd h (by omega)⟩)
  obtain ⟨arr2, m2, hrun2, hlen2, hperm2, hs2, -, -⟩ :=
    heap_sort_extract_spec fuel fuel arr1 ((arr.length : Int) - 1) m1 (by omega)
      (by rw [hlen1]; omega) (by omega) (by omega)
      (fun j h1 h2 => by
        have := hheap1 j h1 (by omega)
        rwa [show (arr.length : Int) - 1 + 1 = arr.length by omega])
      (fun a b h1 h2 h3 => absurd h3 (by rw [hlen1]; omega))
      (fun a b h1 h2 h3 h4 => absurd h4 (by rw [hlen1]; omega))
  have hsorted : List.Sorted (· ≤ ·) arr2 :=
    sorted_of_nth arr2 (fun a b ha hab hb => hs2 a b ha hab (by rw [← hlen2]; omega))
  have hperm : arr2.Perm arr := hperm2.trans hperm1
  refine ⟨arr2, m2, ?_, hsorted, hperm, eq_insertionSort arr2 arr hsorted hperm⟩
  unfold heap_sort
  simp only []
  rw [cdiv_two _ hn0, hrun1]
  simp only [bind_ok]
  exact hrun2

theorem heap_sort_sorts_witness :
    [3, 1, 2].length ≤ 3 ∧
      ∃ out m1, heap_sort 3 [3, 1, 2] ([3, 1, 2] : List Int).length ⟨0, 0⟩ = .ok (out, m1) ∧
        List.Sorted (· ≤ ·) out ∧ out.Perm [3, 1, 2] ∧
        out = List.insertionSort (· ≤ ·) [3, 1, 2] :=
  ⟨by decide, heap_sort_sorts 3 [3, 1, 2] ⟨0, 0⟩ (by decide)⟩

theorem bind_eq_ok {ε α β : Type} (x : Except ε α) (f : α → Except ε β) (r : β) :
    (x >>= f) = .ok r ↔ ∃ a, x = .ok a ∧ f a = .ok r := by
  cases x with
  | error e => simp [bind, Except.bind]
  | ok a => simp [bind, Except.bind]

theorem partition_loop_mono (pivot high : Int) :
    ∀ (f f' : Nat) (arr : List Int) (i j : Int) (m : Metrics) r, f ≤ f' →
      partition_loop pivot high f arr i j m = .ok r →
      partition_loop pivot high f' arr i j m = .ok r := by
  intro f
  induction f with
  | zero =>
    intro f' arr i j m r _ h
    unfold partition_loop at h ⊢
    split_ifs at h ⊢ with hc
    rw [h]
  | succ f ih =>
    intro f' arr i j m r hle h
    obtain ⟨g, rfl⟩ : ∃ g, f' = g + 1 := ⟨f' - 1, by omega⟩
    unfold partition_loop at h ⊢
    split_ifs at h ⊢ with hc
    · simp only [bind_eq_ok] at h ⊢
      obtain ⟨a, ha, h⟩ := h
      refine ⟨a, ha, ?_⟩
      split_ifs at h ⊢
      · simp only [bind_eq_ok] at h ⊢
        obtain ⟨a1, h1, a2, h2, a3, h3, a4, h4, h⟩ := h
        exact ⟨a1, h1, a2, h2, a3, h3, a4, h4, ih _ _ _ _ _ _ (by omega) h⟩
      · exact ih _ _ _ _ _ _ (by omega) h
    · simpa using h

theorem partition_mono (f f' : Nat) (arr : List Int) (low high : Int) (m : Metrics)
    (r : List Int × Int × Metrics) (hle : f ≤ f')
    (h : partition f arr low high m = .ok r) : partition f' arr low high m = .ok r := by
  unfold partition at h ⊢
  simp only [bind_eq_ok] at h ⊢
  obtain ⟨a1, h1, a2, h2, h⟩ := h
  exact ⟨a1, h1, a2, partition_loop_mono _ _ _ _ _ _ _ _ _ hle h2, h⟩

theorem quick_sort_recursive_mono :
    ∀ (f f' : Nat) (arr : List Int) (low high : Int) (m : Metrics) r, f ≤ f' →
      quick_sort_recursive f arr low high m = .ok r →
      quick_sort_recursive f' arr low high m = .ok r := by
  intro f
  induction f with
  | zero =>
    intro f' arr low high m r _ h
    unfold quick_sort_recursive at h ⊢
    split_ifs at h ⊢ with hc
    rw [h]
  | succ f ih =>
    intro f' arr low high m r hle h
    obtain ⟨g, rfl⟩ : ∃ g, f' = g + 1 := ⟨f' - 1, by omega⟩
    unfold quick_sort_recursive at h ⊢
    split_ifs at h ⊢ with hc
    · simp only [bind_eq_ok] at h ⊢
      obtain ⟨a1, h1, a2, h2, h⟩ := h
      exact ⟨a1, partition_mono _ _ _ _ _ _ _ (by omega) h1, a2, ih _ _ _ _ _ _ (by omega) h2,
        ih _ _ _ _ _ _ (by omega) h⟩
    · simpa using h

theorem quick_sort_mono (f f' : Nat) (arr : List Int) (n : Int) (m : Metrics)
    (r : List Int × Metrics) (hle : f ≤ f') (h : quick_sort f arr n m = .ok r) :
    quick_sort f' arr n m = .ok r :=
  quick_sort_recursive_mono f f' arr 0 (n - 1) _ r hle h

theorem wr_ok {α : Type} (arr a : List α) (i : Int) (v : α) (h : wr arr i v = .ok a) :
    0 ≤ i ∧ i < arr.length ∧ a = arr.set i.toNat v := by
  unfold wr at h
  split_ifs at h with hc
  simp only [Except.ok.injEq] at h
  exact ⟨hc.1, hc.2, h.symm⟩

theorem heapify_mono :
    ∀ (f f' : Nat) (arr : List Int) (n i : Int) (m : Metrics) r, 0 ≤ i → n ≤ arr.length →
      f ≤ f' → heapify f arr n i m = .ok r →
      heapify f' arr n i m = .ok r ∧ r.1.length = arr.length := by
  intro f
  induction f with
  | zero =>
    intro f' arr n i m r hi hn _ h
    rw [heapify_eq 0 arr n i m hi hn] at h
    rw [heapify_eq f' arr n i m hi hn]
    split_ifs at h ⊢ with hc
    simp only [Except.ok.injEq] at h
    subst h
    exact ⟨rfl, rfl⟩
  | succ f ih =>
    intro f' arr n i m r hi hn hle h
    obtain ⟨g, rfl⟩ : ∃ g, f' = g + 1 := ⟨f' - 1, by omega⟩
    rw [heapify_eq (f + 1) arr n i m hi hn] at h
    rw [heapify_eq (g + 1) arr n i m hi hn]
    split_ifs at h ⊢ with hc
    · simp only [] at h ⊢
      obtain ⟨h0, -⟩ := hlargest_spec arr n i
      have := ih g (swp arr i (hlargest arr n i)) n (hlargest arr n i) _ r (by omega)
        (by rw [swp_length]; exact hn) (by omega) h
      rw [swp_length] at this
      exact this
    · simp only [Except.ok.injEq] at h
      subst h
      exact ⟨rfl, rfl⟩

theorem heap_sort_build_mono (n : Int) (hf hf' : Nat) (hhf : hf ≤ hf') :
    ∀ (f f' : Nat) (arr : List Int) (i : Int) (m : Metrics) r, n ≤ arr.length → f ≤ f' →
      heap_sort_build hf n f arr i m = .ok r → heap_sort_build hf' n f' arr i m = .ok r := by
  intro f
  induction f with
  | zero =>
    intro f' arr i m r _ _ h
    unfold heap_sort_build at h ⊢
    split_ifs at h ⊢ with hc
    rw [h]
  | succ f ih =>
    intro f' arr i m r hn hle h
    obtain ⟨g, rfl⟩ : ∃ g, f' = g + 1 := ⟨f' - 1, by omega⟩
    unfold heap_sort_build at h ⊢
    split_ifs at h ⊢ with hc
    · simp only [bind_eq_ok] at h ⊢
      obtain ⟨a1, h1, h⟩ := h
      obtain ⟨h1', hlen⟩ := heapify_mono _ _ _ _ _ _ _ hc hn hhf h1
      exact ⟨a1, h1', ih _ _ _ _ _ (by rw [hlen]; exact hn) (by omega) h⟩
    · simpa using h

theorem heap_sort_extract_mono (hf hf' : Nat) (hhf : hf ≤ hf') :
    ∀ (f f' : Nat) (arr : List Int) (i : Int) (m : Metrics) r, f ≤ f' →
      heap_sort_extract hf f arr i m = .ok r → heap_sort_extract hf' f' arr i m = .ok r := by
  intro f
  induction f with
  | zero =>
    intro f' arr i m r _ h
    unfold heap_sort_extract at h ⊢
    split_ifs at h ⊢ with hc
    rw [h]
  | succ f ih =>
    intro f' arr i m r hle h
    obtain ⟨g, rfl⟩ : ∃ g, f' = g + 1 := ⟨f' - 1, by omega⟩
    unfold heap_sort_extract at h ⊢
    split_ifs at h ⊢ with hc
    · simp only [bind_eq_ok] at h ⊢
      obtain ⟨a1, h1, a2, h2, a3, h3, a4, h4, a5, h5, h⟩ := h
      obtain ⟨-, -, e3⟩ := wr_ok _ _ _ _ h3
      obtain ⟨-, b4, e4⟩ := wr_ok _ _ _ _ h4
      have hlen : i ≤ (a4.length : Int) := by
        rw [e4, List.length_set]
        omega
      obtain ⟨h5', -⟩ := heapify_mono _ _ _ _ _ _ _ (le_refl _) hlen hhf h5
      exact ⟨a1, h1, a2, h2, a3, h3, a4, h4, a5, h5', ih _ _ _ _ _ (by omega) h⟩
    · simpa using h

theorem heap_sort_mono (f f' : Nat) (arr : List Int) (n : Int) (m : Metrics)
    (r : List Int × Metrics) (hn : n ≤ arr.length) (hle : f ≤ f')
    (h : heap_sort f arr n m = .ok r) : heap_sort f' arr n m = .ok r := by
  unfold heap_sort at h ⊢
  simp only [bind_eq_ok] at h ⊢
  obtain ⟨a1, h1, h⟩ := h
  exact ⟨a1, heap_sort_build_mono n f f' hle _ _ _ _ _ _ hn hle h1,
    heap_sort_extract_mono f f' hle _ _ _ _ _ _ hle h⟩

theorem heap_sort_single_run (x : Int) (m : Metrics) :
    heap_sort 1 [x] 1 m = .ok ([x], ⟨0, 1⟩) := by
  simp [heap_sort, heap_sort_build, heap_sort_extract, heapify, cdiv_two, rd, wr, bind,
    Except.bind, pure, Except.pure]

theorem heap_sort_single (x : Int) (fuel : Nat) (m : Metrics) :
    heap_sort (fuel + 1) [x] 1 m = .ok ([x], ⟨0, 1⟩) :=
  heap_sort_mono 1 (fuel + 1) [x] 1 m ([x], ⟨0, 1⟩) (by simp) (by omega)
    (heap_sort_single_run x m)

theorem quick_sort_sorted5_min (m : Metrics) :
    quick_sort 5 [1, 2, 3, 4, 5] 5 m = .ok ([1, 2, 3, 4, 5], ⟨10, 14⟩) := by
  have h : quick_sort 5 [1, 2, 3, 4, 5] 5 ⟨0, 0⟩ = .ok ([1, 2, 3, 4, 5], ⟨10, 14⟩) := by
    decide!
  exact h

theorem quick_sort_sorted5_run (fuel : Nat) (m : Metrics) (hf : 5 ≤ fuel) :
    quick_sort fuel [1, 2, 3, 4, 5] 5 m = .ok ([1, 2, 3, 4, 5], ⟨10, 14⟩) :=
  quick_sort_mono 5 fuel [1, 2, 3, 4, 5] 5 m ([1, 2, 3, 4, 5], ⟨10, 14⟩) hf
    (quick_sort_sorted5_min m)

theorem heap_build_reverse4_min :
    heap_sort_build 4 4 4 [4, 3, 2, 1] (cdiv 4 2 - 1) ⟨0, 0⟩ = .ok ([4, 3, 2, 1], ⟨3, 0⟩) := by
  decide!

theorem heap_extract_reverse4_min :
    heap_sort_extract 4 4 [4, 3, 2, 1] (4 - 1) ⟨3, 0⟩ = .ok ([1, 2, 3, 4], ⟨6, 5⟩) := by
  decide!

theorem heap_sort_reverse4_min (m : Metrics) :
    heap_sort 4 [4, 3, 2, 1] 4 m = .ok ([1, 2, 3, 4], ⟨6, 5⟩) := by
  have h : heap_sort 4 [4, 3, 2, 1] 4 ⟨0, 0⟩ = .ok ([1, 2, 3, 4], ⟨6, 5⟩) := by decide!
  exact h

theorem heap_sort_single_nofuel :
    heap_sort 0 [42] 1 ⟨0, 0⟩ = .error .outOfFuel := by
  decide!

/-- C4 (amended): on every single-element array `[x]` each of the three sorts returns `[x]` with
`comparisons = 0`; `merge_sort` and `quick_sort` report `exchanges = 0`, while `heap_sort`
reports `exchanges = 1`, the swap of `arr[0]` with itself in the last round `i = 0` of its
extraction loop. -/
theorem single_element (x : Int) (fuel : Nat) (m : Metrics) :
    quick_sort fuel [x] 1 m = .ok ([x], ⟨0, 0⟩) ∧
    merge_sort id fuel [x] 1 m = .ok ([x], ⟨0, 0⟩) ∧
    heap_sort (fuel + 1) [x] 1 m = .ok ([x], ⟨0, 1⟩) := by
  refine ⟨?_, ?_, ?_⟩
  · unfold quick_sort quick_sort_recursive
    simp
  · unfold merge_sort merge_sort_recursive
    simp
  · exact heap_sort_single x fuel m

/-- C4 (counterexample): with no amount of fuel does `heap_sort` on `[42]` report
`comparisons = 0` and `exchanges = 0`. -/
theorem single_element_heap_counterexample :
    ¬ ∃ fuel : Nat, heap_sort fuel [42] 1 ⟨0, 0⟩ = .ok ([42], ⟨0, 0⟩) := by
  rintro ⟨fuel, h⟩
  cases fuel with
  | zero =>
    rw [heap_sort_single_nofuel] at h
    simp at h
  | succ k =>
    rw [heap_sort_single 42 k ⟨0, 0⟩] at h
    simp at h

/-- C5 (amended): on `[1,2,3,4,5]`, with fuel at least 5, `quick_sort` leaves the array as it
is and reports `comparisons = 10` and `exchanges = 14`. -/
theorem quick_sort_sorted5 (fuel : Nat) (m : Metrics) (hf : 5 ≤ fuel) :
    quick_sort fuel [1, 2, 3, 4, 5] 5 m = .ok ([1, 2, 3, 4, 5], ⟨10, 14⟩) :=
  quick_sort_sorted5_run fuel m hf

theorem quick_sort_sorted5_witness :
    5 ≤ 5 ∧ quick_sort 5 [1, 2, 3, 4, 5] 5 ⟨0, 0⟩ = .ok ([1, 2, 3, 4, 5], ⟨10, 14⟩) :=
  ⟨le_refl _, quick_sort_sorted5 5 ⟨0, 0⟩ (le_refl _)⟩

/-- C5 (counterexample): with no amount of fuel does `quick_sort` on `[1,2,3,4,5]` report
`comparisons = 10` and `exchanges = 5`. -/
theorem quick_sort_sorted5_counterexample :
    ¬ ∃ fuel : Nat, quick_sort fuel [1, 2, 3, 4, 5] 5 ⟨0, 0⟩ = .ok ([1, 2, 3, 4, 5], ⟨10, 5⟩) := by
  rintro ⟨fuel, h⟩
  have h5 := quick_sort_mono fuel (fuel + 5) _ _ _ _ (by omega) h
  rw [quick_sort_sorted5_run (fuel + 5) ⟨0, 0⟩ (by omega)] at h5
  simp at h5

/-- C6: each of the three sorts zeroes both counters itself, so two runs on the same array that
start from different `Metrics` values give the same result, counters included. -/
theorem counters_reset (fuel : Nat) (arr : List Int) (n : Int) (m1 m2 : Metrics) :
    heap_sort fuel arr n m1 = heap_sort fuel arr n m2 ∧
    merge_sort id fuel arr n m1 = merge_sort id fuel arr n m2 ∧
    quick_sort fuel arr n m1 = quick_sort fuel arr n m2 :=
  ⟨rfl, rfl, rfl⟩

/-- C7: on the empty array each of the three sorts returns the empty array with
`comparisons = 0` and `exchanges = 0`, whatever the fuel; since every read and every write of
the empty array is a fault of the embedding, none was performed. -/
theorem empty_array (fuel : Nat) (m : Metrics) :
    heap_sort fuel [] 0 m = .ok ([], ⟨0, 0⟩) ∧
    merge_sort id fuel [] 0 m = .ok ([], ⟨0, 0⟩) ∧
    quick_sort fuel [] 0 m = .ok ([], ⟨0, 0⟩) ∧
    (∀ i : Int, rd ([] : List Int) i = .error .outOfBounds) ∧
    (∀ (i : Int) (v : Int), wr ([] : List Int) i v = .error .outOfBounds) := by
  refine ⟨?_, ?_, ?_, ?_, ?_⟩
  · unfold heap_sort heap_sort_build heap_sort_extract
    simp [cdiv_two, bind_ok]
  · unfold merge_sort merge_sort_recursive
    simp
  · unfold quick_sort quick_sort_recursive
    simp
  · intro i
    unfold rd
    split_ifs <;> simp
  · intro i v
    unfold wr
    rw [if_neg]
    simp

/-- C9: on `[4,3,2,1]`, with fuel at least 4, the build phase of `heap_sort` counts 3
comparisons and no exchange and leaves the array as it is, the extraction phase adds 3
comparisons and 5 exchanges and produces `[1,2,3,4]`, and `heap_sort` as a whole returns
`[1,2,3,4]` with `comparisons = 6` and `exchanges = 5`. -/
theorem heap_sort_reverse4 (fuel : Nat) (m : Metrics) (hf : 4 ≤ fuel) :
    heap_sort_build fuel 4 fuel [4, 3, 2, 1] (cdiv 4 2 - 1) ⟨0, 0⟩
      = .ok ([4, 3, 2, 1], ⟨3, 0⟩) ∧
    heap_sort_extract fuel fuel [4, 3, 2, 1] (4 - 1) ⟨3, 0⟩ = .ok ([1, 2, 3, 4], ⟨6, 5⟩) ∧
    heap_sort fuel [4, 3, 2, 1] 4 m = .ok ([1, 2, 3, 4], ⟨6, 5⟩) := by
  exact ⟨heap_sort_build_mono 4 4 fuel hf 4 fuel [4, 3, 2, 1] (cdiv 4 2 - 1) ⟨0, 0⟩
      ([4, 3, 2, 1], ⟨3, 0⟩) (by simp) hf heap_build_reverse4_min,
    heap_sort_extract_mono 4 fuel hf 4 fuel [4, 3, 2, 1] (4 - 1) ⟨3, 0⟩
      ([1, 2, 3, 4], ⟨6, 5⟩) hf heap_extract_reverse4_min,
    heap_sort_mono 4 fuel [4, 3, 2, 1] 4 m ([1, 2, 3, 4], ⟨6, 5⟩) (by simp) hf
      (heap_sort_reverse4_min m)⟩

theorem heap_sort_reverse4_witness :
    4 ≤ 4 ∧
    heap_sort_build 4 4 4 [4, 3, 2, 1] (cdiv 4 2 - 1) ⟨0, 0⟩ = .ok ([4, 3, 2, 1], ⟨3, 0⟩) ∧
    heap_sort_extract 4 4 [4, 3, 2, 1] (4 - 1) ⟨3, 0⟩ = .ok ([1, 2, 3, 4], ⟨6, 5⟩) ∧
    heap_sort 4 [4, 3, 2, 1] 4 ⟨0, 0⟩ = .ok ([1, 2, 3, 4], ⟨6, 5⟩) :=
  ⟨le_refl _, heap_sort_reverse4 4 ⟨0, 0⟩ (le_refl _)⟩

/-- C10: reading back the file the generator writes for a sequence `V` returns the count
`|V|` and exactly the elements of `V`, in order, whatever the prior content of the buffer. -/
theorem dat_round_trip (garbage : Nat → Int) (V : List Int) :
    read_data_from_dat garbage (write_dat V.length V) = .ok ((V.length : Int), V) := by
  unfold write_dat read_data_from_dat
  simp only [List.singleton_append, Int.toNat_ofNat, List.take_length]
  rw [if_neg (by omega)]
  congr 2
  apply List.ext_getElem
  · simp
  · intro k h1 h2
    simp [List.getElem?_eq_getElem h2]

theorem take_eq_of_nth (a b : List Int) (c : Nat) (hlen : a.length = b.length)
    (h : ∀ k : Int, 0 ≤ k → k < c → nth a k = nth b k) : a.take c = b.take c := by
  apply List.ext_getElem
  · simp [hlen]
  · intro k h1 h2
    simp only [List.length_take] at h1 h2
    have hk := h k (by omega) (by omega)
    rw [nth_natCast a k (by omega), nth_natCast b k (by omega)] at hk
    simpa using hk

theorem drop_eq_of_nth (a b : List Int) (c : Nat) (hlen : a.length = b.length)
    (h : ∀ k : Int, c ≤ k → k < a.length → nth a k = nth b k) : a.drop c = b.drop c := by
  apply List.ext_getElem
  · simp [hlen]
  · intro k h1 h2
    simp only [List.length_drop] at h1 h2
    have hk := h ((c + k : Nat) : Int) (by omega) (by omega)
    rw [nth_natCast a (c + k) (by omega), nth_natCast b (c + k) (by omega)] at hk
    simpa using hk

theorem slice_perm_of_frame (arr arr1 : List Int) (low high : Int) (h0 : 0 ≤ low)
    (hlh : low ≤ high) (hh : high < arr.length) (hlen : arr1.length = arr.length)
    (hperm : arr1.Perm arr)
    (hout : ∀ k, 0 ≤ k → (k < low ∨ high < k) → nth arr1 k = nth arr k) :
    (slice arr1 low high).Perm (slice arr low high) := by
  unfold slice
  have hpre : arr1.take low.toNat = arr.take low.toNat :=
    take_eq_of_nth arr1 arr _ hlen (fun k h1 h2 => hout k h1 (Or.inl (by omega)))
  have hpost : (arr1.drop low.toNat).drop (high - low + 1).toNat
      = (arr.drop low.toNat).drop (high - low + 1).toNat := by
    rw [List.drop_drop, List.drop_drop]
    exact drop_eq_of_nth arr1 arr _ hlen (fun k h1 h2 => hout k (by omega) (Or.inr (by omega)))
  have e1 : arr1 = arr1.take low.toNat ++ ((arr1.drop low.toNat).take (high - low + 1).toNat
      ++ (arr1.drop low.toNat).drop (high - low + 1).toNat) := by
    rw [List.take_append_drop, List.take_append_drop]
  have e2 : arr = arr.take low.toNat ++ ((arr.drop low.toNat).take (high - low + 1).toNat
      ++ (arr.drop low.toNat).drop (high - low + 1).toNat) := by
    rw [List.take_append_drop, List.take_append_drop]
  rw [e1, e2, hpre, hpost] at hperm
  exact (List.perm_append_right_iff _).1 ((List.perm_append_left_iff _).1 hperm)

/-- C13: for `0 <= low <= high < n`, `partition(arr, low, high)` returns an index `p` with
`low <= p <= high` such that afterwards `arr[p]` is the old `arr[high]`, every element at an
index in `[low, p-1]` is `<= arr[p]`, every element at an index in `[p+1, high]` is `> arr[p]`,
the range `[low, high]` holds a permutation of its old contents, and every element outside
`[low, high]` is unchanged. -/
theorem partition_post (fuel : Nat) (arr : List Int) (low high : Int) (m : Metrics)
    (h0 : 0 ≤ low) (hlh : low ≤ high) (hh : high < arr.length) (hf : high - low ≤ fuel) :
    ∃ arr1 p m1, partition fuel arr low high m = .ok (arr1, p, m1) ∧
      low ≤ p ∧ p ≤ high ∧ nth arr1 p = nth arr high ∧
      (∀ k, low ≤ k → k ≤ p - 1 → nth arr1 k ≤ nth arr1 p) ∧
      (∀ k, p + 1 ≤ k → k ≤ high → nth arr1 p < nth arr1 k) ∧
      (slice arr1 low high).Perm (slice arr low high) ∧
      arr1.length = arr.length ∧
      (∀ k : Int, 0 ≤ k → k < arr.length → (k < low ∨ high < k) → nth arr1 k = nth arr k) := by
  obtain ⟨arr1, p, m1, hrun, hlen, hperm, hout, hp1, hp2, hpiv, hle, hgt, -, -, -⟩ :=
    partition_spec fuel arr low high m h0 hlh hh hf
  exact ⟨arr1, p, m1, hrun, hp1, hp2, hpiv, fun k a b => hle k a (by omega),
    fun k a b => hgt k (by omega) b,
    slice_perm_of_frame arr arr1 low high h0 hlh hh hlen hperm hout, hlen,
    fun k a _ c => hout k a c⟩

theorem partition_post_witness :
    (0 : Int) ≤ 0 ∧ (0 : Int) ≤ 2 ∧ (2 : Int) < ([3, 1, 2] : List Int).length ∧
    (2 : Int) - 0 ≤ (2 : Nat) ∧
    ∃ arr1 p m1, partition 2 [3, 1, 2] 0 2 ⟨0, 0⟩ = .ok (arr1, p, m1) ∧
      0 ≤ p ∧ p ≤ 2 ∧ nth arr1 p = nth [3, 1, 2] 2 ∧
      (∀ k, 0 ≤ k → k ≤ p - 1 → nth arr1 k ≤ nth arr1 p) ∧
      (∀ k, p + 1 ≤ k → k ≤ 2 → nth arr1 p < nth arr1 k) ∧
      (slice arr1 0 2).Perm (slice [3, 1, 2] 0 2) ∧
      arr1.length = ([3, 1, 2] : List Int).length ∧
      (∀ k : Int, 0 ≤ k → k < ([3, 1, 2] : List Int).length → (k < 0 ∨ 2 < k) →
        nth arr1 k = nth [3, 1, 2] k) :=
  ⟨by decide, by decide, by decide, by decide,
    partition_post 2 [3, 1, 2] 0 2 ⟨0, 0⟩ (by decide) (by decide) (by decide) (by decide)⟩

theorem rd_ok_nth (arr : List Int) (i a : Int) (h : rd arr i = .ok a) :
    0 ≤ i ∧ i < arr.length ∧ a = nth arr i := by
  unfold rd at h
  split_ifs at h with hc
  cases hg : arr[i.toNat]? with
  | none => rw [hg] at h; simp at h
  | some v =>
    rw [hg] at h
    simp only [Except.ok.injEq] at h
    obtain ⟨hlt, hv⟩ := List.getElem?_eq_some_iff.1 hg
    refine ⟨by omega, by omega, ?_⟩
    rw [← h, ← hv]
    simp [nth, List.getD, List.getElem?_eq_getElem hlt]

theorem count_le_congr (a b : List Int) (pivot : Int) :
    ∀ (len : Nat) (j : Int), (∀ k, j ≤ k → nth a k = nth b k) →
      count_le a pivot len j = count_le b pivot len j := by
  intro len
  induction len with
  | zero => intro j _; rfl
  | succ len ih =>
    intro j h
    simp only [count_le]
    rw [h j (le_refl _), ih (j + 1) (fun k hk => h k (by omega))]

theorem count_le_eq_countP (arr : List Int) (pivot : Int) :
    ∀ (len : Nat) (j : Int), 0 ≤ j → j + len ≤ arr.length →
      count_le arr pivot len j
        = (((arr.drop j.toNat).take len).countP (fun x => decide (x ≤ pivot)) : Nat) := by
  intro len
  induction len with
  | zero => intro j _ _; simp [count_le]
  | succ len ih =>
    intro j h0 h1
    have hlt : j.toNat < arr.length := by omega
    have ej : (j + 1).toNat = j.toNat + 1 := by omega
    simp only [count_le]
    rw [ih (j + 1) (by omega) (by push_cast at h1 ⊢; omega), ej,
      List.drop_eq_getElem_cons hlt, List.take_succ_cons, List.countP_cons]
    have hn : nth arr j = arr[j.toNat] := by
      simp [nth, List.getD, List.getElem?_eq_getElem hlt]
    rw [hn]
    by_cases hc : arr[j.toNat] ≤ pivot
    · simp [hc]
      omega
    · simp [hc]

theorem partition_loop_count (pivot high : Int) :
    ∀ (fuel : Nat) (arr : List Int) (i j : Int) (m : Metrics) (r : List Int × Int × Metrics),
      -1 ≤ i → i < j → partition_loop pivot high fuel arr i j m = .ok r →
      r.2.1 - i = count_le arr pivot (high - j).toNat j := by
  intro fuel
  induction fuel with
  | zero =>
    intro arr i j m r hi hij h
    unfold partition_loop at h
    split_ifs at h with hc
    simp only [Except.ok.injEq] at h
    subst h
    have : (high - j).toNat = 0 := by omega
    simp [this, count_le]
  | succ fuel ih =>
    intro arr i j m r hi hij h
    unfold partition_loop at h
    split_ifs at h with hc
    · have elen : (high - j).toNat = (high - (j + 1)).toNat + 1 := by omega
      rw [elen]
      simp only [count_le]
      simp only [bind_eq_ok] at h
      obtain ⟨a, ha, h⟩ := h
      obtain ⟨hj0, hj1, rfl⟩ := rd_ok_nth arr j a ha
      split_ifs at h with hp
      · simp only [bind_eq_ok] at h
        obtain ⟨a1, h1, a2, h2, a3, h3, a4, h4, h⟩ := h
        obtain ⟨hi0, hi1, rfl⟩ := rd_ok_nth arr (i + 1) a1 h1
        obtain ⟨-, -, rfl⟩ := rd_ok_nth arr j a2 h2
        obtain ⟨-, -, rfl⟩ := wr_ok _ _ _ _ h3
        obtain ⟨-, -, rfl⟩ := wr_ok _ _ _ _ h4
        have hrec := ih _ (i + 1) (j + 1) _ r (by omega) (by omega) h
        rw [count_le_congr _ arr pivot _ (j + 1)
          (fun k hk => by
            have := nth_swp arr (i + 1) j k hi0 hi1 hj0 hj1 (by omega)
            unfold swp at this
            rw [this, if_neg (by omega), if_neg (by omega)])] at hrec
        omega
      · have hrec := ih _ i (j + 1) _ r hi (by omega) h
        omega
    · simp only [Except.ok.injEq] at h
      subst h
      have : (high - j).toNat = 0 := by omega
      simp [this, count_le]

theorem partition_metrics (fuel : Nat) (arr : List Int) (low high : Int) (m : Metrics)
    (h0 : 0 ≤ low) (hlh : low ≤ high) (hh : high < arr.length) (hf : high - low ≤ fuel) :
    ∃ arr1 p m1, partition fuel arr low high m = .ok (arr1, p, m1) ∧
      m1.comparisons = m.comparisons + (high - low) ∧
      m1.exchanges = m.exchanges + 1 + count_le arr (nth arr high) (high - low).toNat low ∧
      p - low = count_le arr (nth arr high) (high - low).toNat low := by
  obtain ⟨arr1, p, m1, hrun, -, -, -, -, -, -, -, -, -, hc, he⟩ :=
    partition_spec fuel arr low high m h0 hlh hh hf
  have hcount : p - low = count_le arr (nth arr high) (high - low).toNat low := by
    have h := hrun
    unfold partition at h
    simp only [bind_eq_ok] at h
    obtain ⟨a, ha, ⟨ar, ir, mr⟩, hr, a1, h1, a2, h2, a3, h3, a4, h4, h⟩ := h
    obtain ⟨-, -, rfl⟩ := rd_ok_nth arr high a ha
    have hcnt := partition_loop_count _ high fuel arr (low - 1) low m _ (by omega) (by omega) hr
    simp only [pure_ok, Except.ok.injEq, Prod.mk.injEq] at h hcnt
    omega
  exact ⟨arr1, p, m1, hrun, hc, by omega, hcount⟩

/-- C14: for `0 <= low <= high < n`, one call `partition(arr, low, high)` increases
`comparisons` by exactly `high - low` and `exchanges` by exactly 1 plus the number of indices
`j` in `[low, high-1]` whose element is `<=` the pivot `arr[high]`. -/
theorem partition_counts (fuel : Nat) (arr : List Int) (low high : Int) (m : Metrics)
    (h0 : 0 ≤ low) (hlh : low ≤ high) (hh : high < arr.length) (hf : high - low ≤ fuel) :
    ∃ arr1 p m1, partition fuel arr low high m = .ok (arr1, p, m1) ∧
      m1.comparisons = m.comparisons + (high - low) ∧
      m1.exchanges = m.exchanges + 1
        + ((slice arr low (high - 1)).countP (fun x => decide (x ≤ nth arr high)) : Nat) := by
  obtain ⟨arr1, p, m1, hrun, hc, he, -⟩ := partition_metrics fuel arr low high m h0 hlh hh hf
  refine ⟨arr1, p, m1, hrun, hc, ?_⟩
  rw [he, count_le_eq_countP arr _ _ low h0 (by omega)]
  unfold slice
  rw [show (high - 1 - low + 1).toNat = (high - low).toNat by omega]

theorem partition_counts_witness :
    (0 : Int) ≤ 0 ∧ (0 : Int) ≤ 2 ∧ (2 : Int) < ([3, 1, 2] : List Int).length ∧
    (2 : Int) - 0 ≤ (2 : Nat) ∧
    ∃ arr1 p m1, partition 2 [3, 1, 2] 0 2 ⟨0, 0⟩ = .ok (arr1, p, m1) ∧
      m1.comparisons = (0 : Int) + (2 - 0) ∧
      m1.exchanges = (0 : Int) + 1
        + ((slice [3, 1, 2] 0 (2 - 1)).countP (fun x => decide (x ≤ nth [3, 1, 2] 2)) : Nat) :=
  ⟨by decide, by decide, by decide, by decide,
    partition_counts 2 [3, 1, 2] 0 2 ⟨0, 0⟩ (by decide) (by decide) (by decide) (by decide)⟩

theorem two_mul_tri (d : Nat) : 2 * tri d = (d : Int) * (d + 1) := by
  induction d with
  | zero => simp [tri]
  | succ d ih =>
    simp only [tri]
    push_cast
    linarith

theorem swp_self (arr : List Int) (j : Int) (h0 : 0 ≤ j) (h1 : j < arr.length) :
    swp arr j j = arr := by
  apply List.ext_getElem
  · rw [swp_length]
  · intro k hk1 hk2
    have h := nth_swp arr j j k h0 h1 h0 h1 (by omega)
    rw [nth_natCast _ k hk1, nth_natCast _ k hk2] at h
    rw [h]
    split_ifs with e
    · rw [← e, nth_natCast _ k hk2]
    · rfl

theorem partition_loop_sorted (pivot high : Int) :
    ∀ (fuel : Nat) (arr : List Int) (j : Int) (m : Metrics),
      0 ≤ j → j ≤ high → high < arr.length → high - j ≤ fuel →
      (∀ k, j ≤ k → k < high → nth arr k ≤ pivot) →
      partition_loop pivot high fuel arr (j - 1) j m
        = .ok (arr, high - 1, ⟨m.comparisons + (high - j), m.exchanges + (high - j)⟩) := by
  intro fuel
  induction fuel with
  | zero =>
    intro arr j m h0 hjh hh hf hle
    have : j = high := by omega
    subst this
    unfold partition_loop
    simp
  | succ fuel ih =>
    intro arr j m h0 hjh hh hf hle
    by_cases hc : j ≤ high - 1
    · unfold partition_loop
      rw [if_pos hc]
      simp only []
      rw [rd_eq arr j h0 (by omega)]
      simp only [bind_ok]
      rw [if_pos (hle j (le_refl _) (by omega))]
      rw [show j - 1 + 1 = j by omega, rd_eq arr j h0 (by omega)]
      simp only [bind_ok]
      rw [wr_eq arr j _ h0 (by omega)]
      simp only [bind_ok]
      rw [wr_eq _ j _ h0 (by simp; omega)]
      simp only [bind_ok]
      have hs : (arr.set j.toNat (nth arr j)).set j.toNat (nth arr j) = arr :=
        swp_self arr j h0 (by omega)
      rw [hs]
      have hrec := ih arr (j + 1)
        { comparisons := m.comparisons + 1, exchanges := m.exchanges + 1 } (by omega) (by omega)
        hh (by push_cast at hf; omega) (fun k a b => hle k (by omega) b)
      rw [show j + 1 - 1 = j by omega] at hrec
      rw [hrec]
      have e1 : m.comparisons + 1 + (high - (j + 1)) = m.comparisons + (high - j) := by omega
      have e2 : m.exchanges + 1 + (high - (j + 1)) = m.exchanges + (high - j) := by omega
      dsimp only
      rw [e1, e2]
    · have : j = high := by omega
      subst this
      unfold partition_loop
      simp

theorem partition_sorted (fuel : Nat) (arr : List Int) (low high : Int) (m : Metrics)
    (h0 : 0 ≤ low) (hlh : low ≤ high) (hh : high < arr.length) (hf : high - low ≤ fuel)
    (hle : ∀ k, low ≤ k → k < high → nth arr k ≤ nth arr high) :
    partition fuel arr low high m
      = .ok (arr, high, ⟨m.comparisons + (high - low), m.exchanges + (high - low) + 1⟩) := by
  unfold partition
  rw [rd_eq arr high (by omega) hh]
  simp only [bind_ok]
  rw [partition_loop_sorted (nth arr high) high fuel arr low m h0 hlh hh hf hle]
  simp only [bind_ok]
  rw [show high - 1 + 1 = high by omega, rd_eq arr high (by omega) hh]
  simp only [bind_ok]
  rw [wr_eq arr high _ (by omega) hh]
  simp only [bind_ok]
  rw [wr_eq _ high _ (by omega) (by simp; omega)]
  have hs : (arr.set high.toNat (nth arr high)).set high.toNat (nth arr high) = arr :=
    swp_self arr high (by omega) hh
  rw [hs]
  rfl

theorem quick_sort_recursive_sorted :
    ∀ (d : Nat) (fuel : Nat) (arr : List Int) (low high : Int) (m : Metrics),
      high = low + d → 0 ≤ low → high < arr.length → d < fuel →
      (∀ a b, low ≤ a → a ≤ b → b ≤ high → nth arr a ≤ nth arr b) →
      quick_sort_recursive fuel arr low high m
        = .ok (arr, ⟨m.comparisons + tri d, m.exchanges + tri d + d⟩) := by
  intro d
  induction d with
  | zero =>
    intro fuel arr low high m hd h0 hh hf hs
    unfold quick_sort_recursive
    rw [if_neg (by omega)]
    simp [tri]
  | succ d ih =>
    intro fuel arr low high m hd h0 hh hf hs
    obtain ⟨g, rfl⟩ : ∃ g, fuel = g + 1 := ⟨fuel - 1, by omega⟩
    unfold quick_sort_recursive
    rw [if_pos (by omega)]
    simp only []
    rw [partition_sorted g arr low high m h0 (by omega) hh (by push_cast at hd hf ⊢; omega)
      (fun k a b => hs k high a (by omega) (le_refl _))]
    simp only [bind_ok]
    rw [ih g arr low (high - 1) _ (by push_cast at hd ⊢; omega) h0 (by omega) (by omega)
      (fun a b ha hab hb => hs a b ha hab (by omega))]
    simp only [bind_ok]
    unfold quick_sort_recursive
    rw [if_neg (by omega)]
    simp only [tri]
    congr 3
    · push_cast at hd ⊢; omega
    · push_cast at hd ⊢; omega

theorem nth_le_of_sorted (arr : List Int) (hs : List.Sorted (· ≤ ·) arr) (a b : Int)
    (ha : 0 ≤ a) (hab : a ≤ b) (hb : b < arr.length) : nth arr a ≤ nth arr b := by
  obtain ⟨i, rfl⟩ := Int.eq_ofNat_of_zero_le ha
  obtain ⟨j, rfl⟩ := Int.eq_ofNat_of_zero_le (le_trans ha hab)
  have hi : i < arr.length := by omega
  have hj : j < arr.length := by omega
  rw [nth_natCast arr i hi, nth_natCast arr j hj]
  by_cases hij : i = j
  · subst hij
    exact le_refl _
  · exact (List.pairwise_iff_getElem.1 hs) i j hi hj (by omega)

theorem tri_closed (n : Int) (d : Nat) (hd : n = d + 1) :
    tri d = n * (n - 1) / 2 ∧ tri d + d = n * (n + 1) / 2 - 1 := by
  have h := two_mul_tri d
  have e1 : n * (n - 1) = 2 * tri d := by rw [h, hd]; ring
  have e2 : n * (n + 1) = 2 * (tri d + d + 1) := by
    have : n * (n + 1) = (d : Int) * (d + 1) + 2 * d + 2 := by rw [hd]; ring
    rw [this, ← h]; ring
  rw [e1, e2]
  constructor <;> omega

/-- C15: on every non-decreasing array of length `n >= 1`, `quick_sort` (given fuel at least
`n`) leaves the array unchanged and reports `comparisons = n(n-1)/2` and
`exchanges = n(n+1)/2 - 1`. -/
theorem quick_sort_sorted_input (fuel : Nat) (arr : List Int) (m : Metrics)
    (hs : List.Sorted (· ≤ ·) arr) (hn : 1 ≤ arr.length) (hf : arr.length ≤ fuel) :
    quick_sort fuel arr arr.length m
      = .ok (arr, ⟨(arr.length : Int) * (arr.length - 1) / 2,
          (arr.length : Int) * (arr.length + 1) / 2 - 1⟩) := by
  have hrun := quick_sort_recursive_sorted (arr.length - 1) fuel arr 0 ((arr.length : Int) - 1)
    ⟨0, 0⟩ (by omega) (le_refl _) (by omega) (by omega)
    (fun a b ha hab hb => nth_le_of_sorted arr hs a b ha hab (by omega))
  obtain ⟨t1, t2⟩ := tri_closed (arr.length : Int) (arr.length - 1) (by omega)
  unfold quick_sort
  rw [hrun]
  simp only [zero_add]
  rw [t2, t1]

theorem quick_sort_sorted_input_witness :
    List.Sorted (· ≤ ·) ([1, 2, 2] : List Int) ∧ 1 ≤ ([1, 2, 2] : List Int).length ∧
    ([1, 2, 2] : List Int).length ≤ 3 ∧
    quick_sort 3 [1, 2, 2] ([1, 2, 2] : List Int).length ⟨0, 0⟩
      = .ok ([1, 2, 2], ⟨(([1, 2, 2] : List Int).length : Int)
            * (([1, 2, 2] : List Int).length - 1) / 2,
          (([1, 2, 2] : List Int).length : Int) * (([1, 2, 2] : List Int).length + 1) / 2 - 1⟩) :=
  ⟨by decide, by decide, by decide,
    quick_sort_sorted_input 3 [1, 2, 2] ⟨0, 0⟩ (by decide) (by decide) (by decide)⟩

/-- C17: for every array of length `n`, the build phase of `heap_sort` (the loop calling
`heapify` for `i` from `n/2 - 1` down to `0`) leaves a max-heap over the full array, that is
`arr[(i-1)/2] >= arr[i]` for every `1 <= i < n`, and the array is a permutation of the
input. -/
theorem build_phase_max_heap (fuel : Nat) (arr : List Int) (m : Metrics)
    (hf : arr.length ≤ fuel) :
    ∃ arr1 m1, heap_sort_build fuel arr.length fuel arr (cdiv arr.length 2 - 1) m
        = .ok (arr1, m1) ∧
      (∀ i : Int, 1 ≤ i → i < arr.length → nth arr1 ((i - 1) / 2) ≥ nth arr1 i) ∧
      arr1.Perm arr := by
  have hn0 : (0 : Int) ≤ arr.length := by omega
  obtain ⟨arr1, m1, hrun, -, hperm, -, hheap, -, -⟩ :=
    heap_sort_build_spec fuel arr.length fuel arr ((arr.length : Int) / 2 - 1) m (by omega)
      (le_refl _) (by omega) (by omega)
      (fun j h1 h2 => ⟨fun h => absurd h (by omega), fun h => absurd h (by omega)⟩)
  refine ⟨arr1, m1, by rw [cdiv_two _ hn0]; exact hrun, ?_, hperm⟩
  intro i hi1 hi2
  obtain ⟨c1, c2⟩ := hheap ((i - 1) / 2) (by omega) (by omega)
  have hcase : 2 * ((i - 1) / 2) + 1 = i ∨ 2 * ((i - 1) / 2) + 2 = i := by omega
  rcases hcase with h | h
  · rw [h] at c1
    exact c1 hi2
  · rw [h] at c2
    exact c2 hi2

theorem build_phase_max_heap_witness :
    ([3, 1, 2] : List Int).length ≤ 3 ∧
    ∃ arr1 m1, heap_sort_build 3 ([3, 1, 2] : List Int).length 3 [3, 1, 2]
        (cdiv ([3, 1, 2] : List Int).length 2 - 1) ⟨0, 0⟩ = .ok (arr1, m1) ∧
      (∀ i : Int, 1 ≤ i → i < ([3, 1, 2] : List Int).length →
        nth arr1 ((i - 1) / 2) ≥ nth arr1 i) ∧
      arr1.Perm [3, 1, 2] :=
  ⟨by decide, build_phase_max_heap 3 [3, 1, 2] ⟨0, 0⟩ (by decide)⟩

theorem desc_ge (c k : Int) (hc : 0 ≤ c) (h : Desc c k) : c ≤ k := by
  induction h with
  | root => exact le_refl _
  | left k _ ih => omega
  | right k _ ih => omega

theorem desc_trans (a b k : Int) (hab : Desc a b) (hbk : Desc b k) : Desc a k := by
  induction hbk with
  | root => exact hab
  | left k _ ih => exact Desc.left k ih
  | right k _ ih => exact Desc.right k ih

theorem desc_parent (c k : Int) (h : Desc c k) (hne : k ≠ c) : Desc c ((k - 1) / 2) := by
  cases h with
  | root => exact absurd rfl hne
  | left k' h' =>
    have : (2 * k' + 1 - 1) / 2 = k' := by omega
    rw [this]; exact h'
  | right k' h' =>
    have : (2 * k' + 2 - 1) / 2 = k' := by omega
    rw [this]; exact h'

theorem desc_sibling_disjoint (i k : Int) (hi : 0 ≤ i) (h : Desc (2 * i + 1) k) :
    ¬ Desc (2 * i + 2) k := by
  induction h with
  | root =>
    intro h2
    have := desc_ge _ _ (by omega) h2
    omega
  | left k' h' ih =>
    intro h2
    have hp := desc_parent _ _ h2 (by omega)
    have : (2 * k' + 1 - 1) / 2 = k' := by omega
    rw [this] at hp
    exact ih hp
  | right k' h' ih =>
    intro h2
    by_cases he : 2 * k' + 2 = 2 * i + 2
    · have hk : k' = i := by omega
      rw [hk] at h'
      have := desc_ge _ _ (by omega) h'
      omega
    · have hp := desc_parent _ _ h2 he
      have : (2 * k' + 2 - 1) / 2 = k' := by omega
      rw [this] at hp
      exact ih hp

theorem heapify_frame (n : Int) :
    ∀ (fuel : Nat) (arr : List Int) (i : Int) (m : Metrics),
      0 ≤ i → n ≤ arr.length → n - 1 - i ≤ fuel →
      ∃ arr1 m1, heapify fuel arr n i m = .ok (arr1, m1) ∧
        arr1.length = arr.length ∧ arr1.Perm arr ∧
        (∀ k, 0 ≤ k → ¬ Desc i k → nth arr1 k = nth arr k) ∧
        (∃ k, Desc i k ∧ (k = i ∨ k < n) ∧ nth arr1 k = nth arr i) ∧
        nth arr1 i = nth arr (hlargest arr n i) := by
  intro fuel
  induction fuel with
  | zero =>
    intro arr i m hi hn hf
    obtain ⟨h0, -⟩ := hlargest_spec arr n i
    have hc : hlargest arr n i = i := by omega
    refine ⟨arr, ⟨m.comparisons + hcmp n i, m.exchanges⟩, ?_, rfl, List.Perm.refl _,
      fun _ _ _ => rfl, ⟨i, Desc.root, Or.inl rfl, rfl⟩, by rw [hc]⟩
    rw [heapify_eq 0 arr n i m hi hn, if_neg (by simpa using hc)]
  | succ fuel ih =>
    intro arr i m hi hn hf
    by_cases hc : hlargest arr n i = i
    · refine ⟨arr, ⟨m.comparisons + hcmp n i, m.exchanges⟩, ?_, rfl, List.Perm.refl _,
        fun _ _ _ => rfl, ⟨i, Desc.root, Or.inl rfl, rfl⟩, by rw [hc]⟩
      rw [heapify_eq (fuel + 1) arr n i m hi hn, if_neg (by simpa using hc)]
    · obtain ⟨h0, -⟩ := hlargest_spec arr n i
      have heq := heapify_eq (fuel + 1) arr n i m hi hn
      rw [if_pos hc] at heq
      simp only [] at heq
      rw [heq]
      generalize hlargest arr n i = c at hc h0 ⊢
      have hc2 : (c = 2 * i + 1 ∨ c = 2 * i + 2) ∧ c < n := by omega
      have hdc : Desc i c := by
        rcases hc2.1 with h | h
        · rw [h]; exact Desc.left i Desc.root
        · rw [h]; exact Desc.right i Desc.root
      have hnth : ∀ k, 0 ≤ k → nth (swp arr i c) k =
          if k = c then nth arr i else if k = i then nth arr c else nth arr k :=
        fun k hk => nth_swp arr i c k hi (by omega) (by omega) (by omega) hk
      obtain ⟨arr1, m1, hrun, hlen, hperm, hout, ⟨k, hk1, hk2, hk3⟩, -⟩ :=
        ih (swp arr i c) c ⟨m.comparisons + hcmp n i, m.exchanges + 1⟩ (by omega)
          (by rw [swp_length]; exact hn) (by push_cast at hf; omega)
      have hic : ¬ Desc c i := fun h => by
        have := desc_ge c i (by omega) h
        omega
      refine ⟨arr1, m1, hrun, by rw [hlen, swp_length],
        hperm.trans (swp_perm arr i c hi (by omega) (by omega) (by omega)), ?_, ?_, ?_⟩
      · intro k hk0 hk
        have hkc : ¬ Desc c k := fun h => hk (desc_trans i c k hdc h)
        have hki : k ≠ i := fun h => hk (h ▸ Desc.root)
        have hkc2 : k ≠ c := fun h => hk (h ▸ hdc)
        rw [hout k hk0 hkc, hnth k hk0, if_neg hkc2, if_neg hki]
      · refine ⟨k, desc_trans i c k hdc hk1, Or.inr (by omega), ?_⟩
        rw [hk3, hnth c (by omega), if_pos rfl]
      · rw [hout i hi hic, hnth i hi, if_neg (by omega), if_pos rfl]

theorem hlargest_tie (arr : List Int) (n i : Int) (hr : 2 * i + 2 < n)
    (htie : nth arr (2 * i + 1) = nth arr (2 * i + 2))
    (hgt : nth arr (2 * i + 1) > nth arr i) : hlargest arr n i = 2 * i + 1 := by
  unfold hlargest
  simp only []
  have h1 : (if 2 * i + 1 < n ∧ nth arr (2 * i + 1) > nth arr i then 2 * i + 1 else i)
      = 2 * i + 1 := if_pos ⟨by omega, hgt⟩
  rw [h1, if_neg (by omega)]

theorem heapify_tie_example :
    heapify 1 [1, 5, 5] 3 0 ⟨0, 0⟩ = .ok ([5, 1, 5], ⟨2, 1⟩) := by
  decide!

/-- C18: left-child tie-break in `heapify`. For a node `i` with both children present
(`2i+2 < n`), if `arr[2i+1] = arr[2i+2]` and `arr[2i+1] > arr[i]`, then `heapify(arr, n, i)`
swaps the root with the left child: afterwards `arr[i]` is the old `arr[2i+1]`, every element
of the subtree rooted at `2i+2` (the element at `2i+2` included) is unchanged, and the old root
value lies in the subtree rooted at `2i+1`; for example `[1,5,5]` with `n = 3`, `i = 0` becomes
`[5,1,5]`. -/
theorem heapify_left_tie_break (fuel : Nat) (arr : List Int) (n i : Int) (m : Metrics)
    (hi : 0 ≤ i) (hn : n ≤ arr.length) (hr : 2 * i + 2 < n)
    (htie : nth arr (2 * i + 1) = nth arr (2 * i + 2))
    (hgt : nth arr (2 * i + 1) > nth arr i) (hf : n - 1 - i ≤ fuel) :
    (∃ arr1 m1, heapify fuel arr n i m = .ok (arr1, m1) ∧
      nth arr1 i = nth arr (2 * i + 1) ∧
      (∀ k, Desc (2 * i + 2) k → nth arr1 k = nth arr k) ∧
      (∃ k, Desc (2 * i + 1) k ∧ k < n ∧ nth arr1 k = nth arr i)) ∧
    heapify 1 [1, 5, 5] 3 0 ⟨0, 0⟩ = .ok ([5, 1, 5], ⟨2, 1⟩) := by
  refine ⟨?_, heapify_tie_example⟩
  have hc := hlargest_tie arr n i hr htie hgt
  obtain ⟨g, rfl⟩ : ∃ g, fuel = g + 1 := ⟨fuel - 1, by omega⟩
  have heq := heapify_eq (g + 1) arr n i m hi hn
  rw [hc, if_pos (by omega)] at heq
  simp only [] at heq
  have hnth : ∀ k, 0 ≤ k → nth (swp arr i (2 * i + 1)) k =
      if k = 2 * i + 1 then nth arr i else if k = i then nth arr (2 * i + 1) else nth arr k :=
    fun k hk => nth_swp arr i (2 * i + 1) k hi (by omega) (by omega) (by omega) hk
  obtain ⟨arr1, m1, hrun, -, -, hout, ⟨k, hk1, hk2, hk3⟩, -⟩ :=
    heapify_frame n g (swp arr i (2 * i + 1)) (2 * i + 1)
      ⟨m.comparisons + hcmp n i, m.exchanges + 1⟩ (by omega) (by rw [swp_length]; exact hn)
      (by push_cast at hf; omega)
  refine ⟨arr1, m1, by rw [heq]; exact hrun, ?_, ?_, ?_⟩
  · have hic : ¬ Desc (2 * i + 1) i := fun h => by
      have := desc_ge _ _ (by omega) h
      omega
    rw [hout i hi hic, hnth i hi, if_neg (by omega), if_pos rfl]
  · intro k hk
    have hge := desc_ge _ _ (by omega) hk
    have hnd : ¬ Desc (2 * i + 1) k := fun h => desc_sibling_disjoint i k hi h hk
    rw [hout k (by omega) hnd, hnth k (by omega), if_neg (by omega), if_neg (by omega)]
  · refine ⟨k, hk1, by omega, ?_⟩
    rw [hk3, hnth _ (by omega), if_pos rfl]

theorem heapify_left_tie_break_witness :
    (0 : Int) ≤ 0 ∧ (3 : Int) ≤ ([1, 5, 5] : List Int).length ∧ (2 : Int) * 0 + 2 < 3 ∧
    nth [1, 5, 5] (2 * 0 + 1) = nth [1, 5, 5] (2 * 0 + 2) ∧
    nth [1, 5, 5] (2 * 0 + 1) > nth [1, 5, 5] 0 ∧ (3 : Int) - 1 - 0 ≤ (2 : Nat) ∧
    ((∃ arr1 m1, heapify 2 [1, 5, 5] 3 0 ⟨0, 0⟩ = .ok (arr1, m1) ∧
      nth arr1 0 = nth [1, 5, 5] (2 * 0 + 1) ∧
      (∀ k, Desc (2 * 0 + 2) k → nth arr1 k = nth [1, 5, 5] k) ∧
      (∃ k, Desc (2 * 0 + 1) k ∧ k < 3 ∧ nth arr1 k = nth [1, 5, 5] 0)) ∧
    heapify 1 [1, 5, 5] 3 0 ⟨0, 0⟩ = .ok ([5, 1, 5], ⟨2, 1⟩)) :=
  ⟨by decide, by decide, by decide, by decide, by decide, by decide,
    heapify_left_tie_break 2 [1, 5, 5] 3 0 ⟨0, 0⟩ (by decide) (by decide) (by decide)
      (by decide) (by decide) (by decide)⟩

theorem merge_exchanges_small (n : Nat) (h : n ≤ 1) : merge_exchanges n = 0 := by
  rw [merge_exchanges, dif_pos h]

theorem merge_exchanges_step (n : Nat) (h : 2 ≤ n) :
    merge_exchanges n = merge_exchanges ((n + 1) / 2) + merge_exchanges (n / 2) + n := by
  rw [merge_exchanges, dif_neg (by omega)]

theorem merge_counts_arith (n h : Nat) (e0 e1 e2 e3 c0 c1 c2 c3 : Int) (E1 E2 : Nat)
    (hn : 2 ≤ n) (hh : h = (n + 1) / 2)
    (he1 : e1 = e0 + E1) (hc1 : c1 - c0 + ((h : Int) - 1) ≤ E1) (hc1' : c0 ≤ c1)
    (he2 : e2 = e1 + E2) (hc2 : c2 - c1 + (((n - h : Nat) : Int) - 1) ≤ E2) (hc2' : c1 ≤ c2)
    (he3 : e3 = e2 + ((h : Int) + ((n - h : Nat) : Int)))
    (hc3 : c3 ≤ c2 + ((h : Int) + ((n - h : Nat) : Int) - 1)) (hc3' : c2 ≤ c3) :
    e3 = e0 + ((E1 + E2 + n : Nat) : Int) ∧
      c3 - c0 + ((n : Int) - 1) ≤ ((E1 + E2 + n : Nat) : Int) ∧ c0 ≤ c3 := by
  omega

theorem merge_sort_recursive_counts {α : Type} (key : α → Int) :
    ∀ (fuel : Nat) (pre mid post : List α) (l r : Int) (m : Metrics),
      l = pre.length → r = l + mid.length - 1 → r - l < fuel →
      ∃ out m1, merge_sort_recursive key fuel (pre ++ mid ++ post) l r m
          = .ok (pre ++ out ++ post, m1) ∧
        out.length = mid.length ∧
        m1.exchanges = m.exchanges + merge_exchanges mid.length ∧
        (1 ≤ mid.length →
          m1.comparisons - m.comparisons + ((mid.length : Int) - 1)
            ≤ merge_exchanges mid.length) ∧
        m.comparisons ≤ m1.comparisons := by
  have hbase : ∀ (fuel : Nat) (pre mid post : List α) (l r : Int) (m : Metrics),
      l = pre.length → r = l + mid.length - 1 → ¬ l < r →
      ∃ out m1, merge_sort_recursive key fuel (pre ++ mid ++ post) l r m
          = .ok (pre ++ out ++ post, m1) ∧
        out.length = mid.length ∧
        m1.exchanges = m.exchanges + merge_exchanges mid.length ∧
        (1 ≤ mid.length →
          m1.comparisons - m.comparisons + ((mid.length : Int) - 1)
            ≤ merge_exchanges mid.length) ∧
        m.comparisons ≤ m1.comparisons := by
    intro fuel pre mid post l r m hl hr hlr
    have hlen : mid.length ≤ 1 := by omega
    have hE := merge_exchanges_small mid.length hlen
    refine ⟨mid, m, ?_, rfl, by rw [hE]; simp, fun h => by rw [hE]; omega, le_refl _⟩
    unfold merge_sort_recursive
    rw [if_neg hlr]
  intro fuel
  induction fuel with
  | zero =>
    intro pre mid post l r m hl hr hf
    exact hbase 0 pre mid post l r m hl hr (by omega)
  | succ fuel ih =>
    intro pre mid post l r m hl hr hf
    by_cases hlr : l < r
    · have hx : 0 ≤ r - l := by omega
      have hmidx : l + cdiv (r - l) 2 = l + (r - l) / 2 := by rw [cdiv_two _ hx]
      obtain ⟨h, hh⟩ : ∃ h : Nat, (h : Int) = (r - l) / 2 + 1 := ⟨((r - l) / 2 + 1).toNat, by omega⟩
      have hhlen : h ≤ mid.length := by omega
      have hA0 : (mid.take h).length = h := List.length_take_of_le hhlen
      have hB0 : (mid.drop h).length = mid.length - h := List.length_drop h mid
      have hhn : h = (mid.length + 1) / 2 := by omega
      obtain ⟨A, m1, hrun1, hlA, heA, hcA, hmA⟩ :=
        ih pre (mid.take h) (mid.drop h ++ post) l (l + (r - l) / 2) m hl
          (by rw [hA0]; omega) (by push_cast at hf; omega)
      obtain ⟨B, m2, hrun2, hlB, heB, hcB, hmB⟩ :=
        ih (pre ++ A) (mid.drop h) post (l + (r - l) / 2 + 1) r m1
          (by simp [hlA, hA0]; omega) (by rw [hB0]; omega)
          (by push_cast at hf; omega)
      obtain ⟨m3, hrun3, he3, hc3lo, hc3⟩ :=
        merge_spec key fuel pre A B post l (l + (r - l) / 2) r m2 hl
          (by rw [hlA, hA0]; omega) (by rw [hlB, hB0]; omega)
          (by rw [hlA, hA0]; omega) (by rw [hlB, hB0]; omega)
          (by push_cast at hf; omega)
      rw [hlA, hA0, hlB, hB0] at he3 hc3 hc3lo
      rw [hA0] at heA hcA
      rw [hB0] at heB hcB
      have hE := merge_exchanges_step mid.length (by omega)
      rw [← hhn, show mid.length / 2 = mid.length - h by omega] at hE
      have har := merge_counts_arith mid.length h m.exchanges m1.exchanges m2.exchanges
        m3.exchanges m.comparisons m1.comparisons m2.comparisons m3.comparisons
        (merge_exchanges h) (merge_exchanges (mid.length - h)) (by omega) hhn heA
        (hcA (by omega)) hmA heB (hcB (by omega)) hmB he3 hc3
        (le_trans (by omega) hc3lo)
      rw [← hE] at har
      refine ⟨List.merge A B (kle key), m3, ?_, ?_, har.1, fun _ => har.2.1, har.2.2⟩
      · unfold merge_sort_recursive
        rw [if_pos hlr]
        simp only []
        rw [hmidx]
        have e1 : pre ++ mid ++ post = pre ++ mid.take h ++ (mid.drop h ++ post) := by
          rw [List.append_assoc pre (mid.take h), ← List.append_assoc (mid.take h),
            List.take_append_drop, List.append_assoc]
        rw [e1, hrun1]
        simp only [bind_ok]
        rw [← List.append_assoc, hrun2]
        simp only [bind_ok]
        exact hrun3
      · rw [List.length_merge, hlA, hA0, hlB, hB0]
        omega
    · exact hbase (fuel + 1) pre mid post l r m hl hr hlr

theorem merge_sort_counts {α : Type} (key : α → Int) (fuel : Nat) (arr : List α) (m : Metrics)
    (hf : arr.length ≤ fuel) :
    ∃ out m1, merge_sort key fuel arr arr.length m = .ok (out, m1) ∧
      out.length = arr.length ∧
      m1.exchanges = merge_exchanges arr.length ∧
      (1 ≤ arr.length →
        m1.comparisons + ((arr.length : Int) - 1) ≤ merge_exchanges arr.length) ∧
      0 ≤ m1.comparisons := by
  obtain ⟨out, m1, hrun, hlen, he, hc, hc0⟩ :=
    merge_sort_recursive_counts key fuel [] arr [] 0 ((arr.length : Int) - 1)
      { m with comparisons := 0, exchanges := 0 } (by simp) (by omega) (by omega)
  dsimp only at he hc hc0
  refine ⟨out, m1, ?_, hlen, by omega, fun h => by have := hc h; omega, hc0⟩
  simpa [merge_sort] using hrun

/-- C16: the exchange counter of `merge_sort` depends only on the length. One call
`merge(arr, l, m, r)` adds exactly `r - l + 1` exchanges, and on every array of length `n`
`merge_sort` reports `exchanges = E(n)` with `E(0) = E(1) = 0` and
`E(n) = E(ceil(n/2)) + E(floor(n/2)) + n` for `n >= 2`; two arrays of the same length give the
same exchanges. -/
theorem merge_sort_exchanges (fuel : Nat) (arr arr2 : List Int) (m : Metrics)
    (hf : arr.length ≤ fuel) (hlen : arr2.length = arr.length) :
    (∃ out m1 out2 m2, merge_sort id fuel arr arr.length m = .ok (out, m1) ∧
      merge_sort id fuel arr2 arr2.length m = .ok (out2, m2) ∧
      m1.exchanges = merge_exchanges arr.length ∧ m2.exchanges = m1.exchanges) ∧
    (merge_exchanges 0 = 0 ∧ merge_exchanges 1 = 0 ∧
      ∀ n, 2 ≤ n →
        merge_exchanges n = merge_exchanges ((n + 1) / 2) + merge_exchanges (n / 2) + n) ∧
    (∀ (pre A B post : List Int) (l mid r : Int) (m0 : Metrics), l = pre.length →
      mid = l + A.length - 1 → r = mid + B.length → 1 ≤ A.length → 1 ≤ B.length →
      r - l ≤ fuel →
      ∃ out m1, merge id fuel (pre ++ A ++ B ++ post) l mid r m0 = .ok (out, m1) ∧
        m1.exchanges = m0.exchanges + (r - l + 1)) := by
  refine ⟨?_, ⟨merge_exchanges_small 0 (by omega), merge_exchanges_small 1 (by omega),
    merge_exchanges_step⟩, ?_⟩
  · obtain ⟨out, m1, hrun, -, he, -, -⟩ := merge_sort_counts id fuel arr m hf
    obtain ⟨out2, m2, hrun2, -, he2, -, -⟩ := merge_sort_counts id fuel arr2 m (by omega)
    exact ⟨out, m1, out2, m2, hrun, hrun2, he, by rw [he2, he, hlen]⟩
  · intro pre A B post l mid r m0 hl hmid hr hA hB hfu
    obtain ⟨m1, hrun, he, -, -⟩ := merge_spec id fuel pre A B post l mid r m0 hl hmid hr hA hB hfu
    exact ⟨_, m1, hrun, by rw [he]; omega⟩

theorem merge_sort_exchanges_witness :
    ([3, 1, 2] : List Int).length ≤ 3 ∧
    ([5, 5, 4] : List Int).length = ([3, 1, 2] : List Int).length ∧
    ((∃ out m1 out2 m2,
      merge_sort id 3 [3, 1, 2] ([3, 1, 2] : List Int).length ⟨0, 0⟩ = .ok (out, m1) ∧
      merge_sort id 3 [5, 5, 4] ([5, 5, 4] : List Int).length ⟨0, 0⟩ = .ok (out2, m2) ∧
      m1.exchanges = merge_exchanges ([3, 1, 2] : List Int).length ∧
      m2.exchanges = m1.exchanges) ∧
    (merge_exchanges 0 = 0 ∧ merge_exchanges 1 = 0 ∧
      ∀ n, 2 ≤ n →
        merge_exchanges n = merge_exchanges ((n + 1) / 2) + merge_exchanges (n / 2) + n) ∧
    (∀ (pre A B post : List Int) (l mid r : Int) (m0 : Metrics), l = pre.length →
      mid = l + A.length - 1 → r = mid + B.length → 1 ≤ A.length → 1 ≤ B.length →
      r - l ≤ (3 : Nat) →
      ∃ out m1, merge id 3 (pre ++ A ++ B ++ post) l mid r m0 = .ok (out, m1) ∧
        m1.exchanges = m0.exchanges + (r - l + 1))) :=
  ⟨by decide, by decide, merge_sort_exchanges 3 [3, 1, 2] [5, 5, 4] ⟨0, 0⟩ (by decide) (by decide)⟩

theorem quick_sort_run (fuel : Nat) (arr : List Int) (m : Metrics) (hf : arr.length ≤ fuel) :
    ∃ out m1, quick_sort fuel arr arr.length m = .ok (out, m1) ∧ out.length = arr.length := by
  obtain ⟨out, m1, hrun, hlen, -, -, -, -⟩ :=
    quick_sort_recursive_spec fuel arr 0 ((arr.length : Int) - 1)
      { m with comparisons := 0, exchanges := 0 } (fun _ => ⟨le_refl _, by omega⟩) (by omega)
  exact ⟨out, m1, hrun, hlen⟩

theorem merge_sort_run (fuel : Nat) (arr : List Int) (m : Metrics) (hf : arr.length ≤ fuel) :
    ∃ out m1, merge_sort id fuel arr arr.length m = .ok (out, m1) ∧ out.length = arr.length := by
  obtain ⟨out, m1, hrun, hlen, -, -, -⟩ := merge_sort_counts id fuel arr m hf
  exact ⟨out, m1, hrun, hlen⟩

theorem heap_sort_run (fuel : Nat) (arr : List Int) (m : Metrics) (hf : arr.length ≤ fuel) :
    ∃ out m1, heap_sort fuel arr arr.length m = .ok (out, m1) ∧ out.length = arr.length := by
  have hn0 : (0 : Int) ≤ arr.length := by omega
  obtain ⟨arr1, m1, hrun1, hlen1, -, -, hheap1, -, -⟩ :=
    heap_sort_build_spec fuel arr.length fuel arr ((arr.length : Int) / 2 - 1)
      { m with comparisons := 0, exchanges := 0 } (by omega) (le_refl _) (by omega) (by omega)
      (fun j h1 h2 => ⟨fun h => absurd h (by omega), fun h => absurd h (by omega)⟩)
  obtain ⟨arr2, m2, hrun2, hlen2, -, -, -, -⟩ :=
    heap_sort_extract_spec fuel fuel arr1 ((arr.length : Int) - 1) m1 (by omega)
      (by rw [hlen1]; omega) (by omega) (by omega)
      (fun j h1 h2 => by
        have := hheap1 j h1 (by omega)
        rwa [show (arr.length : Int) - 1 + 1 = arr.length by omega])
      (fun a b h1 h2 h3 => absurd h3 (by rw [hlen1]; omega))
      (fun a b h1 h2 h3 h4 => absurd h4 (by rw [hlen1]; omega))
  refine ⟨arr2, m2, ?_, by rw [hlen2, hlen1]⟩
  unfold heap_sort
  simp only []
  rw [cdiv_two _ hn0, hrun1]
  simp only [bind_ok]
  exact hrun2

theorem memcpy_all_eq (dst src : List Int) (h : dst.length = src.length) :
    memcpy_all dst src src.length = .ok src := by
  unfold memcpy_all
  rw [if_neg (by omega)]
  simp [h]

theorem run_loop_spec
    (sort : Nat → List Int → Int → Metrics → Except Fault (List Int × Metrics))
    (sfuel : Nat) (D out : List Int) (res : Metrics) (junk : Int → Metrics)
    (hsort : ∀ m, sort sfuel D D.length m = .ok (out, res)) (hout : out.length = D.length) :
    ∀ (fuel : Nat) (run : Int) (data : List Int) (csv : List Row),
      1 ≤ run → run ≤ NUM_RUNS + 1 → data.length = D.length → NUM_RUNS + 1 - run ≤ fuel →
      ∃ data1, run_loop sort sfuel D D.length junk fuel run data csv
        = .ok (data1, csv ++ (List.range (NUM_RUNS + 1 - run).toNat).map
            (fun (k : Nat) => (⟨D.length, run + (k : Int), res.comparisons, res.exchanges⟩ : Row))) := by
  intro fuel
  induction fuel with
  | zero =>
    intro run data csv h1 h2 hlen hf
    have hr : run = NUM_RUNS + 1 := by omega
    subst hr
    refine ⟨data, ?_⟩
    unfold run_loop
    rw [if_neg (by omega)]
    simp
  | succ fuel ih =>
    intro run data csv h1 h2 hlen hf
    by_cases hc : run ≤ NUM_RUNS
    · obtain ⟨data1, hrec⟩ := ih (run + 1) out
        (csv ++ [⟨D.length, run, res.comparisons, res.exchanges⟩]) (by omega) (by omega) hout
        (by push_cast at hf; omega)
      refine ⟨data1, ?_⟩
      unfold run_loop
      rw [if_pos hc]
      simp only []
      rw [memcpy_all_eq data D hlen]
      simp only [bind_ok]
      rw [hsort]
      simp only [bind_ok]
      rw [hrec]
      have e : (NUM_RUNS + 1 - run).toNat = (NUM_RUNS + 1 - (run + 1)).toNat + 1 := by omega
      have hfun : (fun (k : Nat) =>
          (⟨D.length, run + 1 + (k : Int), res.comparisons, res.exchanges⟩ : Row))
          = (fun (k : Nat) =>
            (⟨D.length, run + ((k + 1 : Nat) : Int), res.comparisons, res.exchanges⟩ : Row)) := by
        funext k
        congr 1
        push_cast
        omega
      rw [e, List.range_succ_eq_map, List.map_cons, List.map_map, List.append_assoc, hfun]
      simp [Function.comp]
    · have hr : run = NUM_RUNS + 1 := by omega
      subst hr
      refine ⟨data, ?_⟩
      unfold run_loop
      rw [if_neg (by omega)]
      simp

theorem run_loop_rows
    (sort : Nat → List Int → Int → Metrics → Except Fault (List Int × Metrics))
    (fuel sfuel : Nat) (D buf out : List Int) (res : Metrics) (junk : Int → Metrics)
    (hsort : ∀ m, sort sfuel D D.length m = .ok (out, res)) (hout : out.length = D.length)
    (hb : buf.length = D.length) (hf : 10 ≤ fuel) :
    ∃ data1, run_loop sort sfuel D D.length junk fuel 1 buf []
      = .ok (data1, (List.range 10).map
          (fun (k : Nat) => (⟨D.length, (k : Int) + 1, res.comparisons, res.exchanges⟩ : Row))) := by
  obtain ⟨data1, h⟩ := run_loop_spec sort sfuel D out res junk hsort hout fuel 1 buf []
    (le_refl _) (by unfold NUM_RUNS; omega) hb (by unfold NUM_RUNS; omega)
  refine ⟨data1, ?_⟩
  rw [h]
  have e : (NUM_RUNS + 1 - 1).toNat = 10 := by unfold NUM_RUNS; rfl
  have hfun : (fun (k : Nat) =>
      (⟨D.length, 1 + (k : Int), res.comparisons, res.exchanges⟩ : Row))
      = (fun (k : Nat) => (⟨D.length, (k : Int) + 1, res.comparisons, res.exchanges⟩ : Row)) := by
    funext k
    rw [add_comm]
  rw [e, hfun, List.nil_append]

/-- C11: for every loaded dataset `D`, the run loop of each driver emits exactly `NUM_RUNS = 10`
records, with run indices `1, 2, ..., 10` in this order, and every record carries the
comparisons and exchanges obtained by sorting `D` in its original order, whatever the working
buffer and the `Metrics` variable held before. -/
theorem driver_run_loop (fuel sfuel : Nat) (D buf : List Int) (junk : Int → Metrics)
    (hb : buf.length = D.length) (hf : 10 ≤ fuel) (hsf : D.length ≤ sfuel) :
    NUM_RUNS = 10 ∧
    (∃ out res data1, heap_sort sfuel D D.length ⟨0, 0⟩ = .ok (out, res) ∧
      run_loop heap_sort sfuel D D.length junk fuel 1 buf []
        = .ok (data1, (List.range 10).map (fun (k : Nat) =>
            (⟨D.length, (k : Int) + 1, res.comparisons, res.exchanges⟩ : Row)))) ∧
    (∃ out res data1, merge_sort id sfuel D D.length ⟨0, 0⟩ = .ok (out, res) ∧
      run_loop (merge_sort id) sfuel D D.length junk fuel 1 buf []
        = .ok (data1, (List.range 10).map (fun (k : Nat) =>
            (⟨D.length, (k : Int) + 1, res.comparisons, res.exchanges⟩ : Row)))) ∧
    (∃ out res data1, quick_sort sfuel D D.length ⟨0, 0⟩ = .ok (out, res) ∧
      run_loop quick_sort sfuel D D.length junk fuel 1 buf []
        = .ok (data1, (List.range 10).map (fun (k : Nat) =>
            (⟨D.length, (k : Int) + 1, res.comparisons, res.exchanges⟩ : Row)))) := by
  refine ⟨rfl, ?_, ?_, ?_⟩
  · obtain ⟨out, res, hrun, hlen⟩ := heap_sort_run sfuel D ⟨0, 0⟩ hsf
    obtain ⟨data1, h⟩ := run_loop_rows heap_sort fuel sfuel D buf out res junk
      (fun m => hrun) hlen hb hf
    exact ⟨out, res, data1, hrun, h⟩
  · obtain ⟨out, res, hrun, hlen⟩ := merge_sort_run sfuel D ⟨0, 0⟩ hsf
    obtain ⟨data1, h⟩ := run_loop_rows (merge_sort id) fuel sfuel D buf out res junk
      (fun m => hrun) hlen hb hf
    exact ⟨out, res, data1, hrun, h⟩
  · obtain ⟨out, res, hrun, hlen⟩ := quick_sort_run sfuel D ⟨0, 0⟩ hsf
    obtain ⟨data1, h⟩ := run_loop_rows quick_sort fuel sfuel D buf out res junk
      (fun m => hrun) hlen hb hf
    exact ⟨out, res, data1, hrun, h⟩

theorem driver_run_loop_witness :
    ([0, 0, 0] : List Int).length = ([3, 1, 2] : List Int).length ∧ 10 ≤ 10 ∧
    ([3, 1, 2] : List Int).length ≤ 3 ∧
    (NUM_RUNS = 10 ∧
    (∃ out res data1, heap_sort 3 [3, 1, 2] ([3, 1, 2] : List Int).length ⟨0, 0⟩
        = .ok (out, res) ∧
      run_loop heap_sort 3 [3, 1, 2] ([3, 1, 2] : List Int).length (fun _ => ⟨7, 7⟩) 10 1
          [0, 0, 0] []
        = .ok (data1, (List.range 10).map (fun (k : Nat) =>
            (⟨([3, 1, 2] : List Int).length, (k : Int) + 1, res.comparisons,
              res.exchanges⟩ : Row)))) ∧
    (∃ out res data1, merge_sort id 3 [3, 1, 2] ([3, 1, 2] : List Int).length ⟨0, 0⟩
        = .ok (out, res) ∧
      run_loop (merge_sort id) 3 [3, 1, 2] ([3, 1, 2] : List Int).length (fun _ => ⟨7, 7⟩) 10 1
          [0, 0, 0] []
        = .ok (data1, (List.range 10).map (fun (k : Nat) =>
            (⟨([3, 1, 2] : List Int).length, (k : Int) + 1, res.comparisons,
              res.exchanges⟩ : Row)))) ∧
    (∃ out res data1, quick_sort 3 [3, 1, 2] ([3, 1, 2] : List Int).length ⟨0, 0⟩
        = .ok (out, res) ∧
      run_loop quick_sort 3 [3, 1, 2] ([3, 1, 2] : List Int).length (fun _ => ⟨7, 7⟩) 10 1
          [0, 0, 0] []
        = .ok (data1, (List.range 10).map (fun (k : Nat) =>
            (⟨([3, 1, 2] : List Int).length, (k : Int) + 1, res.comparisons,
              res.exchanges⟩ : Row))))) :=
  ⟨by decide, by decide, by decide,
    driver_run_loop 10 3 [3, 1, 2] [0, 0, 0] (fun _ => ⟨7, 7⟩) (by decide) (by decide)
      (by decide)⟩

theorem wrap32_id (x : Int) (h1 : -2147483648 ≤ x) (h2 : x ≤ 2147483647) : wrap32 x = x := by
  unfold wrap32
  omega

theorem generate_sample_sizes_loop_spec (END_SIZE STEP_SIZE : Int) (hstep : 1 ≤ STEP_SIZE) :
    ∀ (r fuel : Nat) (size count : Int) (sizes : List Int),
      r ≤ fuel → 0 ≤ count → count + r ≤ sizes.length → sizes.length ≤ 2147483647 →
      -2147483648 ≤ size → size + r * STEP_SIZE ≤ 2147483647 →
      END_SIZE < size + r * STEP_SIZE → (1 ≤ r → size + (r - 1) * STEP_SIZE ≤ END_SIZE) →
      ∃ sizes1, generate_sample_sizes_loop END_SIZE STEP_SIZE fuel size count sizes
          = .ok (count + r, sizes1) ∧
        wrote sizes count.toNat ((List.range r).map (fun (k : Nat) => size + k * STEP_SIZE))
          sizes1 := by
  intro r
  induction r with
  | zero =>
    intro fuel size count sizes hf hc0 hc1 hl hs0 hs1 hend hlast
    refine ⟨sizes, ?_, ?_⟩
    · unfold generate_sample_sizes_loop
      rw [if_neg (by push_cast at hend; omega)]
      simp
    · simpa using wrote_nil sizes count.toNat (by omega)
  | succ r ih =>
    intro fuel size count sizes hf hc0 hc1 hl hs0 hs1 hend hlast
    obtain ⟨g, rfl⟩ : ∃ g, fuel = g + 1 := ⟨fuel - 1, by omega⟩
    have hrs : (0 : Int) ≤ r * STEP_SIZE := mul_nonneg (by omega) (by omega)
    have e1 : ((r + 1 : Nat) : Int) * STEP_SIZE = r * STEP_SIZE + STEP_SIZE := by
      push_cast; ring
    have e2 : (((r + 1 : Nat) : Int) - 1) * STEP_SIZE = r * STEP_SIZE := by
      push_cast; ring
    rw [e1] at hs1 hend
    have hl1 := hlast (by omega)
    rw [e2] at hl1
    have hsz : size ≤ END_SIZE := by omega
    have hw1 : wrap32 (size + STEP_SIZE) = size + STEP_SIZE := wrap32_id _ (by omega) (by omega)
    have hw2 : wrap32 (count + 1) = count + 1 := wrap32_id _ (by omega) (by omega)
    obtain ⟨sizes1, hrun, hw⟩ := ih g (size + STEP_SIZE) (count + 1)
      (sizes.set count.toNat size) (by omega) (by omega) (by simp; push_cast at hc1; omega)
      (by simpa using hl) (by omega) (by omega) (by omega)
      (fun h => by
        have e3 : ((r : Int) - 1) * STEP_SIZE = r * STEP_SIZE - STEP_SIZE := by ring
        rw [e3]; omega)
    refine ⟨sizes1, ?_, ?_⟩
    · unfold generate_sample_sizes_loop
      rw [if_pos hsz]
      simp only []
      rw [wr_eq sizes count size hc0 (by push_cast at hc1; omega)]
      simp only [bind_ok]
      rw [hw1, hw2, hrun]
      congr 2
      push_cast
      omega
    · rw [List.range_succ_eq_map, List.map_cons, List.map_map]
      have hfun : ((fun (k : Nat) => size + (k : Int) * STEP_SIZE) ∘ Nat.succ)
          = (fun (k : Nat) => size + STEP_SIZE + (k : Int) * STEP_SIZE) := by
        funext k
        simp only [Function.comp, Nat.succ_eq_add_one]
        push_cast
        ring
      rw [hfun]
      simp only [Nat.cast_zero, zero_mul, add_zero]
      apply wrote_cons _ (by push_cast at hc1; omega)
      have ec : (count + 1).toNat = count.toNat + 1 := by omega
      rwa [ec] at hw

theorem max_sizes_eq (s e st : Int) (h1 : s ≤ e) (h2 : 1 ≤ st) (h5 : e - s < 2147483647) :
    MAX_SIZES s e st = (e - s) / st + 1 ∧ 0 ≤ (e - s) / st ∧
      (e - s) / st * st ≤ e - s ∧ e - s < ((e - s) / st + 1) * st ∧ (e - s) / st ≤ e - s := by
  have hq0 : 0 ≤ (e - s) / st := Int.ediv_nonneg (by omega) (by omega)
  have hq1 : (e - s) / st * st ≤ e - s := Int.ediv_mul_le _ (by omega)
  have hq2 : e - s < ((e - s) / st + 1) * st := Int.lt_ediv_add_one_mul_self _ (by omega)
  have hq3 : (e - s) / st ≤ e - s := by
    have : (e - s) / st * 1 ≤ (e - s) / st * st := mul_le_mul_of_nonneg_left h2 hq0
    omega
  refine ⟨?_, hq0, hq1, hq2, hq3⟩
  unfold MAX_SIZES
  rw [wrap32_id (e - s) (by omega) (by omega), cdiv, Int.tdiv_eq_ediv (by omega) (by omega),
    wrap32_id ((e - s) / st) (by omega) (by omega),
    wrap32_id ((e - s) / st + 1) (by omega) (by omega)]

theorem generate_sample_sizes_spec (s e st : Int) (garbage : Nat → Int) (fuel : Nat)
    (h1 : s ≤ e) (h2 : 1 ≤ st) (h3 : -2147483648 ≤ s) (h4 : e + st ≤ 2147483647)
    (h5 : e - s < 2147483647) (hf : (e - s) / st + 1 ≤ fuel) :
    generate_sample_sizes s e st garbage fuel
      = .ok ((e - s) / st + 1,
          (List.range ((e - s) / st + 1).toNat).map (fun (k : Nat) => s + k * st)) := by
  obtain ⟨hmax, hq0, hq1, hq2, hq3⟩ := max_sizes_eq s e st h1 h2 h5
  generalize hq : (e - s) / st = q at *
  obtain ⟨r, hr⟩ : ∃ r : Nat, (r : Int) = q + 1 := ⟨(q + 1).toNat, by omega⟩
  have hrn : (q + 1).toNat = r := by omega
  have em : (r : Int) * st = q * st + st := by rw [hr]; ring
  have em1 : ((r : Int) - 1) * st = q * st := by rw [hr]; ring
  have hloop := generate_sample_sizes_loop_spec e st h2 r fuel s 0
    ((List.range r).map garbage) (by omega) (le_refl _) (by simp) (by simp; omega) h3
    (by rw [em]; omega) (by rw [em]; linarith) (fun _ => by rw [em1]; omega)
  obtain ⟨sizes1, hrun, hw⟩ := hloop
  unfold generate_sample_sizes
  rw [hmax, if_neg (by omega)]
  simp only []
  rw [hrn, hrun]
  obtain ⟨-, hs⟩ := hw
  rw [hs]
  simp
  omega

theorem configured_sizes (garbage : Nat → Int) (fuel : Nat) (hf : 11 ≤ fuel) :
    generate_sample_sizes 0 100000 10000 garbage fuel
      = .ok (11, [0, 10000, 20000, 30000, 40000, 50000, 60000, 70000, 80000, 90000, 100000]) := by
  have h := generate_sample_sizes_spec 0 100000 10000 garbage fuel (by decide) (by decide)
    (by decide) (by decide) (by decide) (by norm_num; omega)
  rw [h]
  decide

theorem sizes_overflow_run (k : Nat) :
    generate_sample_sizes 2147483647 2147483647 1 (fun _ => 0) (k + 2)
      = .error .outOfBounds := by
  have hm : MAX_SIZES 2147483647 2147483647 1 = 1 := by decide
  have hw1 : wrap32 (2147483647 + 1) = -2147483648 := by decide
  have hw2 : wrap32 (0 + 1) = 1 := by decide
  unfold generate_sample_sizes
  rw [hm, if_neg (by decide)]
  simp only []
  unfold generate_sample_sizes_loop
  rw [if_pos (le_refl _)]
  simp only []
  rw [wr_eq _ 0 _ (le_refl _) (by decide)]
  simp only [bind_ok]
  rw [hw1, hw2]
  unfold generate_sample_sizes_loop
  rw [if_pos (by decide)]
  simp only []
  have hwr : ∀ l : List Int, l.length = 1 → wr l 1 (-2147483648) = .error .outOfBounds := by
    intro l hl
    unfold wr
    rw [if_neg (by rw [hl]; decide)]
  rw [hwr _ (by simp)]
  rfl

theorem sizes_overflow_small :
    generate_sample_sizes 2147483647 2147483647 1 (fun _ => 0) 0 = .error .outOfFuel ∧
    generate_sample_sizes 2147483647 2147483647 1 (fun _ => 0) 1 = .error .outOfFuel := by
  constructor <;> decide!

/-- C12 (counterexample): for `start = end = 2147483647` and `step = 1` the formula
`(end - start)/step + 1` gives one size, `2147483647`, and `MAX_SIZES = 1`. After the first round
`size += STEP_SIZE` overflows the `int` and wraps around to `-2147483648 <= end`, the loop goes
on, and its second round writes `sizes[1]` past the one-element buffer: with fuel for two
rounds the run ends in `outOfBounds`, and with no amount of fuel does it return that single
size. -/
theorem generate_sample_sizes_counterexample :
    MAX_SIZES 2147483647 2147483647 1 = 1 ∧
    generate_sample_sizes 2147483647 2147483647 1 (fun _ => 0) 2 = .error .outOfBounds ∧
    ¬ ∃ fuel : Nat, generate_sample_sizes 2147483647 2147483647 1 (fun _ => 0) fuel
      = .ok (1, [2147483647]) := by
  refine ⟨by decide, sizes_overflow_run 0, ?_⟩
  rintro ⟨fuel, h⟩
  match fuel, h with
  | 0, h => rw [sizes_overflow_small.1] at h; simp at h
  | 1, h => rw [sizes_overflow_small.2] at h; simp at h
  | k + 2, h => rw [sizes_overflow_run k] at h; simp at h

/-- C12 (amended): for every `start <= end` and `step >= 1` whose `int` arithmetic does not
overflow (`start >= INT_MIN`, `end - start < INT_MAX`, `end + step <= INT_MAX`),
`generate_sample_sizes` produces exactly `(end - start)/step + 1` sizes, the `k`-th (0-based)
being `start + k*step`, and this count is `MAX_SIZES`; with the configured `START_SIZE = 0`,
`END_SIZE = 100000`, `STEP_SIZE = 10000` it returns the `11 = MAX_SIZES` sizes
`0, 10000, ..., 100000`. No write goes past the `MAX_SIZES`-element buffer, since every write
is checked and the run succeeds. -/
theorem generate_sample_sizes_in_range (s e st : Int) (garbage : Nat → Int) (fuel : Nat)
    (h1 : s ≤ e) (h2 : 1 ≤ st) (h3 : -2147483648 ≤ s) (h4 : e + st ≤ 2147483647)
    (h5 : e - s < 2147483647) (hf : (e - s) / st + 1 ≤ fuel) :
    generate_sample_sizes s e st garbage fuel
      = .ok ((e - s) / st + 1,
          (List.range ((e - s) / st + 1).toNat).map (fun (k : Nat) => s + k * st)) ∧
    MAX_SIZES s e st = (e - s) / st + 1 ∧
    MAX_SIZES 0 100000 10000 = 11 ∧
    (∀ f : Nat, 11 ≤ f → generate_sample_sizes 0 100000 10000 garbage f
      = .ok (11, [0, 10000, 20000, 30000, 40000, 50000, 60000, 70000, 80000, 90000, 100000])) :=
  ⟨generate_sample_sizes_spec s e st garbage fuel h1 h2 h3 h4 h5 hf,
    (max_sizes_eq s e st h1 h2 h5).1, by decide, fun f hf11 => configured_sizes garbage f hf11⟩

theorem generate_sample_sizes_in_range_witness :
    (0 : Int) ≤ 100000 ∧ (1 : Int) ≤ 10000 ∧ (-2147483648 : Int) ≤ 0 ∧
    (100000 : Int) + 10000 ≤ 2147483647 ∧ (100000 : Int) - 0 < 2147483647 ∧
    ((100000 : Int) - 0) / 10000 + 1 ≤ (11 : Nat) ∧
    (generate_sample_sizes 0 100000 10000 (fun _ => 0) 11
      = .ok (((100000 : Int) - 0) / 10000 + 1,
          (List.range (((100000 : Int) - 0) / 10000 + 1).toNat).map
            (fun (k : Nat) => (0 : Int) + k * 10000)) ∧
    MAX_SIZES 0 100000 10000 = ((100000 : Int) - 0) / 10000 + 1 ∧
    MAX_SIZES 0 100000 10000 = 11 ∧
    (∀ f : Nat, 11 ≤ f → generate_sample_sizes 0 100000 10000 (fun _ => 0) f
      = .ok (11, [0, 10000, 20000, 30000, 40000, 50000, 60000, 70000, 80000, 90000, 100000]))) :=
  ⟨by decide, by decide, by decide, by decide, by decide, by decide,
    generate_sample_sizes_in_range 0 100000 10000 (fun _ => 0) 11 (by decide) (by decide)
      (by decide) (by decide) (by decide) (by decide)⟩

theorem fuel_le_refl {α : Type} (r : Except Fault α) : fuel_le r r := Or.inr rfl

theorem fuel_le_trans {α : Type} (r1 r2 r3 : Except Fault α) (h1 : fuel_le r1 r2)
    (h2 : fuel_le r2 r3) : fuel_le r1 r3 := by
  rcases h1 with h1 | h1
  · exact Or.inl h1
  · rw [h1]
    exact h2

theorem fuel_le_bind_ok {α β : Type} (a a' : Except Fault α) (k k' : α → Except Fault β)
    (h : fuel_le a a') (hk : ∀ v, a' = .ok v → fuel_le (k v) (k' v)) :
    fuel_le (a >>= k) (a' >>= k') := by
  rcases h with h | h
  · left
    rw [h]
    rfl
  · rw [h]
    cases a' with
    | error e => exact Or.inr rfl
    | ok v => exact hk v rfl

theorem fuel_le_bind {α β : Type} (a a' : Except Fault α) (k k' : α → Except Fault β)
    (h : fuel_le a a') (hk : ∀ v, fuel_le (k v) (k' v)) : fuel_le (a >>= k) (a' >>= k') :=
  fuel_le_bind_ok a a' k k' h (fun v _ => hk v)

theorem fuel_le_bind_right {α β : Type} (a : Except Fault α) (k k' : α → Except Fault β)
    (hk : ∀ v, fuel_le (k v) (k' v)) : fuel_le (a >>= k) (a >>= k') :=
  fuel_le_bind a a k k' (fuel_le_refl a) hk

theorem partition_loop_fuel (pivot high : Int) :
    ∀ (f : Nat) (arr : List Int) (i j : Int) (m : Metrics),
      fuel_le (partition_loop pivot high f arr i j m)
        (partition_loop pivot high (f + 1) arr i j m) := by
  intro f
  induction f with
  | zero =>
    intro arr i j m
    unfold partition_loop
    split_ifs with hc
    · exact Or.inl rfl
    · exact Or.inr rfl
  | succ f ih =>
    intro arr i j m
    conv_lhs => unfold partition_loop
    conv_rhs => unfold partition_loop
    split_ifs with hc
    · simp only []
      refine fuel_le_bind_right _ _ _ (fun aj => ?_)
      split_ifs with hp
      · refine fuel_le_bind_right _ _ _ (fun v1 => ?_)
        refine fuel_le_bind_right _ _ _ (fun v2 => ?_)
        refine fuel_le_bind_right _ _ _ (fun v3 => ?_)
        refine fuel_le_bind_right _ _ _ (fun v4 => ?_)
        exact ih _ _ _ _
      · exact ih _ _ _ _
    · exact Or.inr rfl

theorem partition_fuel (f : Nat) (arr : List Int) (low high : Int) (m : Metrics) :
    fuel_le (partition f arr low high m) (partition (f + 1) arr low high m) := by
  unfold partition
  refine fuel_le_bind_right _ _ _ (fun pivot => ?_)
  refine fuel_le_bind _ _ _ _ (partition_loop_fuel _ _ _ _ _ _ _) (fun v => ?_)
  exact fuel_le_refl _

theorem quick_sort_recursive_fuel :
    ∀ (f : Nat) (arr : List Int) (low high : Int) (m : Metrics),
      fuel_le (quick_sort_recursive f arr low high m)
        (quick_sort_recursive (f + 1) arr low high m) := by
  intro f
  induction f with
  | zero =>
    intro arr low high m
    unfold quick_sort_recursive
    split_ifs with hc
    · exact Or.inl rfl
    · exact Or.inr rfl
  | succ f ih =>
    intro arr low high m
    conv_lhs => unfold quick_sort_recursive
    conv_rhs => unfold quick_sort_recursive
    split_ifs with hc
    · simp only []
      refine fuel_le_bind _ _ _ _ (partition_fuel _ _ _ _ _) (fun v => ?_)
      obtain ⟨a, p, m1⟩ := v
      simp only []
      refine fuel_le_bind _ _ _ _ (ih _ _ _ _) (fun w => ?_)
      obtain ⟨a2, m2⟩ := w
      exact ih _ _ _ _
    · exact Or.inr rfl

theorem heapify_fuel :
    ∀ (f : Nat) (arr : List Int) (n i : Int) (m : Metrics), 0 ≤ i → n ≤ arr.length →
      fuel_le (heapify f arr n i m) (heapify (f + 1) arr n i m) := by
  intro f
  induction f with
  | zero =>
    intro arr n i m hi hn
    rw [heapify_eq 0 arr n i m hi hn, heapify_eq 1 arr n i m hi hn]
    split_ifs with hc
    · exact Or.inl rfl
    · exact Or.inr rfl
  | succ f ih =>
    intro arr n i m hi hn
    rw [heapify_eq (f + 1) arr n i m hi hn, heapify_eq (f + 1 + 1) arr n i m hi hn]
    split_ifs with hc
    · simp only []
      obtain ⟨h0, -⟩ := hlargest_spec arr n i
      exact ih _ _ _ _ (by omega) (by rw [swp_length]; exact hn)
    · exact Or.inr rfl

theorem heapify_length (f : Nat) (arr : List Int) (n i : Int) (m : Metrics)
    (r : List Int × Metrics) (hi : 0 ≤ i) (hn : n ≤ arr.length)
    (h : heapify f arr n i m = .ok r) : r.1.length = arr.length :=
  (heapify_mono f f arr n i m r hi hn (le_refl _) h).2

theorem heap_sort_build_fuel (hf : Nat) (n : Int) :
    ∀ (f : Nat) (arr : List Int) (i : Int) (m : Metrics), n ≤ arr.length →
      fuel_le (heap_sort_build hf n f arr i m) (heap_sort_build (hf + 1) n (f + 1) arr i m) := by
  intro f
  induction f with
  | zero =>
    intro arr i m hn
    unfold heap_sort_build
    split_ifs with hc
    · exact Or.inl rfl
    · exact Or.inr rfl
  | succ f ih =>
    intro arr i m hn
    conv_lhs => unfold heap_sort_build
    conv_rhs => unfold heap_sort_build
    split_ifs with hc
    · simp only []
      refine fuel_le_bind_ok _ _ _ _ (heapify_fuel _ _ _ _ _ hc hn) (fun v hv => ?_)
      have hlen := heapify_length _ _ _ _ _ _ hc hn hv
      obtain ⟨a, m1⟩ := v
      exact ih _ _ _ (by rw [hlen]; exact hn)
    · exact Or.inr rfl

theorem heap_sort_extract_fuel (hf : Nat) :
    ∀ (f : Nat) (arr : List Int) (i : Int) (m : Metrics),
      fuel_le (heap_sort_extract hf f arr i m) (heap_sort_extract (hf + 1) (f + 1) arr i m) := by
  intro f
  induction f with
  | zero =>
    intro arr i m
    unfold heap_sort_extract
    split_ifs with hc
    · exact Or.inl rfl
    · exact Or.inr rfl
  | succ f ih =>
    intro arr i m
    conv_lhs => unfold heap_sort_extract
    conv_rhs => unfold heap_sort_extract
    split_ifs with hc
    · simp only []
      refine fuel_le_bind_right _ _ _ (fun t => ?_)
      refine fuel_le_bind_right _ _ _ (fun ai => ?_)
      refine fuel_le_bind_ok _ _ _ _ (fuel_le_refl _) (fun a3 h3 => ?_)
      refine fuel_le_bind_ok _ _ _ _ (fuel_le_refl _) (fun a4 h4 => ?_)
      obtain ⟨-, -, e3⟩ := wr_ok _ _ _ _ h3
      obtain ⟨-, b4, e4⟩ := wr_ok _ _ _ _ h4
      have hlen : i ≤ (a4.length : Int) := by
        rw [e4, List.length_set]
        omega
      refine fuel_le_bind _ _ _ _ (heapify_fuel _ _ _ _ _ (le_refl _) hlen) (fun v => ?_)
      obtain ⟨a, m1⟩ := v
      exact ih _ _ _
    · exact Or.inr rfl

theorem heap_sort_fuel (f : Nat) (arr : List Int) (n : Int) (m : Metrics)
    (hn : n ≤ arr.length) :
    fuel_le (heap_sort f arr n m) (heap_sort (f + 1) arr n m) := by
  unfold heap_sort
  simp only []
  refine fuel_le_bind _ _ _ _ (heap_sort_build_fuel _ _ _ _ _ _ hn) (fun v => ?_)
  obtain ⟨a, m1⟩ := v
  exact heap_sort_extract_fuel _ _ _ _ _

theorem merge_loop1_fuel {α : Type} (key : α → Int) (L R : List α) (n1 n2 : Int) :
    ∀ (f : Nat) (arr : List α) (i j k : Int) (m : Metrics),
      fuel_le (merge_loop1 key L R n1 n2 f arr i j k m)
        (merge_loop1 key L R n1 n2 (f + 1) arr i j k m) := by
  intro f
  induction f with
  | zero =>
    intro arr i j k m
    unfold merge_loop1
    split_ifs with hc
    · exact Or.inl rfl
    · exact Or.inr rfl
  | succ f ih =>
    intro arr i j k m
    conv_lhs => unfold merge_loop1
    conv_rhs => unfold merge_loop1
    split_ifs with hc
    · simp only []
      refine fuel_le_bind_right _ _ _ (fun li => ?_)
      refine fuel_le_bind_right _ _ _ (fun rj => ?_)
      split_ifs with hk
      · refine fuel_le_bind_right _ _ _ (fun v => ?_)
        refine fuel_le_bind_right _ _ _ (fun a => ?_)
        exact ih _ _ _ _ _
      · refine fuel_le_bind_right _ _ _ (fun v => ?_)
        refine fuel_le_bind_right _ _ _ (fun a => ?_)
        exact ih _ _ _ _ _
    · exact Or.inr rfl

theorem merge_loop2_fuel {α : Type} (L : List α) (n1 : Int) :
    ∀ (f : Nat) (arr : List α) (i k : Int) (m : Metrics),
      fuel_le (merge_loop2 L n1 f arr i k m) (merge_loop2 L n1 (f + 1) arr i k m) := by
  intro f
  induction f with
  | zero =>
    intro arr i k m
    unfold merge_loop2
    split_ifs with hc
    · exact Or.inl rfl
    · exact Or.inr rfl
  | succ f ih =>
    intro arr i k m
    conv_lhs => unfold merge_loop2
    conv_rhs => unfold merge_loop2
    split_ifs with hc
    · simp only []
      refine fuel_le_bind_right _ _ _ (fun v => ?_)
      refine fuel_le_bind_right _ _ _ (fun a => ?_)
      exact ih _ _ _ _
    · exact Or.inr rfl

theorem merge_loop3_fuel {α : Type} (R : List α) (n2 : Int) :
    ∀ (f : Nat) (arr : List α) (j k : Int) (m : Metrics),
      fuel_le (merge_loop3 R n2 f arr j k m) (merge_loop3 R n2 (f + 1) arr j k m) := by
  intro f
  induction f with
  | zero =>
    intro arr j k m
    unfold merge_loop3
    split_ifs with hc
    · exact Or.inl rfl
    · exact Or.inr rfl
  | succ f ih =>
    intro arr j k m
    conv_lhs => unfold merge_loop3
    conv_rhs => unfold merge_loop3
    split_ifs with hc
    · simp only []
      refine fuel_le_bind_right _ _ _ (fun v => ?_)
      refine fuel_le_bind_right _ _ _ (fun a => ?_)
      exact ih _ _ _ _
    · exact Or.inr rfl

theorem merge_fuel {α : Type} (key : α → Int) (f : Nat) (arr : List α) (l mid r : Int)
    (m : Metrics) :
    fuel_le (merge key f arr l mid r m) (merge key (f + 1) arr l mid r m) := by
  unfold merge
  simp only []
  refine fuel_le_bind_right _ _ _ (fun L => ?_)
  refine fuel_le_bind_right _ _ _ (fun R => ?_)
  refine fuel_le_bind _ _ _ _ (merge_loop1_fuel _ _ _ _ _ _ _ _ _ _ _) (fun v1 => ?_)
  obtain ⟨a1, i, j, k, m1⟩ := v1
  simp only []
  refine fuel_le_bind _ _ _ _ (merge_loop2_fuel _ _ _ _ _ _ _) (fun v2 => ?_)
  obtain ⟨a2, i2, k2, m2⟩ := v2
  simp only []
  refine fuel_le_bind _ _ _ _ (merge_loop3_fuel _ _ _ _ _ _ _) (fun v3 => ?_)
  exact fuel_le_refl _

theorem merge_sort_recursive_fuel {α : Type} (key : α → Int) :
    ∀ (f : Nat) (arr : List α) (l r : Int) (m : Metrics),
      fuel_le (merge_sort_recursive key f arr l r m)
        (merge_sort_recursive key (f + 1) arr l r m) := by
  intro f
  induction f with
  | zero =>
    intro arr l r m
    unfold merge_sort_recursive
    split_ifs with hc
    · exact Or.inl rfl
    · exact Or.inr rfl
  | succ f ih =>
    intro arr l r m
    conv_lhs => unfold merge_sort_recursive
    conv_rhs => unfold merge_sort_recursive
    split_ifs with hc
    · simp only []
      refine fuel_le_bind _ _ _ _ (ih _ _ _ _) (fun v1 => ?_)
      obtain ⟨a1, m1⟩ := v1
      simp only []
      refine fuel_le_bind _ _ _ _ (ih _ _ _ _) (fun v2 => ?_)
      obtain ⟨a2, m2⟩ := v2
      exact merge_fuel _ _ _ _ _ _ _
    · exact Or.inr rfl

theorem fuel_le_ok {α : Type} (g : Nat → Except Fault α)
    (hstep : ∀ f, fuel_le (g f) (g (f + 1))) (f0 : Nat) (v : α) (h0 : g f0 = .ok v)
    (f : Nat) : g f = .error .outOfFuel ∨ g f = .ok v := by
  have hup : ∀ d a, fuel_le (g a) (g (a + d)) := by
    intro d
    induction d with
    | zero => exact fun a => fuel_le_refl _
    | succ d ih => exact fun a => fuel_le_trans _ _ _ (ih a) (hstep (a + d))
  by_cases hle : f ≤ f0
  · have h := hup (f0 - f) f
    rw [show f + (f0 - f) = f0 by omega, h0] at h
    exact h
  · have h := hup (f - f0) f0
    rw [show f0 + (f - f0) = f by omega, h0] at h
    rcases h with h | h
    · exact absurd h (by simp)
    · exact Or.inr h.symm

theorem heapify_step (f : Nat) (arr : List Int) (n i : Int) (mm : Metrics) (hi : 0 ≤ i)
    (hn : n ≤ arr.length) :
    (hlargest arr n i = i ∧
      heapify f arr n i mm = .ok (arr, ⟨mm.comparisons + hcmp n i, mm.exchanges⟩)) ∨
    (i < hlargest arr n i ∧ hlargest arr n i < n ∧
      heapify (f + 1) arr n i mm
        = heapify f (swp arr i (hlargest arr n i)) n (hlargest arr n i)
            ⟨mm.comparisons + hcmp n i, mm.exchanges + 1⟩) := by
  obtain ⟨h0, -⟩ := hlargest_spec arr n i
  by_cases hc : hlargest arr n i = i
  · left
    refine ⟨hc, ?_⟩
    rw [heapify_eq f arr n i mm hi hn, if_neg (not_not.mpr hc)]
  · right
    refine ⟨by omega, by omega, ?_⟩
    rw [heapify_eq (f + 1) arr n i mm hi hn, if_pos hc]

theorem merge_sort_recursive_step (f : Nat) (arr : List Int) (l r : Int) (mm : Metrics)
    (hlr : l < r) :
    l ≤ l + cdiv (r - l) 2 ∧ l + cdiv (r - l) 2 < r ∧
    merge_sort_recursive id (f + 1) arr l r mm =
      (merge_sort_recursive id f arr l (l + cdiv (r - l) 2) mm >>= fun p1 =>
        merge_sort_recursive id f p1.1 (l + cdiv (r - l) 2 + 1) r p1.2 >>= fun p2 =>
          merge id f p2.1 l (l + cdiv (r - l) 2) r p2.2) := by
  have hd : cdiv (r - l) 2 = (r - l) / 2 := cdiv_two _ (by omega)
  refine ⟨by omega, by omega, ?_⟩
  conv_lhs => unfold merge_sort_recursive
  rw [if_pos hlr]

theorem quick_sort_recursive_step (f : Nat) (arr : List Int) (low high : Int) (mm : Metrics)
    (h0 : 0 ≤ low) (hlh : low < high) (hh : high < arr.length) (hf : high - low ≤ f) :
    ∃ arr1 pi m1, partition f arr low high mm = .ok (arr1, pi, m1) ∧ low ≤ pi ∧ pi ≤ high ∧
      quick_sort_recursive (f + 1) arr low high mm =
        (quick_sort_recursive f arr1 low (pi - 1) m1 >>= fun p =>
          quick_sort_recursive f p.1 (pi + 1) high p.2) := by
  obtain ⟨arr1, p, m1, hrun, -, -, -, hp1, hp2, -⟩ :=
    partition_spec f arr low high mm h0 (by omega) hh hf
  refine ⟨arr1, p, m1, hrun, hp1, hp2, ?_⟩
  conv_lhs => unfold quick_sort_recursive
  rw [if_pos hlh]
  simp only []
  rw [hrun]
  rfl

/-- C19: each of the three sorts terminates on every array of every length `n >= 0`: with
fuel `n` (or more) `heap_sort`, `merge_sort` and `quick_sort` return a result. The recursive
calls go to strictly smaller problems: `heapify` either returns without recursing or calls
itself on an index `j` with `i < j < n`; `merge_sort_recursive` on `l < r` calls itself on
`[l, mid]` and `[mid + 1, r]` with `l <= mid < r`; `quick_sort_recursive` on `low < high`
calls itself on `[low, pi - 1]` and `[pi + 1, high]`, where `partition` has returned
`low <= pi <= high`. -/
theorem sorts_terminate (fuel : Nat) (arr : List Int) (m : Metrics)
    (hf : arr.length ≤ fuel) :
    (∃ out m1, heap_sort fuel arr arr.length m = .ok (out, m1)) ∧
    (∃ out m1, merge_sort id fuel arr arr.length m = .ok (out, m1)) ∧
    (∃ out m1, quick_sort fuel arr arr.length m = .ok (out, m1)) ∧
    (∀ (f : Nat) (n i : Int) (mm : Metrics), 0 ≤ i → n ≤ arr.length →
      (hlargest arr n i = i ∧
        heapify f arr n i mm = .ok (arr, ⟨mm.comparisons + hcmp n i, mm.exchanges⟩)) ∨
      (i < hlargest arr n i ∧ hlargest arr n i < n ∧
        heapify (f + 1) arr n i mm
          = heapify f (swp arr i (hlargest arr n i)) n (hlargest arr n i)
              ⟨mm.comparisons + hcmp n i, mm.exchanges + 1⟩)) ∧
    (∀ (f : Nat) (l r : Int) (mm : Metrics), l < r →
      l ≤ l + cdiv (r - l) 2 ∧ l + cdiv (r - l) 2 < r ∧
      merge_sort_recursive id (f + 1) arr l r mm =
        (merge_sort_recursive id f arr l (l + cdiv (r - l) 2) mm >>= fun p1 =>
          merge_sort_recursive id f p1.1 (l + cdiv (r - l) 2 + 1) r p1.2 >>= fun p2 =>
            merge id f p2.1 l (l + cdiv (r - l) 2) r p2.2)) ∧
    (∀ (f : Nat) (low high : Int) (mm : Metrics), 0 ≤ low → low < high →
      high < arr.length → high - low ≤ f →
      ∃ arr1 pi m1, partition f arr low high mm = .ok (arr1, pi, m1) ∧ low ≤ pi ∧ pi ≤ high ∧
        quick_sort_recursive (f + 1) arr low high mm =
          (quick_sort_recursive f arr1 low (pi - 1) m1 >>= fun p =>
            quick_sort_recursive f p.1 (pi + 1) high p.2)) := by
  obtain ⟨o1, r1, h1, -⟩ := heap_sort_run fuel arr m hf
  obtain ⟨o2, r2, h2, -⟩ := merge_sort_run fuel arr m hf
  obtain ⟨o3, r3, h3, -⟩ := quick_sort_run fuel arr m hf
  exact ⟨⟨o1, r1, h1⟩, ⟨o2, r2, h2⟩, ⟨o3, r3, h3⟩,
    fun f n i mm hi hn => heapify_step f arr n i mm hi hn,
    fun f l r mm hlr => merge_sort_recursive_step f arr l r mm hlr,
    fun f low high mm a b c d => quick_sort_recursive_step f arr low high mm a b c d⟩

theorem sorts_terminate_witness :
    ([3, 1, 2] : List Int).length ≤ 3 ∧
    (∃ out m1, heap_sort 3 [3, 1, 2] ([3, 1, 2] : List Int).length ⟨0, 0⟩ = .ok (out, m1)) ∧
    (∃ out m1, merge_sort id 3 [3, 1, 2] ([3, 1, 2] : List Int).length ⟨0, 0⟩
      = .ok (out, m1)) ∧
    (∃ out m1, quick_sort 3 [3, 1, 2] ([3, 1, 2] : List Int).length ⟨0, 0⟩ = .ok (out, m1)) :=
  ⟨by decide, (sorts_terminate 3 [3, 1, 2] ⟨0, 0⟩ (by decide)).1,
    (sorts_terminate 3 [3, 1, 2] ⟨0, 0⟩ (by decide)).2.1,
    (sorts_terminate 3 [3, 1, 2] ⟨0, 0⟩ (by decide)).2.2.1⟩

theorem copy_range_halves (arr : List Int) (l mid r : Int) (h0 : 0 ≤ l) (h1 : l ≤ mid)
    (h2 : mid < r) (h3 : r < arr.length) :
    ∃ L R, copy_range arr l (mid - l + 1) = .ok L ∧
      copy_range arr (mid + 1) (r - mid) = .ok R ∧
      (L.length : Int) = mid - l + 1 ∧ (R.length : Int) = r - mid := by
  refine ⟨(arr.drop l.toNat).take (mid - l + 1).toNat,
    (arr.drop (mid + 1).toNat).take (r - mid).toNat, ?_, ?_, ?_, ?_⟩
  · unfold copy_range
    rw [if_neg (by omega)]
  · unfold copy_range
    rw [if_neg (by omega)]
  · rw [List.length_take, List.length_drop]
    omega
  · rw [List.length_take, List.length_drop]
    omega

theorem quick_sort_safe (fuel : Nat) (arr : List Int) (m : Metrics) :
    ∃ r, quick_sort arr.length arr arr.length m = .ok r ∧
      (quick_sort fuel arr arr.length m = .error .outOfFuel ∨
        quick_sort fuel arr arr.length m = .ok r) := by
  obtain ⟨o, r, h, -⟩ := quick_sort_run arr.length arr m (le_refl _)
  exact ⟨(o, r), h, fuel_le_ok (fun f => quick_sort f arr arr.length m)
    (fun f => quick_sort_recursive_fuel f arr 0 _ _) arr.length (o, r) h fuel⟩

theorem merge_sort_safe (fuel : Nat) (arr : List Int) (m : Metrics) :
    ∃ r, merge_sort id arr.length arr arr.length m = .ok r ∧
      (merge_sort id fuel arr arr.length m = .error .outOfFuel ∨
        merge_sort id fuel arr arr.length m = .ok r) := by
  obtain ⟨o, r, h, -⟩ := merge_sort_run arr.length arr m (le_refl _)
  exact ⟨(o, r), h, fuel_le_ok (fun f => merge_sort id f arr arr.length m)
    (fun f => merge_sort_recursive_fuel id f arr 0 _ _) arr.length (o, r) h fuel⟩

theorem heap_sort_safe (fuel : Nat) (arr : List Int) (m : Metrics) :
    ∃ r, heap_sort arr.length arr arr.length m = .ok r ∧
      (heap_sort fuel arr arr.length m = .error .outOfFuel ∨
        heap_sort fuel arr arr.length m = .ok r) := by
  obtain ⟨o, r, h, -⟩ := heap_sort_run arr.length arr m (le_refl _)
  exact ⟨(o, r), h, fuel_le_ok (fun f => heap_sort f arr arr.length m)
    (fun f => heap_sort_fuel f arr arr.length m (le_refl _)) arr.length (o, r) h fuel⟩

theorem not_oob_of_safe {α : Type} (x : Except Fault α) (r : α)
    (h : x = .error .outOfFuel ∨ x = .ok r) : x ≠ .error .outOfBounds := by
  rcases h with h | h <;> rw [h] <;> simp

/-- C20: index safety. For every array of length `n >= 0` each of `heap_sort`, `merge_sort`
and `quick_sort` runs to a result when given fuel `n`, and a run with any other amount of fuel
either stops for lack of fuel or ends in that same result. Every array read and write of the
embedding is bounds-checked (also those of `heapify` at the children, of `partition` at
`arr[i+1]` and `arr[high]`, and of `merge` in the temporary halves), and a failed check ends
the run with `outOfBounds`: no run, complete or cut short, ever takes that branch. The
temporary halves `L` and `R` of `merge` have the lengths `mid - l + 1` and `r - mid`. -/
theorem index_safety (fuel : Nat) (arr : List Int) (m : Metrics) :
    (∃ r, heap_sort arr.length arr arr.length m = .ok r ∧
      (heap_sort fuel arr arr.length m = .error .outOfFuel ∨
        heap_sort fuel arr arr.length m = .ok r)) ∧
    (∃ r, merge_sort id arr.length arr arr.length m = .ok r ∧
      (merge_sort id fuel arr arr.length m = .error .outOfFuel ∨
        merge_sort id fuel arr arr.length m = .ok r)) ∧
    (∃ r, quick_sort arr.length arr arr.length m = .ok r ∧
      (quick_sort fuel arr arr.length m = .error .outOfFuel ∨
        quick_sort fuel arr arr.length m = .ok r)) ∧
    heap_sort fuel arr arr.length m ≠ .error .outOfBounds ∧
    merge_sort id fuel arr arr.length m ≠ .error .outOfBounds ∧
    quick_sort fuel arr arr.length m ≠ .error .outOfBounds ∧
    (∀ l mid r : Int, 0 ≤ l → l ≤ mid → mid < r → r < arr.length →
      ∃ L R, copy_range arr l (mid - l + 1) = .ok L ∧
        copy_range arr (mid + 1) (r - mid) = .ok R ∧
        (L.length : Int) = mid - l + 1 ∧ (R.length : Int) = r - mid) := by
  obtain ⟨r1, h1, s1⟩ := heap_sort_safe fuel arr m
  obtain ⟨r2, h2, s2⟩ := merge_sort_safe fuel arr m
  obtain ⟨r3, h3, s3⟩ := quick_sort_safe fuel arr m
  exact ⟨⟨r1, h1, s1⟩, ⟨r2, h2, s2⟩, ⟨r3, h3, s3⟩, not_oob_of_safe _ r1 s1,
    not_oob_of_safe _ r2 s2, not_oob_of_safe _ r3 s3,
    fun l mid r a b c d => copy_range_halves arr l mid r a b c d⟩

theorem quick_cmp_arith (a b c0 c1 c2 c3 : Int) (ha : 0 ≤ a) (hb : 0 ≤ b)
    (h1 : c1 = c0 + (a + b)) (h2 : 2 * (c2 - c1) ≤ a * (a - 1))
    (h3 : 2 * (c3 - c2) ≤ b * (b - 1)) : 2 * (c3 - c0) ≤ (a + b + 1) * (a + b) := by
  have hab := mul_nonneg ha hb
  nlinarith

theorem quick_sort_recursive_cmp :
    ∀ (fuel : Nat) (arr : List Int) (low high : Int) (m : Metrics),
      (low < high → 0 ≤ low ∧ high < arr.length) → low ≤ high + 1 → high - low < fuel →
      ∃ arr1 m1, quick_sort_recursive fuel arr low high m = .ok (arr1, m1) ∧
        arr1.length = arr.length ∧
        2 * (m1.comparisons - m.comparisons) ≤ (high - low + 1) * (high - low) := by
  intro fuel
  induction fuel with
  | zero =>
    intro arr low high m hb hle hf
    have hlh : ¬ low < high := by omega
    refine ⟨arr, m, ?_, rfl, ?_⟩
    · unfold quick_sort_recursive
      rw [if_neg hlh]
    · have : high - low = 0 ∨ high - low = -1 := by omega
      rcases this with h | h <;> rw [h] <;> simp
  | succ fuel ih =>
    intro arr low high m hb hle hf
    by_cases hlh : low < high
    · obtain ⟨h0, hh⟩ := hb hlh
      obtain ⟨arr1, p, m1, hrun1, hlen1, -, -, hp1, hp2, -, -, -, -, hc1, -⟩ :=
        partition_spec fuel arr low high m h0 (le_of_lt hlh) hh (by push_cast at hf; omega)
      obtain ⟨arr2, m2, hrun2, hlen2, hc2⟩ :=
        ih arr1 low (p - 1) m1 (fun _ => ⟨h0, by omega⟩) (by omega)
          (by push_cast at hf; omega)
      obtain ⟨arr3, m3, hrun3, hlen3, hc3⟩ :=
        ih arr2 (p + 1) high m2 (fun _ => ⟨by omega, by omega⟩) (by omega)
          (by push_cast at hf; omega)
      refine ⟨arr3, m3, ?_, by omega, ?_⟩
      · unfold quick_sort_recursive
        rw [if_pos hlh]
        simp only []
        rw [hrun1]
        simp only [bind_ok]
        rw [hrun2]
        simp only [bind_ok]
        exact hrun3
      · have e1 : p - 1 - low + 1 = p - low := by ring
        have e2 : p - 1 - low = p - low - 1 := by ring
        have e3 : high - (p + 1) + 1 = high - p := by ring
        have e4 : high - (p + 1) = high - p - 1 := by ring
        rw [e1, e2] at hc2
        rw [e3, e4] at hc3
        have key := quick_cmp_arith (p - low) (high - p) m.comparisons m1.comparisons
          m2.comparisons m3.comparisons (by omega) (by omega) (by rw [hc1]; ring) hc2 hc3
        have e5 : p - low + (high - p) = high - low := by ring
        rw [e5] at key
        exact key
    · refine ⟨arr, m, ?_, rfl, ?_⟩
      · unfold quick_sort_recursive
        rw [if_neg hlh]
      · have : high - low = 0 ∨ high - low = -1 := by omega
        rcases this with h | h <;> rw [h] <;> simp

theorem quick_sort_cmp_le (fuel : Nat) (arr : List Int) (m : Metrics)
    (hf : arr.length ≤ fuel) :
    ∃ out m1, quick_sort fuel arr arr.length m = .ok (out, m1) ∧
      m1.comparisons ≤ (arr.length : Int) * (arr.length - 1) / 2 := by
  obtain ⟨out, m1, hrun, -, hc⟩ :=
    quick_sort_recursive_cmp fuel arr 0 ((arr.length : Int) - 1)
      { m with comparisons := 0, exchanges := 0 } (fun _ => ⟨le_refl _, by omega⟩) (by omega)
      (by omega)
  refine ⟨out, m1, hrun, ?_⟩
  have e : ((arr.length : Int) - 1 - 0 + 1) * ((arr.length : Int) - 1 - 0)
      = (arr.length : Int) * (arr.length - 1) := by ring
  rw [e] at hc
  dsimp only at hc
  generalize (arr.length : Int) * (arr.length - 1) = X at hc ⊢
  omega

theorem quick_sort_cmp_sorted (fuel : Nat) (srt : List Int) (m : Metrics)
    (hs : List.Sorted (· ≤ ·) srt) (hf : srt.length ≤ fuel) :
    ∃ out m1, quick_sort fuel srt srt.length m = .ok (out, m1) ∧
      m1.comparisons = (srt.length : Int) * (srt.length - 1) / 2 := by
  by_cases hn : 1 ≤ srt.length
  · have hrun := quick_sort_recursive_sorted (srt.length - 1) fuel srt 0
      ((srt.length : Int) - 1) ⟨0, 0⟩ (by omega) (le_refl _) (by omega) (by omega)
      (fun a b ha hab hb => nth_le_of_sorted srt hs a b ha hab (by omega))
    obtain ⟨t1, -⟩ := tri_closed (srt.length : Int) (srt.length - 1) (by omega)
    refine ⟨srt, _, hrun, ?_⟩
    simp only [zero_add]
    exact t1
  · have h0 : srt.length = 0 := by omega
    refine ⟨srt, ⟨0, 0⟩, ?_, ?_⟩
    · unfold quick_sort
      simp only []
      unfold quick_sort_recursive
      rw [if_neg (by omega)]
    · rw [h0]
      simp

/-- C21: for every array of length `n >= 0`, whatever its values and their order,
`quick_sort` reports `comparisons <= n(n-1)/2`; on every non-decreasing array the bound is
attained, `comparisons = n(n-1)/2`. -/
theorem quick_sort_comparisons_bound (fuel : Nat) (arr srt : List Int) (m : Metrics)
    (hf : arr.length ≤ fuel) (hs : List.Sorted (· ≤ ·) srt) (hsf : srt.length ≤ fuel) :
    (∃ out m1, quick_sort fuel arr arr.length m = .ok (out, m1) ∧
      m1.comparisons ≤ (arr.length : Int) * (arr.length - 1) / 2) ∧
    (∃ out m1, quick_sort fuel srt srt.length m = .ok (out, m1) ∧
      m1.comparisons = (srt.length : Int) * (srt.length - 1) / 2) :=
  ⟨quick_sort_cmp_le fuel arr m hf, quick_sort_cmp_sorted fuel srt m hs hsf⟩

theorem quick_sort_comparisons_bound_witness :
    ([3, 1, 2] : List Int).length ≤ 3 ∧ List.Sorted (· ≤ ·) ([1, 2, 2] : List Int) ∧
    ([1, 2, 2] : List Int).length ≤ 3 ∧
    (∃ out m1, quick_sort 3 [3, 1, 2] ([3, 1, 2] : List Int).length ⟨0, 0⟩ = .ok (out, m1) ∧
      m1.comparisons
        ≤ (([3, 1, 2] : List Int).length : Int) * (([3, 1, 2] : List Int).length - 1) / 2) ∧
    (∃ out m1, quick_sort 3 [1, 2, 2] ([1, 2, 2] : List Int).length ⟨0, 0⟩ = .ok (out, m1) ∧
      m1.comparisons
        = (([1, 2, 2] : List Int).length : Int) * (([1, 2, 2] : List Int).length - 1) / 2) :=
  ⟨by decide, by decide, by decide,
    quick_sort_comparisons_bound 3 [3, 1, 2] [1, 2, 2] ⟨0, 0⟩ (by decide) (by decide)
      (by decide)⟩

/-- C22: for every array of length `n >= 1`, `merge_sort` reports
`comparisons <= exchanges - (n - 1)`. One call of `merge` on halves of sizes `n1` and `n2`
counts between `min(n1, n2)` and `n1 + n2 - 1` comparisons and exactly `n1 + n2` exchanges,
so each call adds at least one more exchange than comparisons. -/
theorem merge_sort_comparisons_bound (fuel : Nat) (arr : List Int) (m : Metrics)
    (hn : 1 ≤ arr.length) (hf : arr.length ≤ fuel) :
    (∃ out m1, merge_sort id fuel arr arr.length m = .ok (out, m1) ∧
      m1.comparisons ≤ m1.exchanges - ((arr.length : Int) - 1)) ∧
    (∀ (pre A B post : List Int) (l mid r : Int) (m0 : Metrics), l = pre.length →
      mid = l + A.length - 1 → r = mid + B.length → 1 ≤ A.length → 1 ≤ B.length →
      r - l ≤ fuel →
      ∃ out m1, merge id fuel (pre ++ A ++ B ++ post) l mid r m0 = .ok (out, m1) ∧
        m0.comparisons + min (A.length : Int) B.length ≤ m1.comparisons ∧
        m1.comparisons ≤ m0.comparisons + ((A.length : Int) + B.length - 1) ∧
        m1.exchanges = m0.exchanges + ((A.length : Int) + B.length)) := by
  constructor
  · obtain ⟨out, m1, hrun, -, he, hc, -⟩ := merge_sort_counts id fuel arr m hf
    have := hc hn
    exact ⟨out, m1, hrun, by omega⟩
  · intro pre A B post l mid r m0 hl hmid hr hA hB hfu
    obtain ⟨m1, hrun, he, hc1, hc2⟩ :=
      merge_spec id fuel pre A B post l mid r m0 hl hmid hr hA hB hfu
    exact ⟨_, m1, hrun, by omega, hc2, he⟩

theorem merge_sort_comparisons_bound_witness :
    1 ≤ ([3, 1, 2] : List Int).length ∧ ([3, 1, 2] : List Int).length ≤ 3 ∧
    ((∃ out m1, merge_sort id 3 [3, 1, 2] ([3, 1, 2] : List Int).length ⟨0, 0⟩
        = .ok (out, m1) ∧
      m1.comparisons ≤ m1.exchanges - ((([3, 1, 2] : List Int).length : Int) - 1)) ∧
    (∀ (pre A B post : List Int) (l mid r : Int) (m0 : Metrics), l = pre.length →
      mid = l + A.length - 1 → r = mid + B.length → 1 ≤ A.length → 1 ≤ B.length →
      r - l ≤ (3 : Nat) →
      ∃ out m1, merge id 3 (pre ++ A ++ B ++ post) l mid r m0 = .ok (out, m1) ∧
        m0.comparisons + min (A.length : Int) B.length ≤ m1.comparisons ∧
        m1.comparisons ≤ m0.comparisons + ((A.length : Int) + B.length - 1) ∧
        m1.exchanges = m0.exchanges + ((A.length : Int) + B.length))) :=
  ⟨by decide, by decide,
    merge_sort_comparisons_bound 3 [3, 1, 2] ⟨0, 0⟩ (by decide) (by decide)⟩

theorem heap_sort_exchanges_ge (fuel : Nat) (arr : List Int) (m : Metrics)
    (hf : arr.length ≤ fuel) :
    ∃ out m1, heap_sort fuel arr arr.length m = .ok (out, m1) ∧
      (arr.length : Int) ≤ m1.exchanges := by
  have hn0 : (0 : Int) ≤ arr.length := by omega
  obtain ⟨arr1, m1, hrun1, hlen1, -, -, hheap1, -, he1⟩ :=
    heap_sort_build_spec fuel arr.length fuel arr ((arr.length : Int) / 2 - 1)
      { m with comparisons := 0, exchanges := 0 } (by omega) (le_refl _) (by omega) (by omega)
      (fun j h1 h2 => ⟨fun h => absurd h (by omega), fun h => absurd h (by omega)⟩)
  obtain ⟨arr2, m2, hrun2, hlen2, -, -, -, he2⟩ :=
    heap_sort_extract_spec fuel fuel arr1 ((arr.length : Int) - 1) m1 (by omega)
      (by rw [hlen1]; omega) (by omega) (by omega)
      (fun j h1 h2 => by
        have := hheap1 j h1 (by omega)
        rwa [show (arr.length : Int) - 1 + 1 = arr.length by omega])
      (fun a b h1 h2 h3 => absurd h3 (by rw [hlen1]; omega))
      (fun a b h1 h2 h3 h4 => absurd h4 (by rw [hlen1]; omega))
  dsimp only at he1
  refine ⟨arr2, m2, ?_, by omega⟩
  unfold heap_sort
  simp only []
  rw [cdiv_two _ hn0, hrun1]
  simp only [bind_ok]
  exact hrun2

theorem heap_sort_extract_step (hfuel f : Nat) (a : List Int) (i : Int) (m0 : Metrics)
    (hi : 0 ≤ i) (hil : i < a.length) :
    heap_sort_extract hfuel (f + 1) a i m0
      = (heapify hfuel (swp a 0 i) i 0 ⟨m0.comparisons, m0.exchanges + 1⟩ >>= fun p =>
          heap_sort_extract hfuel f p.1 (i - 1) p.2) := by
  conv_lhs => unfold heap_sort_extract
  rw [if_pos (by omega)]
  simp only []
  rw [rd_eq a 0 (le_refl _) (by omega), rd_eq a i hi hil]
  simp only [bind_ok]
  rw [wr_eq a 0 _ (le_refl _) (by omega)]
  simp only [bind_ok]
  rw [wr_eq _ i _ hi (by rw [List.length_set]; exact hil)]
  simp only [bind_ok]
  rfl

theorem heap_sort_extract_last (hfuel f : Nat) (a : List Int) (m0 : Metrics)
    (ha : 1 ≤ a.length) :
    heap_sort_extract hfuel (f + 1) a 0 m0
      = .ok (a, ⟨m0.comparisons, m0.exchanges + 1⟩) := by
  rw [heap_sort_extract_step hfuel f a 0 m0 (le_refl _) (by omega),
    swp_self a 0 (le_refl _) (by omega),
    heapify_eq hfuel a 0 0 _ (le_refl _) (by omega)]
  have hl : hlargest a 0 0 = 0 := by simp [hlargest]
  rw [hl, if_neg (by simp)]
  simp only [bind_ok]
  unfold heap_sort_extract
  rw [if_neg (by omega)]
  simp [hcmp]

/-- C23: for every array of length `n >= 0`, `heap_sort` reports `exchanges >= n`. Each round
`i` of the extraction loop, for `i = n-1` down to `0` inclusive, counts one exchange for its
root swap before it calls `heapify`; the last round `i = 0` swaps index 0 with itself, leaves
the array as it is and still counts one exchange. On a single-element array `heap_sort`
reports `exchanges = 1` and `comparisons = 0`. -/
theorem heap_sort_exchanges_bound (fuel : Nat) (arr : List Int) (m : Metrics)
    (hf : arr.length ≤ fuel) :
    (∃ out m1, heap_sort fuel arr arr.length m = .ok (out, m1) ∧
      (arr.length : Int) ≤ m1.exchanges) ∧
    (∀ (f : Nat) (a : List Int) (i : Int) (m0 : Metrics), 0 ≤ i → i < a.length →
      heap_sort_extract fuel (f + 1) a i m0
        = (heapify fuel (swp a 0 i) i 0 ⟨m0.comparisons, m0.exchanges + 1⟩ >>= fun p =>
            heap_sort_extract fuel f p.1 (i - 1) p.2)) ∧
    (∀ (f : Nat) (a : List Int) (m0 : Metrics), 1 ≤ a.length →
      heap_sort_extract fuel (f + 1) a 0 m0
        = .ok (a, ⟨m0.comparisons, m0.exchanges + 1⟩)) ∧
    (∀ x : Int, heap_sort (fuel + 1) [x] 1 m = .ok ([x], ⟨0, 1⟩)) :=
  ⟨heap_sort_exchanges_ge fuel arr m hf,
    fun f a i m0 hi hil => heap_sort_extract_step fuel f a i m0 hi hil,
    fun f a m0 ha => heap_sort_extract_last fuel f a m0 ha,
    fun x => heap_sort_single x fuel m⟩

theorem heap_sort_exchanges_bound_witness :
    ([3, 1, 2] : List Int).length ≤ 3 ∧
    (∃ out m1, heap_sort 3 [3, 1, 2] ([3, 1, 2] : List Int).length ⟨0, 0⟩ = .ok (out, m1) ∧
      (([3, 1, 2] : List Int).length : Int) ≤ m1.exchanges) ∧
    (∀ x : Int, heap_sort (3 + 1) [x] 1 ⟨0, 0⟩ = .ok ([x], ⟨0, 1⟩)) :=
  ⟨by decide, (heap_sort_exchanges_bound 3 [3, 1, 2] ⟨0, 0⟩ (by decide)).1,
    (heap_sort_exchanges_bound 3 [3, 1, 2] ⟨0, 0⟩ (by decide)).2.2.2⟩

end Bench
